import Mathlib

/-!
Verification of the maze generation / solving core of the
Python-Maze-Solving-Game repository.

The Python sources are shallowly embedded:

* `MazeStructure`   -- src/maze/maze_structure.py (grid, start/end markers)
* `PathSolver`      -- src/solvers/path_solver.py (replay of a captured path)
* `RightHandSolver` -- src/solvers/right_hand_solver.py (wall following)
* `MazeGenerator`   -- src/maze/maze_generator.py (incremental DFS carving)

Python machine integers are modelled as `Int` (arbitrary precision in
Python), `%` as `Int.emod` (both are Euclidean for positive moduli) and
`//` as `Int.fdiv` (both floor).  Mutable state is passed explicitly.
Operations that can raise in Python (out-of-range list writes) return
`Option`.  The global `random` module is modelled as a stream of natural
numbers `f : Nat -> Nat` together with a cursor; `random.randint` /
`random.choice` consume one draw reduced modulo the number of outcomes
and `random.shuffle` of the four direction vectors consumes one draw
selecting one of the 24 permutations, so every sequence of random
choices of the Python program corresponds to some stream.
-/

/-- A (row, col) coordinate, matching Python's int tuples. -/
abbrev Pos := Int × Int

/-! ## MazeStructure (src/maze/maze_structure.py) -/

/-- The maze grid: `rows × cols` matrix of cells (0 = wall, 1 = path)
together with the `start` and `end` markers.  The Python attribute
`end` is called `endPos` here because `end` is a Lean keyword. -/
structure MazeStructure where
  rows : Nat
  cols : Nat
  grid : List (List Nat)
  start : Pos
  endPos : Pos

/-- `MazeStructure.__init__`: all-wall grid, markers at (0, 0). -/
def MazeStructure.mk0 (rows cols : Nat) : MazeStructure :=
  { rows := rows, cols := cols
    grid := List.replicate rows (List.replicate cols 0)
    start := (0, 0), endPos := (0, 0) }

/-- `set_start`. -/
def MazeStructure.set_start (m : MazeStructure) (position : Pos) : MazeStructure :=
  { m with start := position }

/-- `set_end`. -/
def MazeStructure.set_end (m : MazeStructure) (position : Pos) : MazeStructure :=
  { m with endPos := position }

/-- `is_valid_position`: `0 <= row < self.rows and 0 <= col < self.cols`. -/
def MazeStructure.is_valid_position (m : MazeStructure) (row col : Int) : Bool :=
  decide (0 ≤ row ∧ row < (m.rows : Int) ∧ 0 ≤ col ∧ col < (m.cols : Int))

/-- Reading `self.grid[row][col]` (only ever evaluated on valid,
hence non-negative, coordinates). -/
def MazeStructure.cellAt (m : MazeStructure) (row col : Int) : Nat :=
  (m.grid.getD row.toNat []).getD col.toNat 0

/-- `is_wall`: out-of-bounds positions report `True`. -/
def MazeStructure.is_wall (m : MazeStructure) (row col : Int) : Bool :=
  if m.is_valid_position row col then decide (m.cellAt row col = 0) else true

/-- `is_path`: out-of-bounds positions report `False`. -/
def MazeStructure.is_path (m : MazeStructure) (row col : Int) : Bool :=
  if m.is_valid_position row col then decide (m.cellAt row col = 1) else false

/-- `set_cell`: writes `self.grid[row][col] = value` when the position is
valid, otherwise does nothing. -/
def MazeStructure.set_cell (m : MazeStructure) (row col : Int) (value : Nat) : MazeStructure :=
  if m.is_valid_position row col then
    { m with grid := m.grid.set row.toNat ((m.grid.getD row.toNat []).set col.toNat value) }
  else m

/-- `carve_path`: `set_cell(row, col, 1)`. -/
def MazeStructure.carve_path (m : MazeStructure) (row col : Int) : MazeStructure :=
  m.set_cell row col 1

/-! ## PathSolver (src/solvers/path_solver.py)

Replays the solution path captured during generation.  The maze
structure reference is only used by `start_solving` (to read the start
marker), so it is passed there explicitly. -/

/-- State of the path-replay solver. -/
structure PathSolver where
  solution_path : List Pos
  current_step : Nat
  solving_complete : Bool
  current_pos : Option Pos

/-- `PathSolver.__init__`. -/
def PathSolver.mk0 : PathSolver :=
  { solution_path := [], current_step := 0, solving_complete := false, current_pos := none }

/-- `set_solution_path`. -/
def PathSolver.set_solution_path (ps : PathSolver) (path : List Pos) : PathSolver :=
  { ps with solution_path := path, current_step := 0, solving_complete := false }

/-- `start_solving` (reads the grid's start marker). -/
def PathSolver.start_solving (m : MazeStructure) (ps : PathSolver) : PathSolver :=
  { ps with current_step := 0, solving_complete := false, current_pos := some m.start }

/-- `step_solve`: empty path or exhausted cursor marks completion and
returns `False` (Python's `not self.solution_path` is the emptiness
test, and `self.current_step >= len(self.solution_path)` the cursor
test); otherwise the robot moves to `path[current_step]` and the
cursor advances. -/
def PathSolver.step_solve (ps : PathSolver) : PathSolver × Bool :=
  if ps.solution_path.isEmpty then
    ({ ps with solving_complete := true }, false)
  else if ps.solution_path.length ≤ ps.current_step then
    ({ ps with solving_complete := true }, false)
  else
    ({ ps with current_pos := some (ps.solution_path.getD ps.current_step (0, 0))
               current_step := ps.current_step + 1 }, true)

/-- `clear_path`. -/
def PathSolver.clear_path (ps : PathSolver) : PathSolver :=
  { ps with current_step := 0 }

/-! ## RightHandSolver (src/solvers/right_hand_solver.py) -/

/-- State of the wall-following solver.  `current_direction` is the
Python int index into the direction vector table (kept in 0..3 by the
code; theorems about states reached from `start_solving` carry that
bound as a hypothesis where the table is indexed). -/
structure RightHandSolver where
  current_pos : Option Pos
  current_direction : Int
  path_taken : List Pos
  solving_complete : Bool
  visited_positions : List Pos

/-- `self.directions`: North, East, South, West vectors. -/
def rhsDirections : List Pos := [(-1, 0), (0, 1), (1, 0), (0, -1)]

/-- `start_solving`: at the grid's start marker, facing East. -/
def RightHandSolver.start_solving (m : MazeStructure) : RightHandSolver :=
  { current_pos := some m.start, current_direction := 1
    path_taken := [m.start], solving_complete := false
    visited_positions := [m.start] }

/-- The `(new_row, new_col)` computation of
`_get_position_in_direction`: current position plus the direction
vector `self.directions[direction]`. -/
def rhsTarget (p : Pos) (direction : Int) : Pos :=
  (p.1 + (rhsDirections.getD direction.toNat (0, 0)).1,
   p.2 + (rhsDirections.getD direction.toNat (0, 0)).2)

/-- `_get_position_in_direction`: `None` stays `None`; otherwise add the
direction vector and bounds-check the result. -/
def get_position_in_direction (m : MazeStructure) (pos : Option Pos) (direction : Int) :
    Option Pos :=
  match pos with
  | none => none
  | some p =>
    if m.is_valid_position (rhsTarget p direction).1 (rhsTarget p direction).2 then
      some (rhsTarget p direction)
    else none

/-- `_can_move_to`: `None` is not movable; otherwise the target must be
a Path cell. -/
def can_move_to (m : MazeStructure) (pos : Option Pos) : Bool :=
  match pos with
  | none => false
  | some (row, col) => m.is_path row col

/-- `_get_next_move`: try right turn, then straight, then left turn,
then reverse; return the first movable target with its direction, or
`(None, current_direction)`. -/
def get_next_move (m : MazeStructure) (s : RightHandSolver) : Option Pos × Int :=
  let right_direction := (s.current_direction + 1) % 4
  let right_pos := get_position_in_direction m s.current_pos right_direction
  if can_move_to m right_pos then (right_pos, right_direction)
  else
    let straight_pos := get_position_in_direction m s.current_pos s.current_direction
    if can_move_to m straight_pos then (straight_pos, s.current_direction)
    else
      let left_direction := (s.current_direction - 1) % 4
      let left_pos := get_position_in_direction m s.current_pos left_direction
      if can_move_to m left_pos then (left_pos, left_direction)
      else
        let back_direction := (s.current_direction + 2) % 4
        let back_pos := get_position_in_direction m s.current_pos back_direction
        if can_move_to m back_pos then (back_pos, back_direction)
        else (none, s.current_direction)

/-- `_is_exit_adjacent`: exit at Manhattan distance exactly 1 and
movable. -/
def is_exit_adjacent (m : MazeStructure) (s : RightHandSolver) : Bool :=
  match s.current_pos with
  | none => false
  | some (cr, cc) =>
    if (cr - m.endPos.1).natAbs + (cc - m.endPos.2).natAbs = 1 then
      can_move_to m (some m.endPos)
    else false

/-- `step_solve` of the right-hand solver. -/
def RightHandSolver.step_solve (m : MazeStructure) (s : RightHandSolver) :
    RightHandSolver × Bool :=
  if s.solving_complete then (s, false)
  else if s.current_pos = some m.endPos then
    ({ s with solving_complete := true }, false)
  else if is_exit_adjacent m s then
    ({ s with current_pos := some m.endPos
              path_taken := s.path_taken ++ [m.endPos]
              solving_complete := true }, false)
  else
    match get_next_move m s with
    | (some next_pos, next_direction) =>
      ({ s with current_pos := some next_pos
                current_direction := next_direction
                path_taken := s.path_taken ++ [next_pos]
                visited_positions := s.visited_positions.insert next_pos }, true)
    | (none, _) => ({ s with solving_complete := true }, false)

/-! Spec-side rendering of the wall-following rule (§4.4 of the spec),
used to state the refinement claim C7: candidate directions in strict
priority order right, straight, left, reverse, taking the first whose
target cell is in bounds and a Path. -/

/-- Spec order of candidate directions: right turn, straight, left
turn, reverse. -/
def specWallFollowCandidates (d : Int) : List Int :=
  [(d + 1) % 4, d, (d - 1) % 4, (d + 2) % 4]

/-- Spec rule for one candidate direction: accept it when the target
cell is in bounds and a Path cell. -/
def specTryMove (m : MazeStructure) (p : Pos) (c : Int) : Option (Pos × Int) :=
  if m.is_valid_position (rhsTarget p c).1 (rhsTarget p c).2 &&
      m.is_path (rhsTarget p c).1 (rhsTarget p c).2 then
    some (rhsTarget p c, c)
  else none

/-- Spec rule: first candidate whose target cell is in bounds and a
Path cell, paired with that candidate direction. -/
def specFirstRightHandMove (m : MazeStructure) (p : Pos) (d : Int) : Option (Pos × Int) :=
  (specWallFollowCandidates d).findSome? (specTryMove m p)

/-! ## MazeGenerator (src/maze/maze_generator.py) -/

/-- The global `random` module: a stream of draws and a cursor. -/
structure PyRand where
  f : Nat → Nat
  idx : Nat

/-- Consume one draw. -/
def PyRand.next (r : PyRand) : Nat × PyRand :=
  (r.f r.idx, { r with idx := r.idx + 1 })

/-- One of the 24 orders of a four-element list, selected by a draw:
the model of `random.shuffle` on the four direction vectors (any
permutation the Python shuffle can produce is `pick4 k` for some
draw `k`). -/
def pick4 (k : Nat) (a b c d : Pos) : List Pos :=
  match k % 24 with
  | 0 => [a, b, c, d]
  | 1 => [a, b, d, c]
  | 2 => [a, c, b, d]
  | 3 => [a, c, d, b]
  | 4 => [a, d, b, c]
  | 5 => [a, d, c, b]
  | 6 => [b, a, c, d]
  | 7 => [b, a, d, c]
  | 8 => [b, c, a, d]
  | 9 => [b, c, d, a]
  | 10 => [b, d, a, c]
  | 11 => [b, d, c, a]
  | 12 => [c, a, b, d]
  | 13 => [c, a, d, b]
  | 14 => [c, b, a, d]
  | 15 => [c, b, d, a]
  | 16 => [c, d, a, b]
  | 17 => [c, d, b, a]
  | 18 => [d, a, b, c]
  | 19 => [d, a, c, b]
  | 20 => [d, b, a, c]
  | 21 => [d, b, c, a]
  | 22 => [d, c, a, b]
  | _ => [d, c, b, a]

/-- Read one entry of the `visited` boolean matrix (out-of-range reads
give `false`; the generator only reads in range). -/
def vget (v : List (List Bool)) (i j : Nat) : Bool :=
  (v.getD i []).getD j false

/-- Write one entry of the `visited` boolean matrix (callers establish
the indices are in range, as Python's `visited[i][j] = True` requires).
-/
def vset (v : List (List Bool)) (i j : Nat) (b : Bool) : List (List Bool) :=
  v.set i ((v.getD i []).set j b)

/-- State of the maze generator (`MazeGenerator.__init__`).  The
`phase`, `solving_complete` and `solving_current_step` attributes of
the Python class are set in `__init__` and never used by the generator
itself, and the `random` module state is carried in `rand`. -/
structure MazeGenerator where
  maze : MazeStructure
  visited : List (List Bool)
  generation_complete : Bool
  current_pos : Option Pos
  stack : List Pos
  solution_path : List Pos
  found_exit_during_generation : Bool
  rand : PyRand

/-- `MazeGenerator.__init__` over a fresh `MazeStructure(rows, cols)`. -/
def MazeGenerator.mk0 (rows cols : Nat) (r : PyRand) : MazeGenerator :=
  { maze := MazeStructure.mk0 rows cols
    visited := List.replicate rows (List.replicate cols false)
    generation_complete := false
    current_pos := none
    stack := []
    solution_path := []
    found_exit_during_generation := false
    rand := r }

/-- `rand_edge_row` (local function of `initialize_entry_exit`): for
1-2 rows any row (`random.randint(0, rows-1)`), otherwise a random odd
interior row (`random.choice` on the odd rows in `range(1, rows-1)`). -/
def rand_edge_row (rows : Nat) (r : PyRand) : Nat × PyRand :=
  if rows ≤ 2 then
    let (k, r') := r.next
    (k % rows, r')
  else
    let odd_rows := (List.range' 1 (rows - 2)).filter (fun x => x % 2 = 1)
    let (k, r') := r.next
    (odd_rows.getD (k % odd_rows.length) 0, r')

/-- `initialize_entry_exit`: place start on the left border and end on
the right border at independently drawn rows, and carve both. -/
def setupEntryExit (g : MazeGenerator) : (Pos × Pos) × MazeGenerator :=
  let (sr, r1) := rand_edge_row g.maze.rows g.rand
  let (er, r2) := rand_edge_row g.maze.rows r1
  let startPos : Pos := ((sr : Int), 0)
  let endP : Pos := ((er : Int), (g.maze.cols : Int) - 1)
  let m := (g.maze.set_start startPos).set_end endP
  let m := m.carve_path startPos.1 startPos.2
  let m := m.carve_path endP.1 endP.2
  ((startPos, endP), { g with maze := m, rand := r2 })

/-- `start_generation`: entry/exit placement, then seed the DFS next to
the entrance.  The write `self.visited[sx][sy] = True` raises an
`IndexError` in Python when the index is out of range (which happens
for `cols == 1`, since `sy` has been moved to column 1); that failure
is modelled as `none`. -/
def start_generation (g0 : MazeGenerator) : Option MazeGenerator :=
  let (se, g) := setupEntryExit g0
  let sx := se.1.1
  let sy0 := se.1.2
  let m1 := if sy0 = 0 then g.maze.carve_path sx 1 else g.maze
  let sy : Int := if sy0 = 0 then 1 else sy0
  let m2 := m1.carve_path sx sy
  if sx.toNat < g.maze.rows ∧ sy.toNat < g.maze.cols then
    some { g with maze := m2
                  visited := vset g.visited sx.toNat sy.toNat true
                  current_pos := some (sx, sy)
                  stack := [(sx, sy)] }
  else none

/-- The four lattice moves `[(0, 2), (2, 0), (0, -2), (-2, 0)]`. -/
def dfsDirections : List Pos := [(0, 2), (2, 0), (0, -2), (-2, 0)]

/-- The acceptance test of the shuffled-direction loop in `_step_dfs`:
the target must be strictly inside the border and not yet visited. -/
def dirOk (g : MazeGenerator) (x y : Int) (d : Pos) : Bool :=
  decide (0 < x + d.1 ∧ x + d.1 < (g.maze.rows : Int) - 1 ∧
          0 < y + d.2 ∧ y + d.2 < (g.maze.cols : Int) - 1) &&
    !(vget g.visited (x + d.1).toNat (y + d.2).toNat)

/-- The loop body of `_create_complete_path`: between consecutive
waypoints insert the midpoint cell when it differs from the previous
waypoint. -/
def completePathAux : Pos → List Pos → List Pos
  | _, [] => []
  | prev, curr :: rest =>
    let mid : Pos := ((prev.1 + curr.1).fdiv 2, (prev.2 + curr.2).fdiv 2)
    (if mid ≠ prev then [mid] else []) ++ curr :: completePathAux curr rest

/-- `_create_complete_path`: fill lattice gaps in the DFS stack path. -/
def create_complete_path (dfsPath : List Pos) : List Pos :=
  if dfsPath.length < 2 then dfsPath
  else
    match dfsPath with
    | [] => []
    | p0 :: rest => p0 :: completePathAux p0 rest

/-- The exit peek of `_step_dfs`: if the exit has not been found and
the cell right of the head is the exit, capture the stack as the
solution path (gaps filled) with the exit appended. -/
def peekExit (g : MazeGenerator) (x y : Int) : MazeGenerator :=
  if !g.found_exit_during_generation && ((x, y + 1) = g.maze.endPos : Bool) then
    { g with found_exit_during_generation := true
             solution_path := create_complete_path g.stack ++ [g.maze.endPos] }
  else g

/-- `_step_dfs`: empty stack completes; otherwise peek for the exit,
shuffle the four lattice moves, take the first acceptable one (carve
wall cell and target, mark visited, push, move robot) or backtrack by
popping (robot to the new top if any); both of the latter return
`True`. -/
def step_dfs (g0 : MazeGenerator) : MazeGenerator × Bool :=
  match g0.stack.getLast? with
  | none => ({ g0 with generation_complete := true }, false)
  | some (x, y) =>
    let g1 := peekExit g0 x y
    let (k, r') := g1.rand.next
    let dirs := pick4 k (0, 2) (2, 0) (0, -2) (-2, 0)
    let g := { g1 with rand := r' }
    match dirs.find? (fun d => dirOk g x y d) with
    | some d =>
      let nx := x + d.1
      let ny := y + d.2
      let m := (g.maze.carve_path (x + d.1.fdiv 2) (y + d.2.fdiv 2)).carve_path nx ny
      ({ g with maze := m
                visited := vset g.visited nx.toNat ny.toNat true
                stack := g.stack ++ [(nx, ny)]
                current_pos := some (nx, ny) }, true)
    | none =>
      let st := g.stack.dropLast
      ({ g with stack := st
                current_pos := match st.getLast? with
                               | some p => some p
                               | none => g.current_pos }, true)

/-- `step_generation`: `False` immediately once complete, else one DFS
step. -/
def step_generation (g : MazeGenerator) : MazeGenerator × Bool :=
  if g.generation_complete then (g, false) else step_dfs g

/-- `get_solution_path`. -/
def get_solution_path (g : MazeGenerator) : List Pos :=
  if g.found_exit_during_generation then g.solution_path else []

/-- Driving a stepping component by repeated `step()` calls until one
returns `False` (the "natural" animation loop), with fuel; the flag
reports whether a `False` return happened within the fuel. -/
def stepUntilFalse (step : α → α × Bool) : Nat → α → α × Bool
  | 0, s => (s, false)
  | n + 1, s =>
    let r := step s
    if r.2 then stepUntilFalse step n r.1 else (r.1, true)

/-- The skip loops of `GameStateManager.skip_current_phase` /
`create_maze_instantly`: `while not complete: step()`, with fuel. -/
def skipLoop (step : α → α × Bool) (done : α → Bool) : Nat → α → α
  | 0, s => s
  | n + 1, s => if done s then s else skipLoop step done n (step s).1

/-- `create_maze_instantly`: start generation if not yet started
(`if not self.current_pos`), then loop `step_generation` until
`generation_complete`. -/
def create_maze_instantly (fuel : Nat) (g : MazeGenerator) : Option MazeGenerator :=
  match g.current_pos with
  | none => (start_generation g).map (skipLoop step_generation (·.generation_complete) fuel)
  | some _ => some (skipLoop step_generation (·.generation_complete) fuel g)

/-! ## Flood fill over Path cells

The spec's connectivity invariant is phrased as a flood fill from the
start marker moving only through Path cells.  `floodStep` adds every
in-bounds Path cell orthogonally adjacent to the current set;
`reachesEnd` saturates (`rows*cols + 1` iterations always suffice) and
asks whether the end marker was reached. -/

/-- The four orthogonal neighbours of a cell. -/
def adjCells (p : Pos) : List Pos :=
  [(p.1 - 1, p.2), (p.1 + 1, p.2), (p.1, p.2 - 1), (p.1, p.2 + 1)]

/-- One flood-fill expansion: add the new Path neighbours of the set. -/
def floodStep (m : MazeStructure) (s : List Pos) : List Pos :=
  s ++ ((s.flatMap adjCells).filter (fun q => m.is_path q.1 q.2 && !(s.contains q))).dedup

/-- Iterated flood-fill expansion. -/
def floodIter (m : MazeStructure) : Nat → List Pos → List Pos
  | 0, s => s
  | n + 1, s => floodIter m n (floodStep m s)

/-- Whether a flood fill from `start` through Path cells reaches the
`end` marker. -/
def reachesEnd (m : MazeStructure) : Bool :=
  (floodIter m (m.rows * m.cols + 1) [m.start]).contains m.endPos

/-- One flood-fill move: `q` is an orthogonal neighbour of `p` and a
Path cell. -/
def PathAdj (m : MazeStructure) (p q : Pos) : Prop :=
  q ∈ adjCells p ∧ m.is_path q.1 q.2 = true

/-- Path-connectivity: the reflexive-transitive closure of
`PathAdj`. -/
def Reach (m : MazeStructure) : Pos → Pos → Prop :=
  Relation.ReflTransGen (PathAdj m)

/-! ## Heap model of `MazeStructure.copy`

`copy` duplicates `self.grid` with `[row[:] for row in self.grid]`;
whether the copy shares mutable state with the original is a question
about Python's heap, so the grid rows are modelled as separately
allocated list objects: a store `RowStore` holds the row contents and
each structure holds the ids of its rows.  `copy` allocates fresh ids
(at the end of the store) holding copies of the original row contents,
exactly as the slice `row[:]` does. -/

/-- The heap of allocated row lists, indexed by allocation id. -/
abbrev RowStore := List (List Nat)

/-- A maze structure whose grid rows live in a `RowStore`. -/
structure HeapMaze where
  rows : Nat
  cols : Nat
  rowIds : List Nat
  start : Pos
  endPos : Pos

/-- Well-formed pair: one row id per row, all ids allocated. -/
def hmWF (σ : RowStore) (m : HeapMaze) : Prop :=
  m.rowIds.length = m.rows ∧ ∀ i ∈ m.rowIds, i < σ.length

/-- `is_valid_position` on the heap model. -/
def hmValid (m : HeapMaze) (row col : Int) : Bool :=
  decide (0 ≤ row ∧ row < (m.rows : Int) ∧ 0 ≤ col ∧ col < (m.cols : Int))

/-- Reading `self.grid[r][c]` through the heap. -/
def hmRead (σ : RowStore) (m : HeapMaze) (r c : Nat) : Nat :=
  (σ.getD (m.rowIds.getD r 0) []).getD c 0

/-- `set_cell` through the heap: mutates the row object in place. -/
def hmSetCell (σ : RowStore) (m : HeapMaze) (row col : Int) (value : Nat) : RowStore :=
  if hmValid m row col then
    σ.set (m.rowIds.getD row.toNat 0)
      ((σ.getD (m.rowIds.getD row.toNat 0) []).set col.toNat value)
  else σ

/-- `carve_path` through the heap. -/
def hmCarve (σ : RowStore) (m : HeapMaze) (row col : Int) : RowStore :=
  hmSetCell σ m row col 1

/-- `set_start` touches only the structure's own attribute, not the
heap. -/
def hmSetStart (σ : RowStore) (m : HeapMaze) (p : Pos) : RowStore × HeapMaze :=
  (σ, { m with start := p })

/-- `set_end` touches only the structure's own attribute, not the
heap. -/
def hmSetEnd (σ : RowStore) (m : HeapMaze) (p : Pos) : RowStore × HeapMaze :=
  (σ, { m with endPos := p })

/-- `copy`: a new structure over freshly allocated rows whose contents
are copied (`row[:]`) from the original's rows. -/
def hmCopy (σ : RowStore) (m : HeapMaze) : RowStore × HeapMaze :=
  (σ ++ m.rowIds.map (fun i => σ.getD i []),
   { m with rowIds := (List.range m.rowIds.length).map (fun j => σ.length + j) })

/-- A concrete 1×2 all-path corridor with start (0, 0) and end (0, 1). -/
def corridor2 : MazeStructure :=
  { rows := 1, cols := 2, grid := [[1, 1]], start := (0, 0), endPos := (0, 1) }

/-- A concrete 1×3 all-path corridor with start (0, 0) and end (0, 2),
used to witness solver theorems on a state where a normal wall-follow
move happens. -/
def corridorMaze : MazeStructure :=
  { rows := 1, cols := 3, grid := [[1, 1, 1]], start := (0, 0), endPos := (0, 2) }

/-- A well-formed `rows × cols` matrix represented as a list of row
lists. -/
def rectWF (v : List (List α)) (rows cols : Nat) : Prop :=
  v.length = rows ∧ ∀ row ∈ v, row.length = cols

/-! Termination measure for generation: every cell the DFS ever visits
has an odd column index (the seed sits at column 1 and the lattice
moves change coordinates by ±2), so twice the number of unvisited
odd-column cells plus the stack height bounds the remaining `True`
steps. -/

/-- The in-bounds cells with odd column index. -/
def oddColCells (rows cols : Nat) : Finset (Nat × Nat) :=
  (Finset.range rows) ×ˢ ((Finset.range cols).filter (fun c => c % 2 = 1))

/-- Number of odd-column cells not yet visited. -/
def unvisitedCount (g : MazeGenerator) : Nat :=
  ((oddColCells g.maze.rows g.maze.cols).filter
    (fun p => vget g.visited p.1 p.2 = false)).card

/-- The decreasing measure: each `True` step of generation either
visits a fresh odd-column cell (one push) or pops the stack. -/
def genMeasure (g : MazeGenerator) : Nat :=
  2 * unvisitedCount g + g.stack.length + 1

/-- The (Prop-level) invariant driving the generation-termination
bound: the visited matrix is well-formed and every stacked cell has an
odd column. -/
def GenBound (g : MazeGenerator) : Prop :=
  rectWF g.visited g.maze.rows g.maze.cols ∧ ∀ p ∈ g.stack, p.2 % 2 = 1

/-! Invariant for the connectivity proof (C1): the DFS visits only
lattice cells (odd row and column, strictly inside the border), every
visited cell is carved and path-connected to the seed, and every
visited cell that has left the stack has all its lattice neighbours
visited. -/

/-- Whether the Python visited matrix holds `True` at an integer
coordinate pair (negative coordinates are never marked). -/
def visB (v : List (List Bool)) (p : Pos) : Bool :=
  decide (0 ≤ p.1 ∧ 0 ≤ p.2) && vget v p.1.toNat p.2.toNat

/-- A lattice cell: odd row and column, strictly inside the border. -/
def LatCell (R C : Nat) (p : Pos) : Prop :=
  p.1 % 2 = 1 ∧ p.2 % 2 = 1 ∧ 0 < p.1 ∧ p.1 < (R : Int) - 1 ∧ 0 < p.2 ∧ p.2 < (C : Int) - 1

/-- Lattice adjacency: `q` is a lattice cell two steps away from `p`
in one axis direction. -/
def LatAdj (R C : Nat) (p q : Pos) : Prop :=
  LatCell R C q ∧ (q = (p.1 + 2, p.2) ∨ q = (p.1 - 2, p.2) ∨
    q = (p.1, p.2 + 2) ∨ q = (p.1, p.2 - 2))

/-- The generation invariant for the connectivity proof.  `seed` is the
DFS seed cell, `s0` / `e0` the entrance and exit markers. -/
structure GenInv (R C : Nat) (seed s0 e0 : Pos) (g : MazeGenerator) : Prop where
  rows_eq : g.maze.rows = R
  cols_eq : g.maze.cols = C
  gwf : rectWF g.maze.grid R C
  start_eq : g.maze.start = s0
  end_eq : g.maze.endPos = e0
  start_path : g.maze.is_path s0.1 s0.2 = true
  end_path : g.maze.is_path e0.1 e0.2 = true
  stack_vis : ∀ p ∈ g.stack, visB g.visited p = true
  vis_lat : ∀ p, visB g.visited p = true → LatCell R C p
  vis_path : ∀ p, visB g.visited p = true → g.maze.is_path p.1 p.2 = true
  vis_conn : ∀ p, visB g.visited p = true → Reach g.maze seed p
  seed_vis : visB g.visited seed = true
  closed_off : ∀ p, visB g.visited p = true → p ∉ g.stack → ∀ q, LatAdj R C p q →
    visB g.visited q = true
  vwf : rectWF g.visited R C

/-- All cells a flood fill from the start marker can mention. -/
def cellFinset (m : MazeStructure) : Finset Pos :=
  insert m.start ((Finset.range m.rows ×ˢ Finset.range m.cols).image
    (fun rc => ((rc.1 : Int), (rc.2 : Int))))

/-! ## Wall-following on perfect mazes (C2)

The wall follower's local rule is a scan over four candidate
directions.  The analysis works over an abstract finite set `V` of
Path cells: the rule induces a permutation of "directed edges"
(position plus arrival direction), whose single orbit on a tree is
proved by leaf-removal induction and then instantiated with the Path
cells of the maze. -/

/-- Orthogonal grid adjacency (Manhattan distance one). -/
def VAdj (p q : Pos) : Prop :=
  (p.1 - q.1).natAbs + (p.2 - q.2).natAbs = 1

instance (p q : Pos) : Decidable (VAdj p q) := by
  unfold VAdj
  infer_instance

/-- The candidate directions of `_get_next_move`, in priority order:
right turn, straight, left turn, reverse. -/
def cand (e : Int) : List Int :=
  [(e + 1) % 4, e, (e - 1) % 4, (e + 2) % 4]

/-- The wall-following scan over an abstract cell set: first candidate
direction whose target is in `V`. -/
def scanDir (V : Finset Pos) (p : Pos) (e : Int) : Option Int :=
  (cand e).find? (fun k => decide (rhsTarget p k ∈ V))

/-- One abstract wall-following step on (position, arrival direction)
states. -/
def eNext (V : Finset Pos) (s : Pos × Int) : Pos × Int :=
  match scanDir V s.1 s.2 with
  | some k => (rhsTarget s.1 k, k)
  | none => s

/-- Valid directed-edge states: the position and the cell we came from
are both in `V`, and the direction index is canonical. -/
def EOk (V : Finset Pos) (s : Pos × Int) : Prop :=
  s.1 ∈ V ∧ rhsTarget s.1 ((s.2 + 2) % 4) ∈ V ∧ 0 ≤ s.2 ∧ s.2 < 4

instance (V : Finset Pos) (s : Pos × Int) : Decidable (EOk V s) := by
  unfold EOk
  infer_instance

/-- The finite set of valid directed-edge states over `V`. -/
def EStates (V : Finset Pos) : Finset (Pos × Int) :=
  (V ×ˢ ({0, 1, 2, 3} : Finset Int)).filter (fun s => EOk V s)

/-- A simple path inside `V` from `u` to `v`: chained orthogonal
steps, all cells in `V`, no repeated cell. -/
def IsSimplePathOn (V : Finset Pos) (u v : Pos) (l : List Pos) : Prop :=
  l.Chain' VAdj ∧ (∀ p ∈ l, p ∈ V) ∧ l.Nodup ∧ l.head? = some u ∧
    l.getLast? = some v

/-- A perfect maze on the cell set `V`: exactly one simple path
between any two cells. -/
def PerfectOn (V : Finset Pos) : Prop :=
  ∀ u ∈ V, ∀ v ∈ V, ∃! l : List Pos, IsSimplePathOn V u v l

/-- The set of neighbours of a cell inside `V`. -/
def nbrs (V : Finset Pos) (p : Pos) : Finset Pos :=
  V.filter (fun q => VAdj p q)

/-- The Path cells of a maze, as a finite set. -/
def pathCells (m : MazeStructure) : Finset Pos :=
  ((Finset.range m.rows ×ˢ Finset.range m.cols).image
    (fun rc => ((rc.1 : Int), (rc.2 : Int)))).filter
    (fun p => m.is_path p.1 p.2)

/-- `ℓ` is a leaf of `V` with unique neighbour `u`. -/
def IsLeaf (V : Finset Pos) (l u : Pos) : Prop :=
  l ∈ V ∧ u ∈ V ∧ VAdj l u ∧ ∀ w ∈ V, VAdj l w → w = u

/-- The solver state corresponding to an abstract directed-edge
state: position, direction, and an unset completion flag. -/
def rhsMatches (s : RightHandSolver) (x : Pos × Int) : Prop :=
  s.current_pos = some x.1 ∧ s.current_direction = x.2 ∧
    s.solving_complete = false

/-- Iterating the right-hand solver: the state after `n` calls to
`step_solve`. -/
def rhsIter (m : MazeStructure) : Nat → RightHandSolver → RightHandSolver
  | 0, s => s
  | n + 1, s => rhsIter m n (RightHandSolver.step_solve m s).1

/-! # Theorems -/

/-! ## Matrix access lemmas -/

theorem rectWF_replicate (rows cols : Nat) (a : α) :
    rectWF (List.replicate rows (List.replicate cols a)) rows cols := by
  constructor
  · simp
  · intro row hrow
    rw [List.eq_of_mem_replicate hrow]
    simp

theorem rectWF_set (v : List (List α)) (rows cols i j : Nat) (b : α)
    (h : rectWF v rows cols) :
    rectWF (v.set i ((v.getD i []).set j b)) rows cols := by
  obtain ⟨hl, hr⟩ := h
  by_cases hi : i < v.length
  · constructor
    · simpa using hl
    · intro row hrow
      rcases List.mem_or_eq_of_mem_set hrow with hmem | heq
      · exact hr row hmem
      · subst heq
        rw [List.length_set, List.getD_eq_getElem v [] hi]
        exact hr _ (List.getElem_mem hi)
  · rw [List.set_eq_of_length_le (by omega)]
    exact ⟨hl, hr⟩

theorem getD_set_self (l : List α) (i : Nat) (a d : α) (h : i < l.length) :
    (l.set i a).getD i d = a := by
  rw [List.getD_eq_getElem?_getD, List.getElem?_set_self (by simpa using h)]
  rfl

theorem getD_set_other (l : List α) (i j : Nat) (a d : α) (h : i ≠ j) :
    (l.set i a).getD j d = l.getD j d := by
  rw [List.getD_eq_getElem?_getD, List.getElem?_set_ne h, ← List.getD_eq_getElem?_getD]

theorem vget_vset_self (v : List (List Bool)) (rows cols i j : Nat) (b : Bool)
    (hwf : rectWF v rows cols) (hi : i < rows) (hj : j < cols) :
    vget (vset v i j b) i j = b := by
  obtain ⟨hl, hr⟩ := hwf
  have hi' : i < v.length := by omega
  have hrow : (v.getD i []).length = cols := by
    rw [List.getD_eq_getElem v [] hi']
    exact hr _ (List.getElem_mem hi')
  unfold vget vset
  rw [getD_set_self _ _ _ _ hi', getD_set_self _ _ _ _ (by omega)]

theorem vget_vset_other (v : List (List Bool)) (i j i' j' : Nat) (b : Bool)
    (h : ¬(i' = i ∧ j' = j)) :
    vget (vset v i j b) i' j' = vget v i' j' := by
  unfold vget vset
  by_cases hi : i = i'
  · subst hi
    have hj : j ≠ j' := fun hj => h ⟨rfl, hj.symm⟩
    by_cases hlen : i < v.length
    · rw [getD_set_self _ _ _ _ hlen, getD_set_other _ _ _ _ _ hj]
    · rw [List.set_eq_of_length_le (by omega)]
  · rw [getD_set_other _ _ _ _ _ hi]

theorem vget_replicate (rows cols i j : Nat) :
    vget (List.replicate rows (List.replicate cols false)) i j = false := by
  unfold vget
  by_cases hi : i < rows <;> by_cases hj : j < cols <;>
    simp [List.getD_eq_getElem?_getD, List.getElem?_replicate, hi, hj]

/-! ## Carving lemmas -/

theorem carve_fields (m : MazeStructure) (r c : Int) :
    (m.carve_path r c).rows = m.rows ∧ (m.carve_path r c).cols = m.cols ∧
    (m.carve_path r c).start = m.start ∧ (m.carve_path r c).endPos = m.endPos := by
  unfold MazeStructure.carve_path MazeStructure.set_cell
  by_cases h : m.is_valid_position r c = true <;> simp [h]

theorem carve_rows (m : MazeStructure) (r c : Int) : (m.carve_path r c).rows = m.rows :=
  (carve_fields m r c).1

theorem carve_cols (m : MazeStructure) (r c : Int) : (m.carve_path r c).cols = m.cols :=
  (carve_fields m r c).2.1

theorem carve_start (m : MazeStructure) (r c : Int) : (m.carve_path r c).start = m.start :=
  (carve_fields m r c).2.2.1

theorem carve_endPos (m : MazeStructure) (r c : Int) :
    (m.carve_path r c).endPos = m.endPos :=
  (carve_fields m r c).2.2.2

theorem carve_valid_eq (m : MazeStructure) (r c x y : Int) :
    (m.carve_path r c).is_valid_position x y = m.is_valid_position x y := by
  unfold MazeStructure.is_valid_position
  rw [(carve_fields m r c).1, (carve_fields m r c).2.1]

theorem carve_wf (m : MazeStructure) (r c : Int) (h : rectWF m.grid m.rows m.cols) :
    rectWF (m.carve_path r c).grid (m.carve_path r c).rows (m.carve_path r c).cols := by
  obtain ⟨h1, h2, h3, h4⟩ := carve_fields m r c
  rw [h1, h2]
  unfold MazeStructure.carve_path MazeStructure.set_cell
  by_cases hv : m.is_valid_position r c = true
  · simp only [hv, if_true]
    exact rectWF_set _ _ _ _ _ _ h
  · simp only [hv]
    simpa using h

theorem carve_is_path_self (m : MazeStructure) (r c : Int)
    (hwf : rectWF m.grid m.rows m.cols) (hv : m.is_valid_position r c = true) :
    (m.carve_path r c).is_path r c = true := by
  have hb := of_decide_eq_true hv
  obtain ⟨hl, hrw⟩ := hwf
  have hr' : r.toNat < m.grid.length := by omega
  have hrow : (m.grid.getD r.toNat []).length = m.cols := by
    rw [List.getD_eq_getElem _ _ hr']
    exact hrw _ (List.getElem_mem hr')
  unfold MazeStructure.carve_path MazeStructure.set_cell
  rw [if_pos hv]
  unfold MazeStructure.is_path MazeStructure.cellAt
  have hv' : (MazeStructure.mk m.rows m.cols
      (m.grid.set r.toNat ((m.grid.getD r.toNat []).set c.toNat 1)) m.start
      m.endPos).is_valid_position r c = true := hv
  rw [if_pos hv']
  show decide ((((m.grid.set r.toNat ((m.grid.getD r.toNat []).set c.toNat 1)).getD
    r.toNat []).getD c.toNat 0) = 1) = true
  rw [getD_set_self _ _ _ _ hr', getD_set_self _ _ _ _ (by omega)]
  decide

theorem carve_is_path_other (m : MazeStructure) (r c a b : Int)
    (hwf : rectWF m.grid m.rows m.cols) (hne : ¬(a = r ∧ b = c)) :
    (m.carve_path r c).is_path a b = m.is_path a b := by
  by_cases hv : m.is_valid_position r c = true
  · by_cases hab : m.is_valid_position a b = true
    · have hcell : (m.carve_path r c).cellAt a b = m.cellAt a b := by
        have hvr := of_decide_eq_true hv
        have hvab := of_decide_eq_true hab
        obtain ⟨hl, hrw⟩ := hwf
        unfold MazeStructure.carve_path MazeStructure.set_cell
        rw [if_pos hv]
        unfold MazeStructure.cellAt
        show ((m.grid.set r.toNat ((m.grid.getD r.toNat []).set c.toNat 1)).getD
            a.toNat []).getD b.toNat 0 = (m.grid.getD a.toNat []).getD b.toNat 0
        by_cases hra : a = r
        · subst hra
          have hcb : ¬ b = c := fun hbc => hne ⟨rfl, hbc⟩
          have hcb' : c.toNat ≠ b.toNat := by omega
          have hlen : a.toNat < m.grid.length := by omega
          rw [getD_set_self _ _ _ _ hlen, getD_set_other _ _ _ _ _ hcb']
        · have hi : a.toNat ≠ r.toNat := by omega
          rw [getD_set_other _ _ _ _ _ (Ne.symm hi)]
      unfold MazeStructure.is_path
      rw [carve_valid_eq m r c a b, if_pos hab, if_pos hab, hcell]
    · unfold MazeStructure.is_path
      rw [carve_valid_eq m r c a b, if_neg hab, if_neg hab]
  · unfold MazeStructure.carve_path MazeStructure.set_cell
    rw [if_neg hv]

theorem carve_is_path_mono (m : MazeStructure) (r c a b : Int)
    (hwf : rectWF m.grid m.rows m.cols) (h : m.is_path a b = true) :
    (m.carve_path r c).is_path a b = true := by
  by_cases hab : a = r ∧ b = c
  · obtain ⟨ha, hb⟩ := hab
    subst ha; subst hb
    by_cases hv : m.is_valid_position a b = true
    · exact carve_is_path_self m a b hwf hv
    · unfold MazeStructure.carve_path MazeStructure.set_cell
      rw [if_neg hv]
      exact h
  · rw [carve_is_path_other m r c a b hwf hab]
    exact h

theorem is_path_valid (m : MazeStructure) (a b : Int) (h : m.is_path a b = true) :
    m.is_valid_position a b = true := by
  unfold MazeStructure.is_path at h
  by_cases hv : m.is_valid_position a b = true
  · exact hv
  · rw [if_neg hv] at h; exact absurd h (by simp)

/-! ## Entry/exit placement and generation start -/

theorem rand_edge_row_spec (rows : Nat) (r : PyRand) (h : 1 ≤ rows) :
    (rand_edge_row rows r).1 < rows ∧
    (3 ≤ rows → (rand_edge_row rows r).1 % 2 = 1 ∧ 1 ≤ (rand_edge_row rows r).1 ∧
      (rand_edge_row rows r).1 + 2 ≤ rows) := by
  unfold rand_edge_row
  by_cases h2 : rows ≤ 2
  · simp only [h2, if_true]
    exact ⟨Nat.mod_lt _ (by omega), fun h3 => absurd h3 (by omega)⟩
  · simp only [h2, if_false]
    have hmem_one : 1 ∈ (List.range' 1 (rows - 2)).filter (fun x => x % 2 = 1) := by
      apply List.mem_filter.mpr
      refine ⟨?_, by norm_num⟩
      have : (1 : Nat) ≤ 1 ∧ (1 : Nat) < 1 + (rows - 2) := ⟨le_refl _, by omega⟩
      simpa [List.mem_range'_1] using this.2
    have hlen_pos : 0 < ((List.range' 1 (rows - 2)).filter (fun x => x % 2 = 1)).length :=
      List.length_pos_of_mem hmem_one
    have hidx : r.next.1 % ((List.range' 1 (rows - 2)).filter
        (fun x => x % 2 = 1)).length < ((List.range' 1 (rows - 2)).filter
        (fun x => x % 2 = 1)).length := Nat.mod_lt _ hlen_pos
    have hmem : ((List.range' 1 (rows - 2)).filter (fun x => x % 2 = 1)).getD
        (r.next.1 % ((List.range' 1 (rows - 2)).filter (fun x => x % 2 = 1)).length) 0 ∈
        (List.range' 1 (rows - 2)).filter (fun x => x % 2 = 1) := by
      rw [List.getD_eq_getElem _ _ hidx]
      exact List.getElem_mem hidx
    obtain ⟨hrange, hodd⟩ := List.mem_filter.mp hmem
    rw [List.mem_range'_1] at hrange
    have hodd' := of_decide_eq_true hodd
    exact ⟨by omega, fun _ => ⟨hodd', by omega, by omega⟩⟩

theorem mk0_is_path (rows cols : Nat) (a b : Int) :
    (MazeStructure.mk0 rows cols).is_path a b = false := by
  unfold MazeStructure.is_path
  by_cases hv : (MazeStructure.mk0 rows cols).is_valid_position a b = true
  · rw [if_pos hv]
    have : (MazeStructure.mk0 rows cols).cellAt a b = 0 := by
      unfold MazeStructure.cellAt MazeStructure.mk0
      by_cases hi : a.toNat < rows <;> by_cases hj : b.toNat < cols <;>
        simp [List.getD_eq_getElem?_getD, List.getElem?_replicate, hi, hj]
    rw [this]
    decide
  · rw [if_neg hv]

/-- The explicit generator state that `start_generation` produces on a
fresh `rows × cols` generator (for `cols ≥ 2`, where the visited write
is in range): entry at row `sr`, exit at row `er`, DFS seeded at
`(sr, 1)`. -/
def startedGen (rows cols : Nat) (sr er : Nat) (r2 : PyRand) : MazeGenerator :=
  { maze := (((((MazeStructure.mk0 rows cols).set_start ((sr : Int), 0)).set_end
        ((er : Int), (cols : Int) - 1)).carve_path (sr : Int) 0).carve_path (er : Int)
        ((cols : Int) - 1)).carve_path (sr : Int) 1 |>.carve_path (sr : Int) 1
    visited := vset (List.replicate rows (List.replicate cols false)) sr 1 true
    generation_complete := false
    current_pos := some ((sr : Int), 1)
    stack := [((sr : Int), 1)]
    solution_path := []
    found_exit_during_generation := false
    rand := r2 }

theorem start_generation_eq (rows cols : Nat) (r : PyRand)
    (hsr : (rand_edge_row rows r).1 < rows) (hc : 2 ≤ cols) :
    start_generation (MazeGenerator.mk0 rows cols r) =
      some (startedGen rows cols (rand_edge_row rows r).1
        (rand_edge_row rows (rand_edge_row rows r).2).1
        (rand_edge_row rows (rand_edge_row rows r).2).2) := by
  have hsetup : setupEntryExit (MazeGenerator.mk0 rows cols r) =
      (((((rand_edge_row rows r).1 : Int), 0),
        (((rand_edge_row rows (rand_edge_row rows r).2).1 : Int), (cols : Int) - 1)),
       { maze := ((((MazeStructure.mk0 rows cols).set_start
              (((rand_edge_row rows r).1 : Int), 0)).set_end
              (((rand_edge_row rows (rand_edge_row rows r).2).1 : Int),
                (cols : Int) - 1)).carve_path ((rand_edge_row rows r).1 : Int)
              0).carve_path ((rand_edge_row rows (rand_edge_row rows r).2).1 : Int)
              ((cols : Int) - 1)
         visited := List.replicate rows (List.replicate cols false)
         generation_complete := false
         current_pos := none
         stack := []
         solution_path := []
         found_exit_during_generation := false
         rand := (rand_edge_row rows (rand_edge_row rows r).2).2 }) := rfl
  unfold start_generation
  rw [hsetup]
  dsimp only
  norm_num
  refine ⟨⟨?_, ?_⟩, rfl⟩
  · rw [carve_rows, carve_rows]
    exact hsr
  · rw [carve_cols, carve_cols]
    show 1 < cols
    omega

theorem valid_mk (m : MazeStructure) (a b : Int)
    (h : 0 ≤ a ∧ a < (m.rows : Int) ∧ 0 ≤ b ∧ b < (m.cols : Int)) :
    m.is_valid_position a b = true := decide_eq_true h

/-- The four carves of `initialize_entry_exit` / `start_generation` on
an all-wall grid carve exactly the entrance, the exit, and the seed
cell (the seed cell is carved twice). -/
theorem carve4_is_path (M : MazeStructure) (s0 e0 s1 : Pos)
    (hwf : rectWF M.grid M.rows M.cols)
    (hbase : ∀ a b : Int, M.is_path a b = false)
    (hv0 : M.is_valid_position s0.1 s0.2 = true)
    (hv1 : M.is_valid_position e0.1 e0.2 = true)
    (hv2 : M.is_valid_position s1.1 s1.2 = true) :
    ∀ a b : Int,
      ((((M.carve_path s0.1 s0.2).carve_path e0.1 e0.2).carve_path
          s1.1 s1.2).carve_path s1.1 s1.2).is_path a b = true ↔
        ((a, b) = s0 ∨ (a, b) = e0 ∨ (a, b) = s1) := by
  have w2 := carve_wf M s0.1 s0.2 hwf
  have w3 := carve_wf _ e0.1 e0.2 w2
  have w4 := carve_wf _ s1.1 s1.2 w3
  intro a b
  constructor
  · intro h
    by_contra hne
    push_neg at hne
    obtain ⟨hn0, hn1, hn2⟩ := hne
    have pne : ∀ q : Pos, (a, b) ≠ q → ¬(a = q.1 ∧ b = q.2) := by
      intro q hq ⟨h1, h2⟩
      exact hq (by rw [h1, h2])
    rw [carve_is_path_other _ _ _ _ _ w4 (pne s1 hn2)] at h
    rw [carve_is_path_other _ _ _ _ _ w3 (pne s1 hn2)] at h
    rw [carve_is_path_other _ _ _ _ _ w2 (pne e0 hn1)] at h
    rw [carve_is_path_other _ _ _ _ _ hwf (pne s0 hn0)] at h
    rw [hbase a b] at h
    simp at h
  · intro h
    rcases h with h | h | h
    · obtain ⟨ha, hb⟩ := Prod.mk.injEq a b s0.1 s0.2 ▸ h
      subst ha; subst hb
      apply carve_is_path_mono _ _ _ _ _ w4
      apply carve_is_path_mono _ _ _ _ _ w3
      apply carve_is_path_mono _ _ _ _ _ w2
      exact carve_is_path_self M s0.1 s0.2 hwf hv0
    · obtain ⟨ha, hb⟩ := Prod.mk.injEq a b e0.1 e0.2 ▸ h
      subst ha; subst hb
      apply carve_is_path_mono _ _ _ _ _ w4
      apply carve_is_path_mono _ _ _ _ _ w3
      refine carve_is_path_self _ e0.1 e0.2 w2 ?_
      rw [carve_valid_eq]
      exact hv1
    · obtain ⟨ha, hb⟩ := Prod.mk.injEq a b s1.1 s1.2 ▸ h
      subst ha; subst hb
      apply carve_is_path_mono _ _ _ _ _ w4
      refine carve_is_path_self _ s1.1 s1.2 w3 ?_
      rw [carve_valid_eq, carve_valid_eq]
      exact hv2

/-- Facts about the maze right after `start_generation`: dimensions,
markers, well-formedness, and the exact set of carved cells. -/
theorem startedGen_facts (rows cols sr er : Nat) (r2 : PyRand)
    (hsr : sr < rows) (her : er < rows) (hc : 2 ≤ cols) :
    (startedGen rows cols sr er r2).maze.rows = rows ∧
    (startedGen rows cols sr er r2).maze.cols = cols ∧
    (startedGen rows cols sr er r2).maze.start = ((sr : Int), 0) ∧
    (startedGen rows cols sr er r2).maze.endPos = ((er : Int), (cols : Int) - 1) ∧
    rectWF (startedGen rows cols sr er r2).maze.grid rows cols ∧
    (∀ a b : Int, (startedGen rows cols sr er r2).maze.is_path a b = true ↔
      ((a, b) = ((sr : Int), 0) ∨ (a, b) = ((er : Int), (cols : Int) - 1) ∨
        (a, b) = ((sr : Int), 1))) := by
  have hwf0 : rectWF (MazeStructure.mk0 rows cols).grid rows cols :=
    rectWF_replicate rows cols 0
  have hv0 : (0 : Int) ≤ (sr : Int) ∧ (sr : Int) < (rows : Int) ∧ (0 : Int) ≤ 0 ∧
      (0 : Int) < (cols : Int) := by omega
  have hv1 : (0 : Int) ≤ (er : Int) ∧ (er : Int) < (rows : Int) ∧
      (0 : Int) ≤ (cols : Int) - 1 ∧ (cols : Int) - 1 < (cols : Int) := by omega
  have hv2 : (0 : Int) ≤ (sr : Int) ∧ (sr : Int) < (rows : Int) ∧ (0 : Int) ≤ 1 ∧
      (1 : Int) < (cols : Int) := by omega
  refine ⟨?_, ?_, ?_, ?_, ?_, ?_⟩
  · show ((((((MazeStructure.mk0 rows cols).set_start ((sr : Int), 0)).set_end
        ((er : Int), (cols : Int) - 1)).carve_path (sr : Int) 0).carve_path (er : Int)
        ((cols : Int) - 1)).carve_path (sr : Int) 1 |>.carve_path (sr : Int) 1).rows = rows
    rw [carve_rows, carve_rows, carve_rows, carve_rows]
    rfl
  · show ((((((MazeStructure.mk0 rows cols).set_start ((sr : Int), 0)).set_end
        ((er : Int), (cols : Int) - 1)).carve_path (sr : Int) 0).carve_path (er : Int)
        ((cols : Int) - 1)).carve_path (sr : Int) 1 |>.carve_path (sr : Int) 1).cols = cols
    rw [carve_cols, carve_cols, carve_cols, carve_cols]
    rfl
  · show ((((((MazeStructure.mk0 rows cols).set_start ((sr : Int), 0)).set_end
        ((er : Int), (cols : Int) - 1)).carve_path (sr : Int) 0).carve_path (er : Int)
        ((cols : Int) - 1)).carve_path (sr : Int) 1 |>.carve_path (sr : Int) 1).start =
        ((sr : Int), 0)
    rw [carve_start, carve_start, carve_start, carve_start]
    rfl
  · show ((((((MazeStructure.mk0 rows cols).set_start ((sr : Int), 0)).set_end
        ((er : Int), (cols : Int) - 1)).carve_path (sr : Int) 0).carve_path (er : Int)
        ((cols : Int) - 1)).carve_path (sr : Int) 1 |>.carve_path (sr : Int) 1).endPos =
        ((er : Int), (cols : Int) - 1)
    rw [carve_endPos, carve_endPos, carve_endPos, carve_endPos]
    rfl
  · have w2 := carve_wf (((MazeStructure.mk0 rows cols).set_start
        ((sr : Int), 0)).set_end ((er : Int), (cols : Int) - 1)) (sr : Int) 0 hwf0
    have w3 := carve_wf _ (er : Int) ((cols : Int) - 1) w2
    have w4 := carve_wf _ (sr : Int) 1 w3
    have w5 := carve_wf _ (sr : Int) 1 w4
    have hr : ((((((MazeStructure.mk0 rows cols).set_start ((sr : Int), 0)).set_end
        ((er : Int), (cols : Int) - 1)).carve_path (sr : Int) 0).carve_path (er : Int)
        ((cols : Int) - 1)).carve_path (sr : Int) 1 |>.carve_path (sr : Int) 1).rows =
        rows := by rw [carve_rows, carve_rows, carve_rows, carve_rows]; rfl
    have hcc : ((((((MazeStructure.mk0 rows cols).set_start ((sr : Int), 0)).set_end
        ((er : Int), (cols : Int) - 1)).carve_path (sr : Int) 0).carve_path (er : Int)
        ((cols : Int) - 1)).carve_path (sr : Int) 1 |>.carve_path (sr : Int) 1).cols =
        cols := by rw [carve_cols, carve_cols, carve_cols, carve_cols]; rfl
    rw [hr, hcc] at w5
    exact w5
  · exact carve4_is_path (((MazeStructure.mk0 rows cols).set_start
        ((sr : Int), 0)).set_end ((er : Int), (cols : Int) - 1))
      ((sr : Int), 0) ((er : Int), (cols : Int) - 1) ((sr : Int), 1)
      hwf0 (fun a b => mk0_is_path rows cols a b)
      (valid_mk _ _ _ hv0) (valid_mk _ _ _ hv1) (valid_mk _ _ _ hv2)

/-- Facts about the visited matrix right after `start_generation`:
well-formed and true exactly at the seed `(sr, 1)`. -/
theorem startedGen_visited (rows cols sr er : Nat) (r2 : PyRand)
    (hsr : sr < rows) (hc : 2 ≤ cols) :
    rectWF (startedGen rows cols sr er r2).visited rows cols ∧
    (∀ i j : Nat, vget (startedGen rows cols sr er r2).visited i j = true ↔
      (i = sr ∧ j = 1)) := by
  constructor
  · exact rectWF_set _ rows cols _ _ _ (rectWF_replicate rows cols false)
  · intro i j
    constructor
    · intro h
      by_cases hij : i = sr ∧ j = 1
      · exact hij
      · have h' : vget (vset (List.replicate rows (List.replicate cols false))
            sr 1 true) i j = true := h
        rw [vget_vset_other _ _ _ _ _ _ hij, vget_replicate] at h'
        simp at h'
    · rintro ⟨rfl, rfl⟩
      show vget (vset (List.replicate rows (List.replicate cols false)) i 1 true) i 1 =
        true
      exact vget_vset_self _ rows cols _ _ _ (rectWF_replicate rows cols false) hsr
        (by omega)

/-- The exit peek only touches `found_exit_during_generation` and
`solution_path`. -/
theorem peekExit_pres (g : MazeGenerator) (x y : Int) :
    (peekExit g x y).stack = g.stack ∧ (peekExit g x y).rand = g.rand ∧
    (peekExit g x y).visited = g.visited ∧ (peekExit g x y).maze = g.maze ∧
    (peekExit g x y).generation_complete = g.generation_complete ∧
    (peekExit g x y).current_pos = g.current_pos := by
  unfold peekExit
  split <;> simp

/-- Every order produced by the shuffle model holds exactly the four
direction vectors. -/
theorem pick4_mem (k : Nat) (a b c d x : Pos) (h : x ∈ pick4 k a b c d) :
    x = a ∨ x = b ∨ x = c ∨ x = d := by
  have h24 : k % 24 < 24 := Nat.mod_lt _ (by norm_num)
  unfold pick4 at h
  generalize hn : k % 24 = n at h h24
  interval_cases n <;> simp only [List.mem_cons, List.not_mem_nil, or_false] at h <;> tauto

/-- A candidate direction whose target violates the interior bounds is
rejected regardless of the visited matrix. -/
theorem dirOk_false_of (g : MazeGenerator) (x y : Int) (d : Pos)
    (h : ¬(0 < x + d.1 ∧ x + d.1 < (g.maze.rows : Int) - 1 ∧
           0 < y + d.2 ∧ y + d.2 < (g.maze.cols : Int) - 1)) :
    dirOk g x y d = false := by
  unfold dirOk
  rw [decide_eq_false h]
  rfl

/-- A DFS step from a singleton stack with no acceptable direction pops
to the empty stack and still returns `True`. -/
theorem step_dfs_singleton_pop (g : MazeGenerator) (x y : Int)
    (hstack : g.stack = [(x, y)])
    (hfail : ∀ d ∈ pick4 (g.rand.next.1) (0, 2) (2, 0) (0, -2) (-2, 0),
      dirOk g x y d = false) :
    (step_dfs g).2 = true ∧ (step_dfs g).1.stack = [] ∧
    (step_dfs g).1.generation_complete = g.generation_complete := by
  obtain ⟨hps, hpr, hpv, hpm, hpc, hpp⟩ := peekExit_pres g x y
  have hfind : (pick4 (((peekExit g x y).rand.next).1) (0, 2) (2, 0)
      (0, -2) (-2, 0)).find? (fun d => dirOk { peekExit g x y with
        rand := ((peekExit g x y).rand.next).2 } x y d) = none := by
    apply List.find?_eq_none.mpr
    intro d hd
    rw [hpr] at hd
    have heq : dirOk { peekExit g x y with rand := ((peekExit g x y).rand.next).2 } x y d =
        dirOk g x y d := by
      unfold dirOk
      dsimp only
      rw [hpm, hpv]
    rw [heq, hfail d hd]
    simp
  unfold step_dfs
  rw [hstack]
  simp only [List.getLast?_singleton]
  rw [hfind]
  dsimp only
  rw [hps, hstack, hpc]
  simp

/-- One generation step on a non-completed state with an empty stack
marks completion and returns `False`. -/
theorem step_generation_empty_stack (g : MazeGenerator)
    (hc : g.generation_complete = false) (hs : g.stack = []) :
    step_generation g = ({ g with generation_complete := true }, false) := by
  unfold step_generation step_dfs
  rw [hc, hs]
  rfl

/-- C5 counterexample: on the 1×1 grid, `start_generation` does not
succeed for any random stream — it raises an `IndexError` (modelled as
`none`), because after moving the seed to column 1 the write
`self.visited[sx][1]` is out of range when `cols == 1`.  Exhibited at
the constant-zero random stream. -/
theorem C5_one_by_one_counterexample :
    start_generation (MazeGenerator.mk0 1 1 ⟨fun _ => 0, 0⟩) = none := by
  rfl

/-- C5 amended: on a 1×1 grid (indeed whenever `cols == 1`)
`start_generation` raises an `IndexError`; for the remaining degenerate
grids (`rows ≤ 2` or `cols ≤ 2`, with `cols ≥ 2`) generation
degenerates gracefully for every random stream: `start_generation`
succeeds, the first `step_generation` returns `True` (an immediate
dead-end backtrack), and the second returns `False` with generation
marked complete; start sits on the left border and end on the right
border. -/
theorem C5_small_grids_amended (f : Nat → Nat) (rows cols : Nat)
    (h1 : 1 ≤ rows) (h2 : 2 ≤ cols) (h3 : rows ≤ 2 ∨ cols ≤ 2) :
    ∃ g : MazeGenerator,
      start_generation (MazeGenerator.mk0 rows cols ⟨f, 0⟩) = some g ∧
      (step_generation g).2 = true ∧
      (step_generation (step_generation g).1).2 = false ∧
      (step_generation (step_generation g).1).1.generation_complete = true ∧
      g.maze.start.2 = 0 ∧ g.maze.endPos.2 = (cols : Int) - 1 := by
  obtain ⟨hsr_lt, -⟩ := rand_edge_row_spec rows ⟨f, 0⟩ h1
  obtain ⟨her_lt, -⟩ := rand_edge_row_spec rows (rand_edge_row rows ⟨f, 0⟩).2 h1
  obtain ⟨hR, hC, hS, hE, -, -⟩ := startedGen_facts rows cols
    (rand_edge_row rows ⟨f, 0⟩).1 (rand_edge_row rows (rand_edge_row rows ⟨f, 0⟩).2).1
    (rand_edge_row rows (rand_edge_row rows ⟨f, 0⟩).2).2 hsr_lt her_lt h2
  refine ⟨startedGen rows cols (rand_edge_row rows ⟨f, 0⟩).1
    (rand_edge_row rows (rand_edge_row rows ⟨f, 0⟩).2).1
    (rand_edge_row rows (rand_edge_row rows ⟨f, 0⟩).2).2,
    start_generation_eq rows cols ⟨f, 0⟩ hsr_lt h2, ?_⟩
  have hsr_nonneg : (0 : Int) ≤ ((rand_edge_row rows ⟨f, 0⟩).1 : Int) := by positivity
  have hsr_lt' : ((rand_edge_row rows ⟨f, 0⟩).1 : Int) < (rows : Int) := by
    exact_mod_cast hsr_lt
  have hfail : ∀ d ∈ pick4 ((startedGen rows cols (rand_edge_row rows ⟨f, 0⟩).1
      (rand_edge_row rows (rand_edge_row rows ⟨f, 0⟩).2).1
      (rand_edge_row rows (rand_edge_row rows ⟨f, 0⟩).2).2).rand.next.1)
      (0, 2) (2, 0) (0, -2) (-2, 0),
      dirOk (startedGen rows cols (rand_edge_row rows ⟨f, 0⟩).1
        (rand_edge_row rows (rand_edge_row rows ⟨f, 0⟩).2).1
        (rand_edge_row rows (rand_edge_row rows ⟨f, 0⟩).2).2)
        ((rand_edge_row rows ⟨f, 0⟩).1 : Int) 1 d = false := by
    intro d hd
    rcases pick4_mem _ _ _ _ _ _ hd with rfl | rfl | rfl | rfl <;>
      · apply dirOk_false_of
        rw [hR, hC]
        dsimp only
        rcases h3 with h3 | h3 <;> omega
  have hstep1 := step_dfs_singleton_pop
    (startedGen rows cols (rand_edge_row rows ⟨f, 0⟩).1
      (rand_edge_row rows (rand_edge_row rows ⟨f, 0⟩).2).1
      (rand_edge_row rows (rand_edge_row rows ⟨f, 0⟩).2).2)
    ((rand_edge_row rows ⟨f, 0⟩).1 : Int) 1 rfl hfail
  obtain ⟨hs1, hs2, hs3⟩ := hstep1
  have hsg : step_generation (startedGen rows cols (rand_edge_row rows ⟨f, 0⟩).1
      (rand_edge_row rows (rand_edge_row rows ⟨f, 0⟩).2).1
      (rand_edge_row rows (rand_edge_row rows ⟨f, 0⟩).2).2) =
      step_dfs (startedGen rows cols (rand_edge_row rows ⟨f, 0⟩).1
      (rand_edge_row rows (rand_edge_row rows ⟨f, 0⟩).2).1
      (rand_edge_row rows (rand_edge_row rows ⟨f, 0⟩).2).2) := rfl
  rw [hsg]
  have hstep2 := step_generation_empty_stack
    (step_dfs (startedGen rows cols (rand_edge_row rows ⟨f, 0⟩).1
      (rand_edge_row rows (rand_edge_row rows ⟨f, 0⟩).2).1
      (rand_edge_row rows (rand_edge_row rows ⟨f, 0⟩).2).2)).1
    (by rw [hs3]; rfl) hs2
  refine ⟨hs1, ?_, ?_, ?_, ?_⟩
  · rw [hstep2]
  · rw [hstep2]
  · rw [hS]
  · rw [hE]

/-- C5 amended witness: the 1×2 grid with the constant-zero stream. -/
theorem C5_small_grids_amended_witness :
    (step_generation ((start_generation (MazeGenerator.mk0 1 2 ⟨fun _ => 0, 0⟩)).getD
      (MazeGenerator.mk0 1 2 ⟨fun _ => 0, 0⟩))).2 = true ∧
    (step_generation (step_generation ((start_generation
      (MazeGenerator.mk0 1 2 ⟨fun _ => 0, 0⟩)).getD
      (MazeGenerator.mk0 1 2 ⟨fun _ => 0, 0⟩))).1).2 = false ∧
    (step_generation (step_generation ((start_generation
      (MazeGenerator.mk0 1 2 ⟨fun _ => 0, 0⟩)).getD
      (MazeGenerator.mk0 1 2 ⟨fun _ => 0, 0⟩))).1).1.generation_complete = true := by
  obtain ⟨g, hg, h1, h2, h3, -, -⟩ := C5_small_grids_amended (fun _ => 0) 1 2
    (by norm_num) (by norm_num) (Or.inl (by norm_num))
  have hgd : (start_generation (MazeGenerator.mk0 1 2 ⟨fun _ => 0, 0⟩)).getD
      (MazeGenerator.mk0 1 2 ⟨fun _ => 0, 0⟩) = g := by rw [hg]; rfl
  rw [hgd]
  exact ⟨h1, h2, h3⟩

/-- C6: out-of-bounds grid accesses are silently normalized: reads
report Wall (`is_wall = true`, `is_path = false`) and writes
(`set_cell`, `carve_path`) leave the structure unchanged.  (All four
operations are total functions of the state, so no error is raised in
or out of bounds.) -/
theorem C6_out_of_bounds_access (m : MazeStructure) (row col : Int) (value : Nat)
    (h : m.is_valid_position row col = false) :
    m.is_wall row col = true ∧ m.is_path row col = false ∧
    m.set_cell row col value = m ∧ m.carve_path row col = m := by
  refine ⟨?_, ?_, ?_, ?_⟩ <;>
    simp [MazeStructure.is_wall, MazeStructure.is_path, MazeStructure.set_cell,
      MazeStructure.carve_path, h]

/-- C6 witness: the 2×2 all-wall grid queried and written at the
out-of-bounds coordinate (5, 0). -/
theorem C6_out_of_bounds_access_witness :
    (MazeStructure.mk0 2 2).is_valid_position 5 0 = false ∧
    (MazeStructure.mk0 2 2).is_wall 5 0 = true ∧
    (MazeStructure.mk0 2 2).is_path 5 0 = false ∧
    (MazeStructure.mk0 2 2).set_cell 5 0 1 = MazeStructure.mk0 2 2 ∧
    (MazeStructure.mk0 2 2).carve_path 5 0 = MazeStructure.mk0 2 2 := by
  have h : (MazeStructure.mk0 2 2).is_valid_position 5 0 = false := by decide
  have := C6_out_of_bounds_access (MazeStructure.mk0 2 2) 5 0 1 h
  exact ⟨h, this.1, this.2.1, this.2.2.1, this.2.2.2⟩

/-- C8: `PathSolver.step_solve` returns `False` and marks solving
complete exactly when the stored path is empty or the cursor has
reached the path length, leaving `current_pos` (and the cursor)
unchanged in that case; otherwise it moves `current_pos` to
`path[cursor]`, increments the cursor, and returns `True`. -/
theorem C8_path_solver_step (ps : PathSolver) :
    ((ps.step_solve.2 = false ↔
      (ps.solution_path.isEmpty ∨ ps.solution_path.length ≤ ps.current_step)) ∧
     (if ps.solution_path.isEmpty ∨ ps.solution_path.length ≤ ps.current_step then
        ps.step_solve = ({ ps with solving_complete := true }, false)
      else
        ps.step_solve =
          ({ ps with current_pos := some (ps.solution_path.getD ps.current_step (0, 0))
                     current_step := ps.current_step + 1 }, true))) := by
  by_cases he : ps.solution_path.isEmpty <;>
    by_cases hc : ps.solution_path.length ≤ ps.current_step <;>
      simp [PathSolver.step_solve, he, hc]

/-- A movable candidate direction: the spec-side test accepts it with
the same target cell that `_get_position_in_direction` produces. -/
theorem specTryMove_some (m : MazeStructure) (p : Pos) (c : Int)
    (h : can_move_to m (get_position_in_direction m (some p) c) = true) :
    specTryMove m p c = some (rhsTarget p c, c) ∧
    get_position_in_direction m (some p) c = some (rhsTarget p c) := by
  simp only [get_position_in_direction] at h
  by_cases hv : m.is_valid_position (rhsTarget p c).1 (rhsTarget p c).2 = true
  · rw [if_pos hv] at h
    have hpath : m.is_path (rhsTarget p c).1 (rhsTarget p c).2 = true := h
    constructor
    · simp only [specTryMove]
      exact if_pos (by simp [hv, hpath])
    · simp only [get_position_in_direction]
      exact if_pos hv
  · rw [if_neg hv] at h
    exact absurd h (by simp [can_move_to])

/-- An unmovable candidate direction is rejected by the spec-side
test. -/
theorem specTryMove_none (m : MazeStructure) (p : Pos) (c : Int)
    (h : can_move_to m (get_position_in_direction m (some p) c) = false) :
    specTryMove m p c = none := by
  simp only [get_position_in_direction] at h
  by_cases hv : m.is_valid_position (rhsTarget p c).1 (rhsTarget p c).2 = true
  · rw [if_pos hv] at h
    have hpath : m.is_path (rhsTarget p c).1 (rhsTarget p c).2 = false := h
    simp only [specTryMove]
    exact if_neg (by simp [hpath])
  · simp only [specTryMove]
    exact if_neg (by simp [(Bool.not_eq_true _).mp hv])

/-- C7: whenever the wall follower performs a normal move, the move
taken is the first of the four candidate directions, scanned in the
strict order right turn `(facing+1) % 4`, straight `facing`, left turn
`(facing-1) % 4`, reverse `(facing+2) % 4`, whose target cell is in
bounds and a Path cell; the facing becomes that candidate direction
and the new position is appended to `path_taken`. -/
theorem C7_right_hand_priority_order (m : MazeStructure) (s : RightHandSolver) (p : Pos)
    (hpos : s.current_pos = some p) :
    (get_next_move m s =
      (match specFirstRightHandMove m p s.current_direction with
       | some (q, c) => (some q, c)
       | none => (none, s.current_direction))) ∧
    (∀ q d', s.solving_complete = false → p ≠ m.endPos → is_exit_adjacent m s = false →
      get_next_move m s = (some q, d') →
      s.step_solve m =
        ({ s with current_pos := some q
                  current_direction := d'
                  path_taken := s.path_taken ++ [q]
                  visited_positions := s.visited_positions.insert q }, true)) := by
  constructor
  · simp only [get_next_move, hpos, specFirstRightHandMove, specWallFollowCandidates,
      List.findSome?]
    by_cases h1 : can_move_to m (get_position_in_direction m (some p)
        ((s.current_direction + 1) % 4)) = true
    · obtain ⟨ht, hq⟩ := specTryMove_some m p _ h1
      rw [if_pos h1, hq, ht]
    · have h1f := (Bool.not_eq_true _).mp h1
      rw [if_neg h1, specTryMove_none m p _ h1f]
      by_cases h2 : can_move_to m (get_position_in_direction m (some p)
          s.current_direction) = true
      · obtain ⟨ht, hq⟩ := specTryMove_some m p _ h2
        rw [if_pos h2, hq, ht]
      · have h2f := (Bool.not_eq_true _).mp h2
        rw [if_neg h2, specTryMove_none m p _ h2f]
        by_cases h3 : can_move_to m (get_position_in_direction m (some p)
            ((s.current_direction - 1) % 4)) = true
        · obtain ⟨ht, hq⟩ := specTryMove_some m p _ h3
          rw [if_pos h3, hq, ht]
        · have h3f := (Bool.not_eq_true _).mp h3
          rw [if_neg h3, specTryMove_none m p _ h3f]
          by_cases h4 : can_move_to m (get_position_in_direction m (some p)
              ((s.current_direction + 2) % 4)) = true
          · obtain ⟨ht, hq⟩ := specTryMove_some m p _ h4
            rw [if_pos h4, hq, ht]
          · have h4f := (Bool.not_eq_true _).mp h4
            rw [if_neg h4, specTryMove_none m p _ h4f]
  · intro q d' hnc hne hadj hmove
    have hpe : ¬ s.current_pos = some m.endPos := by
      rw [hpos]; simpa using hne
    simp [RightHandSolver.step_solve, hnc, hpe, hadj, hmove]

/-- Right-hand solver: a completed state is left untouched by
`step_solve`, which returns `False` (the early return at the top of
the Python method). -/
theorem rhs_step_of_complete (m : MazeStructure) (s : RightHandSolver)
    (h : s.solving_complete = true) : s.step_solve m = (s, false) := by
  simp [RightHandSolver.step_solve, h]

/-- Right-hand solver: every `False`-returning `step_solve` leaves the
state completed. -/
theorem rhs_complete_of_step_false (m : MazeStructure) (s : RightHandSolver)
    (h : (s.step_solve m).2 = false) : (s.step_solve m).1.solving_complete = true := by
  by_cases h0 : s.solving_complete = true
  · simp [RightHandSolver.step_solve, h0]
  · have h0' : s.solving_complete = false := by simpa using h0
    by_cases h1 : s.current_pos = some m.endPos
    · simp [RightHandSolver.step_solve, h0', h1]
    · by_cases h2 : is_exit_adjacent m s = true
      · simp [RightHandSolver.step_solve, h0', h1, h2]
      · have h2' : is_exit_adjacent m s = false := by simpa using h2
        rcases hm : get_next_move m s with ⟨_ | q, d⟩ <;>
          simp [RightHandSolver.step_solve, h0', h1, h2', hm] at h ⊢

/-- Right-hand solver: a `True`-returning `step_solve` from a
non-completed state leaves the state non-completed. -/
theorem rhs_not_complete_of_step_true (m : MazeStructure) (s : RightHandSolver)
    (h0 : s.solving_complete = false) (h : (s.step_solve m).2 = true) :
    (s.step_solve m).1.solving_complete = false := by
  by_cases h1 : s.current_pos = some m.endPos
  · simp [RightHandSolver.step_solve, h0, h1] at h
  · by_cases h2 : is_exit_adjacent m s = true
    · simp [RightHandSolver.step_solve, h0, h1, h2] at h
    · have h2' : is_exit_adjacent m s = false := by simpa using h2
      rcases hm : get_next_move m s with ⟨_ | q, d⟩ <;>
        simp [RightHandSolver.step_solve, h0, h1, h2', hm] at h ⊢

/-- Path solver: every `False`-returning `step_solve` leaves the state
completed, and the state is otherwise unchanged. -/
theorem ps_step_false_state (ps : PathSolver) (h : ps.step_solve.2 = false) :
    ps.step_solve.1 = { ps with solving_complete := true } := by
  by_cases he : ps.solution_path.isEmpty
  · simp [PathSolver.step_solve, he]
  · by_cases hc : ps.solution_path.length ≤ ps.current_step
    · simp [PathSolver.step_solve, he, hc]
    · simp [PathSolver.step_solve, he, hc] at h

/-- C9: completion is a stable absorbing state for both solvers: as
soon as `step_solve` has returned `False`, calling `step_solve` again
returns `False` and leaves the whole state (position, cursor,
`path_taken`, facing, everything) unchanged, so by iteration every
subsequent call does too. -/
theorem C9_completion_absorbing :
    (∀ ps : PathSolver, ps.step_solve.2 = false →
      ps.step_solve.1.step_solve = (ps.step_solve.1, false)) ∧
    (∀ (m : MazeStructure) (s : RightHandSolver), (s.step_solve m).2 = false →
      (s.step_solve m).1.step_solve m = ((s.step_solve m).1, false)) := by
  constructor
  · intro ps h
    by_cases he : ps.solution_path.isEmpty
    · simp [PathSolver.step_solve, he]
    · by_cases hc : ps.solution_path.length ≤ ps.current_step
      · simp [PathSolver.step_solve, he, hc]
      · simp [PathSolver.step_solve, he, hc] at h
  · intro m s h
    exact rhs_step_of_complete m _ (rhs_complete_of_step_false m s h)

/-- C9 witness: the fresh path solver (empty path) and an
already-completed wall follower on the corridor maze. -/
theorem C9_completion_absorbing_witness :
    (PathSolver.mk0.step_solve.2 = false ∧
      PathSolver.mk0.step_solve.1.step_solve = (PathSolver.mk0.step_solve.1, false)) ∧
    (((⟨some (0, 0), 1, [(0, 0)], true, [(0, 0)]⟩ : RightHandSolver).step_solve
        corridorMaze).2 = false ∧
      ((⟨some (0, 0), 1, [(0, 0)], true, [(0, 0)]⟩ : RightHandSolver).step_solve
          corridorMaze).1.step_solve corridorMaze =
        (((⟨some (0, 0), 1, [(0, 0)], true, [(0, 0)]⟩ : RightHandSolver).step_solve
          corridorMaze).1, false)) :=
  ⟨⟨rfl, C9_completion_absorbing.1 PathSolver.mk0 rfl⟩,
   ⟨rfl, C9_completion_absorbing.2 corridorMaze _ rfl⟩⟩

/-- Heap reads below the allocation point are unaffected by the rows
`hmCopy` appends. -/
theorem hmRead_copy_orig (σ : RowStore) (m : HeapMaze) (h : hmWF σ m)
    (r c : Nat) (hr : r < m.rows) :
    hmRead (hmCopy σ m).1 m r c = hmRead σ m r c := by
  obtain ⟨hlen, hids⟩ := h
  have hrl : r < m.rowIds.length := by omega
  have hid : m.rowIds.getD r 0 < σ.length := by
    apply hids
    rw [List.getD_eq_getElem _ _ hrl]
    exact List.getElem_mem hrl
  unfold hmRead hmCopy
  rw [List.getD_append _ _ _ _ hid]

/-- The copy's row ids are the freshly allocated ones. -/
theorem hmCopy_rowIds (σ : RowStore) (m : HeapMaze) (h : hmWF σ m)
    (r : Nat) (hr : r < m.rows) :
    (hmCopy σ m).2.rowIds.getD r 0 = σ.length + r := by
  obtain ⟨hlen, hids⟩ := h
  have hrl : r < m.rowIds.length := by omega
  unfold hmCopy
  simp [List.getD_eq_getElem?_getD, List.getElem?_map, List.getElem?_range hrl]

/-- Reading the copy gives the original's contents at copy time. -/
theorem hmRead_copy_new (σ : RowStore) (m : HeapMaze) (h : hmWF σ m)
    (r c : Nat) (hr : r < m.rows) :
    hmRead (hmCopy σ m).1 (hmCopy σ m).2 r c = hmRead σ m r c := by
  obtain ⟨hlen, hids⟩ := h
  have hrl : r < m.rowIds.length := by omega
  unfold hmRead
  rw [hmCopy_rowIds σ m ⟨hlen, hids⟩ r hr]
  show ((σ ++ m.rowIds.map (fun i => σ.getD i [])).getD (σ.length + r) []).getD c 0 = _
  have : (σ ++ m.rowIds.map (fun i => σ.getD i [])).getD (σ.length + r) [] =
      (m.rowIds.map (fun i => σ.getD i [])).getD r [] := by
    simp [List.getD_eq_getElem?_getD, List.getElem?_append_right]
  rw [this]
  simp [List.getD_eq_getElem?_getD, List.getElem?_map, List.getElem?_eq_getElem hrl,
    List.getD_eq_getElem _ _ hrl]

/-- Writing through one structure's row ids does not change what the
other structure's row id reads, provided the two ids differ. -/
theorem storeGetD_set_ne (l : RowStore) (i j : Nat) (a d : List Nat) (h : i ≠ j) :
    (l.set i a).getD j d = l.getD j d := by
  simp [List.getD_eq_getElem?_getD, List.getElem?_set_ne h]

/-- Writing through one structure's row ids does not change what the
other structure's row id reads, provided the two ids differ. -/
theorem hmRead_set_ne (σ : RowStore) (mW mR : HeapMaze) (row col : Int) (v : Nat)
    (r c : Nat) (hne : hmValid mW row col = true →
      mW.rowIds.getD row.toNat 0 ≠ mR.rowIds.getD r 0) :
    hmRead (hmSetCell σ mW row col v) mR r c = hmRead σ mR r c := by
  unfold hmSetCell
  by_cases hv : hmValid mW row col = true
  · rw [if_pos hv]
    unfold hmRead
    rw [storeGetD_set_ne _ _ _ _ _ (hne hv)]
  · rw [if_neg hv]

/-- C10: `MazeStructure.copy` produces a structure that agrees with the
original (grid contents, start, end) at copy time, and afterwards cell
writes (`set_cell` / `carve_path`) through either structure, as well as
`set_start` / `set_end`, leave the other structure's contents and
markers entirely unchanged (the slice `row[:]` allocates fresh row
objects, so no row is shared). -/
theorem C10_copy_independence (σ : RowStore) (m : HeapMaze) (h : hmWF σ m) :
    ((hmCopy σ m).2.rows = m.rows ∧ (hmCopy σ m).2.cols = m.cols ∧
     (hmCopy σ m).2.start = m.start ∧ (hmCopy σ m).2.endPos = m.endPos) ∧
    (∀ r c : Nat, r < m.rows → hmRead (hmCopy σ m).1 (hmCopy σ m).2 r c = hmRead σ m r c) ∧
    (∀ r c : Nat, r < m.rows → hmRead (hmCopy σ m).1 m r c = hmRead σ m r c) ∧
    (∀ (row col : Int) (v : Nat) (r c : Nat), r < m.rows →
      hmRead (hmSetCell (hmCopy σ m).1 (hmCopy σ m).2 row col v) m r c =
        hmRead (hmCopy σ m).1 m r c) ∧
    (∀ (row col : Int) (r c : Nat), r < m.rows →
      hmRead (hmCarve (hmCopy σ m).1 (hmCopy σ m).2 row col) m r c =
        hmRead (hmCopy σ m).1 m r c) ∧
    (∀ (row col : Int) (v : Nat) (r c : Nat), r < m.rows →
      hmRead (hmSetCell (hmCopy σ m).1 m row col v) (hmCopy σ m).2 r c =
        hmRead (hmCopy σ m).1 (hmCopy σ m).2 r c) ∧
    (∀ (row col : Int) (r c : Nat), r < m.rows →
      hmRead (hmCarve (hmCopy σ m).1 m row col) (hmCopy σ m).2 r c =
        hmRead (hmCopy σ m).1 (hmCopy σ m).2 r c) ∧
    (∀ p : Pos, (hmSetStart (hmCopy σ m).1 (hmCopy σ m).2 p).1 = (hmCopy σ m).1 ∧
      (hmSetEnd (hmCopy σ m).1 (hmCopy σ m).2 p).1 = (hmCopy σ m).1 ∧
      (hmSetStart (hmCopy σ m).1 m p).1 = (hmCopy σ m).1 ∧
      (hmSetEnd (hmCopy σ m).1 m p).1 = (hmCopy σ m).1 ∧
      (hmSetStart (hmCopy σ m).1 m p).2.rowIds = m.rowIds ∧
      (hmSetEnd (hmCopy σ m).1 m p).2.rowIds = m.rowIds) := by
  obtain ⟨hlen, hids⟩ := h
  have hmem : ∀ r : Nat, r < m.rows → m.rowIds.getD r 0 < σ.length := by
    intro r hr
    have hrl : r < m.rowIds.length := by omega
    apply hids
    rw [List.getD_eq_getElem _ _ hrl]
    exact List.getElem_mem hrl
  have hnewid : ∀ r : Nat, r < m.rows → (hmCopy σ m).2.rowIds.getD r 0 = σ.length + r :=
    fun r hr => hmCopy_rowIds σ m ⟨hlen, hids⟩ r hr
  refine ⟨⟨rfl, rfl, rfl, rfl⟩, ?_, ?_, ?_, ?_, ?_, ?_, ?_⟩
  · exact fun r c hr => hmRead_copy_new σ m ⟨hlen, hids⟩ r c hr
  · exact fun r c hr => hmRead_copy_orig σ m ⟨hlen, hids⟩ r c hr
  · intro row col v r c hr
    apply hmRead_set_ne
    intro hv
    have hvm := of_decide_eq_true hv
    have hrow : row.toNat < m.rows := by
      have h1 : row < (m.rows : Int) := hvm.2.1
      have h0 : (0 : Int) ≤ row := hvm.1
      omega
    rw [hnewid row.toNat hrow]
    have := hmem r hr
    omega
  · intro row col r c hr
    apply hmRead_set_ne
    intro hv
    have hvm := of_decide_eq_true hv
    have hrow : row.toNat < m.rows := by
      have h1 : row < (m.rows : Int) := hvm.2.1
      have h0 : (0 : Int) ≤ row := hvm.1
      omega
    rw [hnewid row.toNat hrow]
    have := hmem r hr
    omega
  · intro row col v r c hr
    apply hmRead_set_ne
    intro hv
    have hvm := of_decide_eq_true hv
    have hrow : row.toNat < m.rows := by
      have h1 : row < (m.rows : Int) := hvm.2.1
      have h0 : (0 : Int) ≤ row := hvm.1
      omega
    rw [hnewid r hr]
    have := hmem row.toNat hrow
    omega
  · intro row col r c hr
    apply hmRead_set_ne
    intro hv
    have hvm := of_decide_eq_true hv
    have hrow : row.toNat < m.rows := by
      have h1 : row < (m.rows : Int) := hvm.2.1
      have h0 : (0 : Int) ≤ row := hvm.1
      omega
    rw [hnewid r hr]
    have := hmem row.toNat hrow
    omega
  · exact fun p => ⟨rfl, rfl, rfl, rfl, rfl, rfl⟩

/-- C10 witness: a 2×2 structure with rows allocated at ids 0 and 1;
after copying, carving (0, 1) in the copy leaves the original's cells
unchanged, and carving in the original leaves the copy unchanged. -/
theorem C10_copy_independence_witness :
    hmWF [[0, 0], [0, 0]] ⟨2, 2, [0, 1], (0, 0), (0, 0)⟩ ∧
    (hmRead (hmCopy [[0, 0], [0, 0]] ⟨2, 2, [0, 1], (0, 0), (0, 0)⟩).1
      (hmCopy [[0, 0], [0, 0]] ⟨2, 2, [0, 1], (0, 0), (0, 0)⟩).2 0 1 =
      hmRead [[0, 0], [0, 0]] ⟨2, 2, [0, 1], (0, 0), (0, 0)⟩ 0 1) ∧
    (hmRead (hmSetCell (hmCopy [[0, 0], [0, 0]] ⟨2, 2, [0, 1], (0, 0), (0, 0)⟩).1
        (hmCopy [[0, 0], [0, 0]] ⟨2, 2, [0, 1], (0, 0), (0, 0)⟩).2 0 1 1)
        ⟨2, 2, [0, 1], (0, 0), (0, 0)⟩ 0 1 =
      hmRead (hmCopy [[0, 0], [0, 0]] ⟨2, 2, [0, 1], (0, 0), (0, 0)⟩).1
        ⟨2, 2, [0, 1], (0, 0), (0, 0)⟩ 0 1) ∧
    (hmRead (hmSetCell (hmCopy [[0, 0], [0, 0]] ⟨2, 2, [0, 1], (0, 0), (0, 0)⟩).1
        ⟨2, 2, [0, 1], (0, 0), (0, 0)⟩ 0 1 1)
        (hmCopy [[0, 0], [0, 0]] ⟨2, 2, [0, 1], (0, 0), (0, 0)⟩).2 0 1 =
      hmRead (hmCopy [[0, 0], [0, 0]] ⟨2, 2, [0, 1], (0, 0), (0, 0)⟩).1
        (hmCopy [[0, 0], [0, 0]] ⟨2, 2, [0, 1], (0, 0), (0, 0)⟩).2 0 1) := by
  have hwf : hmWF [[0, 0], [0, 0]] ⟨2, 2, [0, 1], (0, 0), (0, 0)⟩ := by
    constructor
    · rfl
    · decide
  have h := C10_copy_independence [[0, 0], [0, 0]] ⟨2, 2, [0, 1], (0, 0), (0, 0)⟩ hwf
  exact ⟨hwf, h.2.1 0 1 (by decide), h.2.2.2.1 0 1 1 0 1 (by decide),
    h.2.2.2.2.2.1 0 1 1 0 1 (by decide)⟩

/-- C7 witness: on the 1×3 corridor with start (0,0) and end (0,2),
the solver at the start facing East cannot turn right (out of bounds)
and moves straight to (0,1), facing East. -/
theorem C7_right_hand_priority_order_witness :
    (get_next_move corridorMaze (RightHandSolver.start_solving corridorMaze) =
      (some (0, 1), 1)) ∧
    ((RightHandSolver.start_solving corridorMaze).step_solve corridorMaze =
      (⟨some (0, 1), 1, [(0, 0), (0, 1)], false, [(0, 1), (0, 0)]⟩, true)) := by
  have h := C7_right_hand_priority_order corridorMaze
    (RightHandSolver.start_solving corridorMaze) (0, 0) rfl
  have hm : get_next_move corridorMaze (RightHandSolver.start_solving corridorMaze) =
      (some (0, 1), 1) := by
    rw [h.1]; rfl
  refine ⟨hm, ?_⟩
  have := h.2 (0, 1) 1 rfl (by decide) (by rfl) hm
  rw [this]
  rfl

/-! ## Skip / natural-stepping equivalence -/

/-- The two stopping conventions agree: if stepping naturally (stop at
the first `False` return) finishes within `n` calls, the skip loop
(stop when the completion flag is set) reaches exactly the same state.
Hypotheses: from a non-completed state, a `False`-returning step sets
the flag and a `True`-returning step leaves it unset. -/
theorem skip_eq_natural (step : α → α × Bool) (done : α → Bool)
    (h1 : ∀ s, done s = false → (step s).2 = false → done (step s).1 = true)
    (h2 : ∀ s, done s = false → (step s).2 = true → done (step s).1 = false) :
    ∀ (n : Nat) (s : α), done s = false → (stepUntilFalse step n s).2 = true →
      skipLoop step done (n + 1) s = (stepUntilFalse step n s).1 := by
  intro n
  induction n with
  | zero =>
    intro s h0 hfalse
    simp [stepUntilFalse] at hfalse
  | succ n ih =>
    intro s h0 hdone
    have hskip : skipLoop step done (n + 1 + 1) s = skipLoop step done (n + 1) (step s).1 := by
      unfold skipLoop
      rw [h0]
      rfl
    rcases hc : (step s).2 with _ | _
    · have hres : stepUntilFalse step (n + 1) s = ((step s).1, true) := by
        show (if (step s).2 = true then stepUntilFalse step n (step s).1
          else ((step s).1, true)) = ((step s).1, true)
        rw [hc]
        simp
      rw [hres, hskip]
      have hd : done (step s).1 = true := h1 s h0 hc
      unfold skipLoop
      rw [hd]
      simp
    · have hres : stepUntilFalse step (n + 1) s = stepUntilFalse step n (step s).1 := by
        show (if (step s).2 = true then stepUntilFalse step n (step s).1
          else ((step s).1, true)) = stepUntilFalse step n (step s).1
        rw [hc]
        simp
      rw [hres] at hdone ⊢
      rw [hskip]
      exact ih (step s).1 (h2 s h0 hc) hdone

/-- A `False` return of `_step_dfs` always sets `generation_complete`;
a `True` return leaves it unchanged. -/
theorem step_dfs_flag (g : MazeGenerator) :
    ((step_dfs g).2 = false → (step_dfs g).1.generation_complete = true) ∧
    ((step_dfs g).2 = true → (step_dfs g).1.generation_complete = g.generation_complete) := by
  have peekExit_complete : ∀ (x y : Int),
      (peekExit g x y).generation_complete = g.generation_complete :=
    fun x y => (peekExit_pres g x y).2.2.2.2.1
  unfold step_dfs
  split
  · exact ⟨fun _ => rfl, fun h => by simp at h⟩
  · dsimp only
    split
    · exact ⟨fun h => by simp at h, fun _ => by simp [peekExit_complete]⟩
    · exact ⟨fun h => by simp at h, fun _ => by simp [peekExit_complete]⟩

theorem gen_flag_h1 (g : MazeGenerator) (h0 : g.generation_complete = false) :
    (step_generation g).2 = false → (step_generation g).1.generation_complete = true := by
  unfold step_generation
  rw [h0]
  intro h
  exact (step_dfs_flag g).1 (by simpa using h)

theorem gen_flag_h2 (g : MazeGenerator) (h0 : g.generation_complete = false) :
    (step_generation g).2 = true → (step_generation g).1.generation_complete = false := by
  unfold step_generation
  rw [h0]
  intro h
  have := (step_dfs_flag g).2 (by simpa using h)
  simpa [h0] using this

theorem ps_flag_h1 (ps : PathSolver) (h0 : ps.solving_complete = false) :
    ps.step_solve.2 = false → ps.step_solve.1.solving_complete = true := by
  intro h
  rw [ps_step_false_state ps h]

theorem ps_flag_h2 (ps : PathSolver) (h0 : ps.solving_complete = false) :
    ps.step_solve.2 = true → ps.step_solve.1.solving_complete = false := by
  intro h
  by_cases he : ps.solution_path.isEmpty
  · simp [PathSolver.step_solve, he] at h
  · by_cases hc : ps.solution_path.length ≤ ps.current_step
    · simp [PathSolver.step_solve, he, hc] at h
    · simp [PathSolver.step_solve, he, hc, h0]

/-- C4: for the generator (via `create_maze_instantly`), the path
solver and the wall follower independently, skipping (looping `step`
while the completion flag is unset) reaches exactly the state that
stepping naturally to the first `False` return reaches, from the same
component state and random stream. -/
theorem C4_skip_equivalence :
    (∀ (g : MazeGenerator) (p : Pos) (n : Nat), g.current_pos = some p →
      g.generation_complete = false →
      (stepUntilFalse step_generation n g).2 = true →
      create_maze_instantly (n + 1) g = some (stepUntilFalse step_generation n g).1) ∧
    (∀ (ps : PathSolver) (n : Nat), ps.solving_complete = false →
      (stepUntilFalse PathSolver.step_solve n ps).2 = true →
      skipLoop PathSolver.step_solve (fun s => s.solving_complete) (n + 1) ps =
        (stepUntilFalse PathSolver.step_solve n ps).1) ∧
    (∀ (m : MazeStructure) (s : RightHandSolver) (n : Nat), s.solving_complete = false →
      (stepUntilFalse (RightHandSolver.step_solve m) n s).2 = true →
      skipLoop (RightHandSolver.step_solve m) (fun s => s.solving_complete) (n + 1) s =
        (stepUntilFalse (RightHandSolver.step_solve m) n s).1) := by
  refine ⟨?_, ?_, ?_⟩
  · intro g p n hpos h0 hnat
    have hskip := skip_eq_natural step_generation (fun g => g.generation_complete)
      gen_flag_h1 gen_flag_h2 n g h0 hnat
    unfold create_maze_instantly
    rw [hpos, hskip]
  · intro ps n h0 hnat
    exact skip_eq_natural PathSolver.step_solve (fun s => s.solving_complete)
      ps_flag_h1 ps_flag_h2 n ps h0 hnat
  · intro m s n h0 hnat
    exact skip_eq_natural (RightHandSolver.step_solve m) (fun s => s.solving_complete)
      (fun s h0' => rhs_complete_of_step_false m s)
      (fun s h0' => rhs_not_complete_of_step_true m s h0') n s h0 hnat

/-- C4 witness: the three components on concrete inputs — the 1×2
generator run, a one-cell replay path, and the wall follower on the
two-cell corridor. -/
theorem C4_skip_equivalence_witness :
    create_maze_instantly 3 ((start_generation (MazeGenerator.mk0 1 2 ⟨fun _ => 0, 0⟩)).getD
        (MazeGenerator.mk0 1 2 ⟨fun _ => 0, 0⟩)) =
      some (stepUntilFalse step_generation 2 ((start_generation
        (MazeGenerator.mk0 1 2 ⟨fun _ => 0, 0⟩)).getD
        (MazeGenerator.mk0 1 2 ⟨fun _ => 0, 0⟩))).1 ∧
    skipLoop PathSolver.step_solve (fun s => s.solving_complete) 3
        (PathSolver.mk0.set_solution_path [(0, 0)]) =
      (stepUntilFalse PathSolver.step_solve 2 (PathSolver.mk0.set_solution_path [(0, 0)])).1 ∧
    skipLoop (RightHandSolver.step_solve corridor2) (fun s => s.solving_complete) 2
        (RightHandSolver.start_solving corridor2) =
      (stepUntilFalse (RightHandSolver.step_solve corridor2) 1
        (RightHandSolver.start_solving corridor2)).1 :=
  ⟨C4_skip_equivalence.1 _ (0, 1) 2 rfl rfl rfl,
   C4_skip_equivalence.2.1 _ 2 rfl rfl,
   C4_skip_equivalence.2.2 _ _ 1 rfl rfl⟩


/-! ## Generation terminates within rows*cols steps -/

/-- `dirOk` only reads the maze dimensions and the visited matrix. -/
theorem dirOk_eq (g g' : MazeGenerator) (x y : Int) (d : Pos)
    (hm : g'.maze = g.maze) (hv : g'.visited = g.visited) :
    dirOk g' x y d = dirOk g x y d := by
  unfold dirOk
  rw [hm, hv]

/-- Characterization of a DFS step from a non-empty stack: it returns
`True` and either pushes a fresh direction-accepted neighbour of the
head or pops the head; the maze dimensions never change. -/
theorem step_dfs_char (g : MazeGenerator) (x y : Int)
    (hlast : g.stack.getLast? = some (x, y)) :
    (step_dfs g).2 = true ∧
    (step_dfs g).1.maze.rows = g.maze.rows ∧
    (step_dfs g).1.maze.cols = g.maze.cols ∧
    ((∃ d : Pos, (d = (0, 2) ∨ d = (2, 0) ∨ d = (0, -2) ∨ d = (-2, 0)) ∧
        dirOk g x y d = true ∧
        (step_dfs g).1.stack = g.stack ++ [(x + d.1, y + d.2)] ∧
        (step_dfs g).1.visited = vset g.visited (x + d.1).toNat (y + d.2).toNat true) ∨
      ((step_dfs g).1.stack = g.stack.dropLast ∧
        (step_dfs g).1.visited = g.visited)) := by
  obtain ⟨hps, hpr, hpv, hpm, hpc, hpp⟩ := peekExit_pres g x y
  unfold step_dfs
  rw [hlast]
  dsimp only
  split
  · rename_i d heq
    have hdmem : d ∈ pick4 ((peekExit g x y).rand.next.1) (0, 2) (2, 0) (0, -2) (-2, 0) :=
      List.mem_of_find?_eq_some heq
    have hdok' := List.find?_some heq
    have hdok : dirOk g x y d = true := by
      rw [← hdok']
      symm
      apply dirOk_eq
      · exact hpm
      · exact hpv
    refine ⟨rfl, ?_, ?_, Or.inl ⟨d, pick4_mem _ _ _ _ _ _ hdmem, hdok, ?_, ?_⟩⟩
    · show ((((peekExit g x y).maze.carve_path _ _).carve_path _ _)).rows = g.maze.rows
      rw [carve_rows, carve_rows, hpm]
    · show ((((peekExit g x y).maze.carve_path _ _).carve_path _ _)).cols = g.maze.cols
      rw [carve_cols, carve_cols, hpm]
    · show (peekExit g x y).stack ++ [(x + d.1, y + d.2)] = g.stack ++ [(x + d.1, y + d.2)]
      rw [hps]
    · show vset (peekExit g x y).visited (x + d.1).toNat (y + d.2).toNat true =
        vset g.visited (x + d.1).toNat (y + d.2).toNat true
      rw [hpv]
  · refine ⟨rfl, ?_, ?_, Or.inr ⟨?_, ?_⟩⟩
    · show (peekExit g x y).maze.rows = g.maze.rows
      rw [hpm]
    · show (peekExit g x y).maze.cols = g.maze.cols
      rw [hpm]
    · show (peekExit g x y).stack.dropLast = g.stack.dropLast
      rw [hps]
    · show (peekExit g x y).visited = g.visited
      rw [hpv]

/-- Counting the odd numbers below `n`. -/
theorem card_filter_odd_range (n : Nat) :
    ((Finset.range n).filter (fun c => c % 2 = 1)).card = n / 2 := by
  induction n with
  | zero => simp
  | succ n ih =>
    rw [Finset.range_succ, Finset.filter_insert]
    by_cases h : n % 2 = 1
    · rw [if_pos h, Finset.card_insert_of_not_mem (by simp), ih]
      omega
    · rw [if_neg h, ih]
      omega

/-- The size of the odd-column cell set. -/
theorem card_oddColCells (rows cols : Nat) :
    (oddColCells rows cols).card = rows * (cols / 2) := by
  unfold oddColCells
  rw [Finset.card_product, Finset.card_range, card_filter_odd_range]

/-- Marking a fresh odd-column cell visited shrinks the unvisited set
by exactly one. -/
theorem unvisited_erase (rows cols : Nat) (v : List (List Bool)) (i j : Nat)
    (hwf : rectWF v rows cols) (hi : i < rows) (hj : j < cols) (hjodd : j % 2 = 1)
    (hunvis : vget v i j = false) :
    ((oddColCells rows cols).filter (fun p => vget (vset v i j true) p.1 p.2 = false)).card
      + 1 =
    ((oddColCells rows cols).filter (fun p => vget v p.1 p.2 = false)).card := by
  have hmem : (i, j) ∈ (oddColCells rows cols).filter
      (fun p => vget v p.1 p.2 = false) := by
    simp only [oddColCells, Finset.mem_filter, Finset.mem_product, Finset.mem_range]
    exact ⟨⟨hi, by simp [hj, hjodd]⟩, hunvis⟩
  have hset : (oddColCells rows cols).filter
      (fun p => vget (vset v i j true) p.1 p.2 = false) =
      ((oddColCells rows cols).filter (fun p => vget v p.1 p.2 = false)).erase (i, j) := by
    ext ⟨a, b⟩
    simp only [Finset.mem_filter, Finset.mem_erase]
    constructor
    · rintro ⟨hin, hb⟩
      by_cases hab : a = i ∧ b = j
      · obtain ⟨rfl, rfl⟩ := hab
        rw [vget_vset_self v rows cols a b true hwf hi hj] at hb
        simp at hb
      · refine ⟨?_, hin, ?_⟩
        · intro hcontra
          apply hab
          obtain ⟨h1, h2⟩ := Prod.mk.injEq a b i j ▸ hcontra
          exact ⟨h1, h2⟩
        · rw [vget_vset_other v i j a b true hab] at hb
          exact hb
    · rintro ⟨hab, hin, hb⟩
      refine ⟨hin, ?_⟩
      have hab' : ¬(a = i ∧ b = j) := by
        intro ⟨h1, h2⟩
        exact hab (by rw [h1, h2])
      rw [vget_vset_other v i j a b true hab']
      exact hb
  rw [hset, Finset.card_erase_of_mem hmem]
  have : 0 < ((oddColCells rows cols).filter (fun p => vget v p.1 p.2 = false)).card :=
    Finset.card_pos.mpr ⟨(i, j), hmem⟩
  omega

/-- Each `True` DFS step preserves the invariant and strictly decreases
the measure. -/
theorem step_dfs_decrease (g : MazeGenerator) (x y : Int)
    (hlast : g.stack.getLast? = some (x, y)) (hinv : GenBound g) :
    GenBound (step_dfs g).1 ∧ genMeasure (step_dfs g).1 < genMeasure g := by
  obtain ⟨hwf, hodd⟩ := hinv
  obtain ⟨-, hrows, hcols, hcase⟩ := step_dfs_char g x y hlast
  have hxy_mem : (x, y) ∈ g.stack := List.mem_of_mem_getLast? hlast
  have hyodd : y % 2 = 1 := hodd (x, y) hxy_mem
  rcases hcase with ⟨d, hd4, hok, hstack, hvis⟩ | ⟨hstack, hvis⟩
  · -- push case
    have hok' := hok
    unfold dirOk at hok'
    rw [Bool.and_eq_true] at hok'
    obtain ⟨hbounds, hunvis⟩ := hok'
    have hb := of_decide_eq_true hbounds
    have hnyodd : (y + d.2) % 2 = 1 := by
      rcases hd4 with rfl | rfl | rfl | rfl <;> simp <;> omega
    have hni : (x + d.1).toNat < g.maze.rows := by omega
    have hnj : (y + d.2).toNat < g.maze.cols := by omega
    have hnjodd : (y + d.2).toNat % 2 = 1 := by omega
    have hunvis' : vget g.visited (x + d.1).toNat (y + d.2).toNat = false := by
      rw [Bool.not_eq_eq_eq_not] at hunvis
      simpa using hunvis
    constructor
    · constructor
      · rw [hvis, hrows, hcols]
        exact rectWF_set _ _ _ _ _ _ hwf
      · intro p hp
        rw [hstack] at hp
        rcases List.mem_append.mp hp with hp | hp
        · exact hodd p hp
        · simp at hp
          rw [hp]
          exact hnyodd
    · unfold genMeasure unvisitedCount
      rw [hvis, hstack, hrows, hcols, List.length_append]
      simp only [List.length_singleton]
      have := unvisited_erase g.maze.rows g.maze.cols g.visited
        (x + d.1).toNat (y + d.2).toNat hwf hni hnj hnjodd hunvis'
      omega
  · -- pop case
    constructor
    · constructor
      · rw [hvis, hrows, hcols]
        exact hwf
      · intro p hp
        rw [hstack] at hp
        exact hodd p (List.dropLast_subset _ hp)
    · unfold genMeasure unvisitedCount
      rw [hvis, hstack, hrows, hcols]
      have hlen : g.stack.dropLast.length < g.stack.length := by
        have hne : g.stack ≠ [] := by
          intro h
          rw [h] at hlast
          simp at hlast
        rw [List.length_dropLast]
        have := List.length_pos.mpr hne
        omega
      omega

/-- With fuel at least the measure, natural stepping reaches the first
`False` return. -/
theorem gen_terminates_fuel (fuel : Nat) :
    ∀ g : MazeGenerator, GenBound g → g.generation_complete = false →
      genMeasure g ≤ fuel → (stepUntilFalse step_generation fuel g).2 = true := by
  induction fuel with
  | zero =>
    intro g hinv hc hm
    unfold genMeasure at hm
    omega
  | succ n ih =>
    intro g hinv hc hm
    have hstep_eq : step_generation g = step_dfs g := by
      unfold step_generation
      rw [hc]
      rfl
    rcases hlast : g.stack.getLast? with - | ⟨x, y⟩
    · -- empty stack: the very next call returns False
      have : step_dfs g = ({ g with generation_complete := true }, false) := by
        unfold step_dfs
        rw [hlast]
      show (if (step_generation g).2 = true then _ else ((step_generation g).1, true)).2 = true
      rw [hstep_eq, this]
      simp
    · obtain ⟨htrue, -, -, -⟩ := step_dfs_char g x y hlast
      obtain ⟨hinv', hdec⟩ := step_dfs_decrease g x y hlast hinv
      have hc' : (step_dfs g).1.generation_complete = false := by
        rw [(step_dfs_flag g).2 htrue, hc]
      show (if (step_generation g).2 = true then
        stepUntilFalse step_generation n (step_generation g).1
        else ((step_generation g).1, true)).2 = true
      rw [hstep_eq, htrue]
      simp only [if_true]
      exact ih (step_dfs g).1 hinv' hc' (by omega)

/-- The freshly started generator satisfies the termination invariant
and its measure is at most `rows * cols`. -/
theorem startedGen_measure (rows cols sr er : Nat) (r2 : PyRand)
    (hsr : sr < rows) (her : er < rows) (hc : 2 ≤ cols) :
    GenBound (startedGen rows cols sr er r2) ∧
    genMeasure (startedGen rows cols sr er r2) ≤ rows * cols := by
  obtain ⟨hR, hC, -, -, -, -⟩ := startedGen_facts rows cols sr er r2 hsr her hc
  obtain ⟨hVwf, hVget⟩ := startedGen_visited rows cols sr er r2 hsr hc
  constructor
  · constructor
    · rw [hR, hC]
      exact hVwf
    · intro p hp
      have hp0 : p ∈ [((sr : Int), 1)] := hp
      have hp' : p = ((sr : Int), 1) := by simpa using hp0
      rw [hp']
      show (1 : Int) % 2 = 1
      decide
  · unfold genMeasure unvisitedCount
    rw [hR, hC]
    have h1 : ((oddColCells rows cols).filter
        (fun p => vget (startedGen rows cols sr er r2).visited p.1 p.2 = false)).card + 1 =
        ((oddColCells rows cols).filter
          (fun p => vget (List.replicate rows (List.replicate cols false))
            p.1 p.2 = false)).card :=
      unvisited_erase rows cols _ sr 1 (rectWF_replicate rows cols false) hsr (by omega)
        (by norm_num) (vget_replicate rows cols sr 1)
    have h2 : ((oddColCells rows cols).filter
        (fun p => vget (List.replicate rows (List.replicate cols false))
          p.1 p.2 = false)).card = rows * (cols / 2) := by
      rw [← card_oddColCells rows cols]
      congr 1
      apply Finset.filter_true_of_mem
      intro p hp
      rw [vget_replicate]
    have h3 : 2 * (cols / 2) ≤ cols := by omega
    have h4 : 2 * (rows * (cols / 2)) ≤ rows * cols := by
      calc 2 * (rows * (cols / 2)) = rows * (2 * (cols / 2)) := by ring
      _ ≤ rows * cols := Nat.mul_le_mul_left rows h3
    have h5 : (startedGen rows cols sr er r2).stack.length = 1 := rfl
    rw [h5]
    omega

/-- C3 counterexample: with a single column (here the 2×1 grid, shown
at the constant-zero stream), `start_generation` raises an
`IndexError` (modelled as `none`), so no run of repeated
`step_generation` calls after `start_generation` exists at all — the
claim's bound cannot hold for every `rows, cols ≥ 1`. -/
theorem C3_cols_one_counterexample :
    start_generation (MazeGenerator.mk0 2 1 ⟨fun _ => 0, 0⟩) = none := by
  rfl

/-- C3 amended: for every `rows ≥ 1` and `cols ≥ 2` (the grids on
which `start_generation` does not raise) and every random stream,
repeated `step_generation` calls reach the first `False` return within
at most `rows * cols` calls. -/
theorem C3_generation_terminates_amended (f : Nat → Nat) (rows cols : Nat)
    (h1 : 1 ≤ rows) (h2 : 2 ≤ cols) (g : MazeGenerator)
    (hg : start_generation (MazeGenerator.mk0 rows cols ⟨f, 0⟩) = some g) :
    (stepUntilFalse step_generation (rows * cols) g).2 = true := by
  obtain ⟨hsr_lt, -⟩ := rand_edge_row_spec rows ⟨f, 0⟩ h1
  obtain ⟨her_lt, -⟩ := rand_edge_row_spec rows (rand_edge_row rows ⟨f, 0⟩).2 h1
  rw [start_generation_eq rows cols ⟨f, 0⟩ hsr_lt h2] at hg
  have hge := Option.some.inj hg
  obtain ⟨hinv, hmeas⟩ := startedGen_measure rows cols (rand_edge_row rows ⟨f, 0⟩).1
    (rand_edge_row rows (rand_edge_row rows ⟨f, 0⟩).2).1
    (rand_edge_row rows (rand_edge_row rows ⟨f, 0⟩).2).2 hsr_lt her_lt h2
  rw [← hge]
  exact gen_terminates_fuel (rows * cols) _ hinv rfl hmeas

/-- C3 amended witness: the 1×2 grid with the constant-zero stream
reaches the first `False` within 2 = 1*2 calls. -/
theorem C3_generation_terminates_amended_witness :
    (stepUntilFalse step_generation (1 * 2)
      ((start_generation (MazeGenerator.mk0 1 2 ⟨fun _ => 0, 0⟩)).getD
        (MazeGenerator.mk0 1 2 ⟨fun _ => 0, 0⟩))).2 = true :=
  C3_generation_terminates_amended (fun _ => 0) 1 2 (by norm_num) (by norm_num) _ rfl

/-! ## Connectivity of the generated maze -/

/-- Each of the four direction vectors appears in every shuffled
order. -/
theorem pick4_mem_all (k : Nat) (a b c d : Pos) :
    a ∈ pick4 k a b c d ∧ b ∈ pick4 k a b c d ∧ c ∈ pick4 k a b c d ∧
      d ∈ pick4 k a b c d := by
  have h24 : k % 24 < 24 := Nat.mod_lt _ (by norm_num)
  unfold pick4
  generalize hn : k % 24 = n at h24 ⊢
  interval_cases n <;> simp

/-- Full characterization of a DFS step from a non-empty stack,
including the carving performed on a push and the failure of every
direction on a pop. -/
theorem step_dfs_char_full (g : MazeGenerator) (x y : Int)
    (hlast : g.stack.getLast? = some (x, y)) :
    (step_dfs g).2 = true ∧
    ((∃ d : Pos, (d = (0, 2) ∨ d = (2, 0) ∨ d = (0, -2) ∨ d = (-2, 0)) ∧
        dirOk g x y d = true ∧
        (step_dfs g).1.maze =
          (g.maze.carve_path (x + d.1.fdiv 2) (y + d.2.fdiv 2)).carve_path
            (x + d.1) (y + d.2) ∧
        (step_dfs g).1.stack = g.stack ++ [(x + d.1, y + d.2)] ∧
        (step_dfs g).1.visited = vset g.visited (x + d.1).toNat (y + d.2).toNat true) ∨
      ((∀ d : Pos, (d = (0, 2) ∨ d = (2, 0) ∨ d = (0, -2) ∨ d = (-2, 0)) →
          dirOk g x y d = false) ∧
        (step_dfs g).1.maze = g.maze ∧
        (step_dfs g).1.stack = g.stack.dropLast ∧
        (step_dfs g).1.visited = g.visited)) := by
  obtain ⟨hps, hpr, hpv, hpm, hpc, hpp⟩ := peekExit_pres g x y
  unfold step_dfs
  rw [hlast]
  dsimp only
  split
  · rename_i d heq
    have hdmem : d ∈ pick4 ((peekExit g x y).rand.next.1) (0, 2) (2, 0) (0, -2) (-2, 0) :=
      List.mem_of_find?_eq_some heq
    have hdok' := List.find?_some heq
    have hdok : dirOk g x y d = true := by
      rw [← hdok']
      symm
      apply dirOk_eq
      · exact hpm
      · exact hpv
    refine ⟨rfl, Or.inl ⟨d, pick4_mem _ _ _ _ _ _ hdmem, hdok, ?_, ?_, ?_⟩⟩
    · show ((peekExit g x y).maze.carve_path _ _).carve_path _ _ = _
      rw [hpm]
    · show (peekExit g x y).stack ++ [(x + d.1, y + d.2)] = g.stack ++ [(x + d.1, y + d.2)]
      rw [hps]
    · show vset (peekExit g x y).visited (x + d.1).toNat (y + d.2).toNat true =
        vset g.visited (x + d.1).toNat (y + d.2).toNat true
      rw [hpv]
  · rename_i heq
    refine ⟨rfl, Or.inr ⟨?_, ?_, ?_, ?_⟩⟩
    · intro d hd
      have hdmem : d ∈ pick4 ((peekExit g x y).rand.next.1) (0, 2) (2, 0) (0, -2)
          (-2, 0) := by
        obtain ⟨m1, m2, m3, m4⟩ := pick4_mem_all ((peekExit g x y).rand.next.1)
          ((0 : Int), (2 : Int)) (2, 0) (0, -2) (-2, 0)
        rcases hd with rfl | rfl | rfl | rfl
        · exact m1
        · exact m2
        · exact m3
        · exact m4
      have := List.find?_eq_none.mp heq d hdmem
      have heqd : dirOk { peekExit g x y with rand := ((peekExit g x y).rand.next).2 }
          x y d = dirOk g x y d := by
        apply dirOk_eq
        · exact hpm
        · exact hpv
      rw [← heqd]
      simpa using this
    · show (peekExit g x y).maze = g.maze
      exact hpm
    · show (peekExit g x y).stack.dropLast = g.stack.dropLast
      rw [hps]
    · show (peekExit g x y).visited = g.visited
      exact hpv

/-- Marking a cell visited never unmarks another. -/
theorem vget_vset_true_mono (v : List (List Bool)) (i j a b : Nat)
    (h : vget v a b = true) : vget (vset v i j true) a b = true := by
  by_cases hab : a = i ∧ b = j
  · obtain ⟨rfl, rfl⟩ := hab
    unfold vget vset
    by_cases hi : a < v.length
    · rw [getD_set_self _ _ _ _ hi]
      by_cases hj : b < (v.getD a []).length
      · rw [getD_set_self _ _ _ _ hj]
      · rw [List.set_eq_of_length_le (by omega)]
        unfold vget at h
        exact h
    · rw [List.set_eq_of_length_le (by omega)]
      unfold vget at h
      exact h
  · rw [vget_vset_other v i j a b true hab]
    exact h

/-- `visB` is monotone under marking. -/
theorem visB_vset_mono (v : List (List Bool)) (i j : Nat) (p : Pos)
    (h : visB v p = true) : visB (vset v i j true) p = true := by
  unfold visB at h ⊢
  rw [Bool.and_eq_true] at h ⊢
  exact ⟨h.1, vget_vset_true_mono v i j _ _ h.2⟩

/-- `visB` of the freshly marked in-range cell. -/
theorem visB_vset_self (v : List (List Bool)) (R C : Nat) (p : Pos)
    (hwf : rectWF v R C) (h1 : 0 ≤ p.1) (h2 : 0 ≤ p.2)
    (hi : p.1.toNat < R) (hj : p.2.toNat < C) :
    visB (vset v p.1.toNat p.2.toNat true) p = true := by
  unfold visB
  rw [Bool.and_eq_true]
  exact ⟨decide_eq_true ⟨h1, h2⟩, vget_vset_self v R C _ _ _ hwf hi hj⟩

/-- Where a mark landed: either the cell was already marked or it is
(the in-range alias of) the marked cell. -/
theorem visB_vset_elim (v : List (List Bool)) (i j : Nat) (p : Pos)
    (h : visB (vset v i j true) p = true) :
    visB v p = true ∨ (0 ≤ p.1 ∧ 0 ≤ p.2 ∧ p.1.toNat = i ∧ p.2.toNat = j) := by
  unfold visB at h
  rw [Bool.and_eq_true] at h
  obtain ⟨hnn, hv⟩ := h
  have hnn' := of_decide_eq_true hnn
  by_cases hij : p.1.toNat = i ∧ p.2.toNat = j
  · exact Or.inr ⟨hnn'.1, hnn'.2, hij.1, hij.2⟩
  · left
    unfold visB
    rw [Bool.and_eq_true]
    refine ⟨hnn, ?_⟩
    have := vget_vset_other v i j p.1.toNat p.2.toNat true hij
    unfold vget at this hv ⊢
    rw [this] at hv
    exact hv

/-- Path-connectivity is monotone in the carved cells. -/
theorem reach_mono (m m' : MazeStructure)
    (hmono : ∀ a b : Int, m.is_path a b = true → m'.is_path a b = true)
    (u v : Pos) (h : Reach m u v) : Reach m' u v :=
  Relation.ReflTransGen.mono (fun p q hpq => ⟨hpq.1, hmono q.1 q.2 hpq.2⟩) h

/-- Unpacking a successful direction test. -/
theorem dirOk_true_elim (g : MazeGenerator) (x y : Int) (d : Pos)
    (h : dirOk g x y d = true) :
    (0 < x + d.1 ∧ x + d.1 < (g.maze.rows : Int) - 1 ∧ 0 < y + d.2 ∧
      y + d.2 < (g.maze.cols : Int) - 1) ∧
      vget g.visited (x + d.1).toNat (y + d.2).toNat = false := by
  unfold dirOk at h
  rw [Bool.and_eq_true, Bool.not_eq_eq_eq_not] at h
  exact ⟨of_decide_eq_true h.1, h.2⟩

/-- A failed direction test on an in-bounds target means the target
was already visited. -/
theorem dirOk_false_elim (g : MazeGenerator) (x y : Int) (d : Pos)
    (h : dirOk g x y d = false)
    (hb : 0 < x + d.1 ∧ x + d.1 < (g.maze.rows : Int) - 1 ∧ 0 < y + d.2 ∧
      y + d.2 < (g.maze.cols : Int) - 1) :
    vget g.visited (x + d.1).toNat (y + d.2).toNat = true := by
  unfold dirOk at h
  rw [Bool.and_eq_false_iff] at h
  rcases h with h | h
  · exact absurd (decide_eq_true hb) (by simp [h])
  · simpa using h

/-- The generation invariant holds right after `start_generation`. -/
theorem genInv_start (rows cols sr er : Nat) (r2 : PyRand)
    (h3r : 3 ≤ rows) (h3c : 3 ≤ cols)
    (hsr : sr % 2 = 1 ∧ 1 ≤ sr ∧ sr + 2 ≤ rows) (her : er < rows) :
    GenInv rows cols ((sr : Int), 1) ((sr : Int), 0) ((er : Int), (cols : Int) - 1)
      (startedGen rows cols sr er r2) := by
  have hsr' : sr < rows := by omega
  have hc2 : 2 ≤ cols := by omega
  obtain ⟨hrw, hcl, hst, hen, hwf, hiff⟩ :=
    startedGen_facts rows cols sr er r2 hsr' her hc2
  obtain ⟨hvwf, hviff⟩ := startedGen_visited rows cols sr er r2 hsr' hc2
  have hseedvis : visB (startedGen rows cols sr er r2).visited ((sr : Int), 1) = true := by
    unfold visB
    rw [Bool.and_eq_true]
    refine ⟨by simp, ?_⟩
    have : ((sr : Int)).toNat = sr ∧ ((1 : Int)).toNat = 1 := by omega
    rw [this.1, this.2]
    exact (hviff sr 1).mpr ⟨rfl, rfl⟩
  have hvis_eq : ∀ p : Pos, visB (startedGen rows cols sr er r2).visited p = true →
      p = ((sr : Int), 1) := by
    intro p hp
    unfold visB at hp
    rw [Bool.and_eq_true] at hp
    obtain ⟨hnn, hv⟩ := hp
    have hnn' := of_decide_eq_true hnn
    obtain ⟨h1, h2⟩ := (hviff p.1.toNat p.2.toNat).mp hv
    have : p.1 = (sr : Int) ∧ p.2 = 1 := by omega
    calc p = (p.1, p.2) := rfl
    _ = ((sr : Int), 1) := by rw [this.1, this.2]
  have hlatseed : LatCell rows cols ((sr : Int), 1) := by
    refine ⟨?_, ?_, ?_, ?_, ?_, ?_⟩ <;> simp only [] <;> omega
  refine ⟨hrw, hcl, hwf, hst, hen, ?_, ?_, ?_, ?_, ?_, ?_, hseedvis, ?_, hvwf⟩
  · exact (hiff (sr : Int) 0).mpr (Or.inl rfl)
  · exact (hiff (er : Int) ((cols : Int) - 1)).mpr (Or.inr (Or.inl rfl))
  · intro p hp
    have : p = ((sr : Int), 1) := by
      have hp' : p ∈ [((sr : Int), (1 : Int))] := hp
      simpa using hp'
    rw [this]
    exact hseedvis
  · intro p hp
    rw [hvis_eq p hp]
    exact hlatseed
  · intro p hp
    rw [hvis_eq p hp]
    exact (hiff (sr : Int) 1).mpr (Or.inr (Or.inr rfl))
  · intro p hp
    rw [hvis_eq p hp]
    exact Relation.ReflTransGen.refl
  · intro p hp hps
    exact absurd (by rw [hvis_eq p hp]; exact List.mem_singleton.mpr rfl) hps

/-- Componentwise constructor for `LatCell`. -/
theorem LatCell_mk (R C : Nat) (a b : Int)
    (h : a % 2 = 1 ∧ b % 2 = 1 ∧ 0 < a ∧ a < (R : Int) - 1 ∧ 0 < b ∧
      b < (C : Int) - 1) : LatCell R C (a, b) := h

/-- Componentwise introduction for `visB`. -/
theorem visB_intro (v : List (List Bool)) (a b : Int) (h1 : 0 ≤ a) (h2 : 0 ≤ b)
    (h : vget v a.toNat b.toNat = true) : visB v (a, b) = true := by
  unfold visB
  rw [Bool.and_eq_true]
  exact ⟨decide_eq_true ⟨h1, h2⟩, h⟩

/-- The generation invariant is preserved by one DFS step. -/
theorem genInv_step_dfs (R C : Nat) (seed s0 e0 : Pos) (g : MazeGenerator)
    (hinv : GenInv R C seed s0 e0 g) :
    GenInv R C seed s0 e0 (step_dfs g).1 := by
  rcases hl : g.stack.getLast? with _ | ⟨x, y⟩
  · have hstep : step_dfs g = ({ g with generation_complete := true }, false) := by
      unfold step_dfs
      rw [hl]
    rw [hstep]
    exact ⟨hinv.rows_eq, hinv.cols_eq, hinv.gwf, hinv.start_eq, hinv.end_eq,
      hinv.start_path, hinv.end_path, hinv.stack_vis, hinv.vis_lat, hinv.vis_path,
      hinv.vis_conn, hinv.seed_vis, hinv.closed_off, hinv.vwf⟩
  · obtain ⟨-, hcase⟩ := step_dfs_char_full g x y hl
    have hxy_stack : (x, y) ∈ g.stack := List.mem_of_mem_getLast? hl
    have hxy_vis : visB g.visited (x, y) = true := hinv.stack_vis _ hxy_stack
    have hxy_lat : LatCell R C (x, y) := hinv.vis_lat _ hxy_vis
    have hx2 : x % 2 = 1 := hxy_lat.1
    have hy2 : y % 2 = 1 := hxy_lat.2.1
    have hxl : 0 < x := hxy_lat.2.2.1
    have hxr : x < (R : Int) - 1 := hxy_lat.2.2.2.1
    have hyl : 0 < y := hxy_lat.2.2.2.2.1
    have hyr : y < (C : Int) - 1 := hxy_lat.2.2.2.2.2
    have gwf' : rectWF g.maze.grid g.maze.rows g.maze.cols := by
      rw [hinv.rows_eq, hinv.cols_eq]
      exact hinv.gwf
    have hRe := hinv.rows_eq
    have hCe := hinv.cols_eq
    rcases hcase with ⟨d, hd4, hdok, hmz, hstk, hvst⟩ | ⟨hfail, hmz, hstk, hvst⟩
    · -- push: carve the wall cell and the new cell, mark it, extend the stack
      obtain ⟨⟨hbx1, hbx2, hby1, hby2⟩, hnvis⟩ := dirOk_true_elim g x y d hdok
      have hcases : (d.1.fdiv 2 = 0 ∧ d.2.fdiv 2 = 1 ∧ d.1 = 0 ∧ d.2 = 2) ∨
          (d.1.fdiv 2 = 1 ∧ d.2.fdiv 2 = 0 ∧ d.1 = 2 ∧ d.2 = 0) ∨
          (d.1.fdiv 2 = 0 ∧ d.2.fdiv 2 = -1 ∧ d.1 = 0 ∧ d.2 = -2) ∨
          (d.1.fdiv 2 = -1 ∧ d.2.fdiv 2 = 0 ∧ d.1 = -2 ∧ d.2 = 0) := by
        rcases hd4 with rfl | rfl | rfl | rfl
        · exact Or.inl ⟨by decide, by decide, rfl, rfl⟩
        · exact Or.inr (Or.inl ⟨by decide, by decide, rfl, rfl⟩)
        · exact Or.inr (Or.inr (Or.inl ⟨by decide, by decide, rfl, rfl⟩))
        · exact Or.inr (Or.inr (Or.inr ⟨by decide, by decide, rfl, rfl⟩))
      have hkey : g.maze.is_valid_position (x + d.1.fdiv 2) (y + d.2.fdiv 2) = true ∧
          g.maze.is_valid_position (x + d.1) (y + d.2) = true ∧
          LatCell R C (x + d.1, y + d.2) ∧
          (x + d.1.fdiv 2, y + d.2.fdiv 2) ∈ adjCells (x, y) ∧
          (x + d.1, y + d.2) ∈ adjCells (x + d.1.fdiv 2, y + d.2.fdiv 2) := by
        rcases hcases with ⟨h3, h4, h1, h2⟩ | ⟨h3, h4, h1, h2⟩ | ⟨h3, h4, h1, h2⟩ |
            ⟨h3, h4, h1, h2⟩ <;>
          simp only [h3, h4] <;> simp only [h1, h2] at hbx1 hbx2 hby1 hby2 ⊢ <;>
          exact ⟨valid_mk _ _ _ (by omega), valid_mk _ _ _ (by omega),
            LatCell_mk _ _ _ _ (by omega),
            by simp only [adjCells, List.mem_cons, List.not_mem_nil, or_false,
                 Prod.mk.injEq, and_true, true_and] <;> omega,
            by simp only [adjCells, List.mem_cons, List.not_mem_nil, or_false,
                 Prod.mk.injEq, and_true, true_and] <;> omega⟩
      have hwf1 : rectWF (g.maze.carve_path (x + d.1.fdiv 2) (y + d.2.fdiv 2)).grid
          (g.maze.carve_path (x + d.1.fdiv 2) (y + d.2.fdiv 2)).rows
          (g.maze.carve_path (x + d.1.fdiv 2) (y + d.2.fdiv 2)).cols :=
        carve_wf _ _ _ gwf'
      have hmono : ∀ a b : Int, g.maze.is_path a b = true →
          (step_dfs g).1.maze.is_path a b = true := by
        intro a b hab
        rw [hmz]
        exact carve_is_path_mono _ _ _ _ _ hwf1 (carve_is_path_mono _ _ _ _ _ gwf' hab)
      have hmid_path : (step_dfs g).1.maze.is_path (x + d.1.fdiv 2)
          (y + d.2.fdiv 2) = true := by
        rw [hmz]
        exact carve_is_path_mono _ _ _ _ _ hwf1 (carve_is_path_self _ _ _ gwf' hkey.1)
      have hn_valid : (g.maze.carve_path (x + d.1.fdiv 2)
          (y + d.2.fdiv 2)).is_valid_position (x + d.1) (y + d.2) = true := by
        rw [carve_valid_eq]
        exact hkey.2.1
      have hn_path : (step_dfs g).1.maze.is_path (x + d.1) (y + d.2) = true := by
        rw [hmz]
        exact carve_is_path_self _ _ _ hwf1 hn_valid
      have hp_eq_n : ∀ p : Pos, 0 ≤ p.1 → 0 ≤ p.2 → p.1.toNat = (x + d.1).toNat →
          p.2.toNat = (y + d.2).toNat → p = (x + d.1, y + d.2) := by
        intro p h1 h2 h3 h4
        calc p = (p.1, p.2) := rfl
        _ = (x + d.1, y + d.2) := by
          rw [Prod.mk.injEq]
          exact ⟨by omega, by omega⟩
      refine ⟨?_, ?_, ?_, ?_, ?_, ?_, ?_, ?_, ?_, ?_, ?_, ?_, ?_, ?_⟩
      · rw [hmz, carve_rows, carve_rows]
        exact hinv.rows_eq
      · rw [hmz, carve_cols, carve_cols]
        exact hinv.cols_eq
      · rw [hmz]
        have w := carve_wf _ (x + d.1) (y + d.2) hwf1
        rw [carve_rows, carve_rows, carve_cols, carve_cols, hinv.rows_eq,
          hinv.cols_eq] at w
        exact w
      · rw [hmz, carve_start, carve_start]
        exact hinv.start_eq
      · rw [hmz, carve_endPos, carve_endPos]
        exact hinv.end_eq
      · exact hmono _ _ hinv.start_path
      · exact hmono _ _ hinv.end_path
      · intro p hp
        rw [hstk] at hp
        rw [hvst]
        rcases List.mem_append.mp hp with hp | hp
        · exact visB_vset_mono _ _ _ _ (hinv.stack_vis _ hp)
        · have hpn : p = (x + d.1, y + d.2) := by simpa using hp
          rw [hpn]
          exact visB_vset_self _ R C _ hinv.vwf (by omega) (by omega) (by omega)
            (by omega)
      · intro p hp
        rw [hvst] at hp
        rcases visB_vset_elim _ _ _ _ hp with hp | ⟨h1, h2, h3, h4⟩
        · exact hinv.vis_lat _ hp
        · rw [hp_eq_n p h1 h2 h3 h4]
          exact hkey.2.2.1
      · intro p hp
        rw [hvst] at hp
        rcases visB_vset_elim _ _ _ _ hp with hp | ⟨h1, h2, h3, h4⟩
        · exact hmono _ _ (hinv.vis_path _ hp)
        · rw [hp_eq_n p h1 h2 h3 h4]
          exact hn_path
      · intro p hp
        rw [hvst] at hp
        rcases visB_vset_elim _ _ _ _ hp with hp | ⟨h1, h2, h3, h4⟩
        · exact reach_mono _ _ hmono _ _ (hinv.vis_conn _ hp)
        · rw [hp_eq_n p h1 h2 h3 h4]
          have hxy : Reach (step_dfs g).1.maze seed (x, y) :=
            reach_mono _ _ hmono _ _ (hinv.vis_conn _ hxy_vis)
          exact Relation.ReflTransGen.tail
            (Relation.ReflTransGen.tail hxy ⟨hkey.2.2.2.1, hmid_path⟩)
            ⟨hkey.2.2.2.2, hn_path⟩
      · rw [hvst]
        exact visB_vset_mono _ _ _ _ hinv.seed_vis
      · intro p hp hps q hq
        rw [hvst] at hp ⊢
        rw [hstk] at hps
        rcases visB_vset_elim _ _ _ _ hp with hp | ⟨h1, h2, h3, h4⟩
        · have hps' : p ∉ g.stack := fun hmem => hps (List.mem_append.mpr (Or.inl hmem))
          exact visB_vset_mono _ _ _ _ (hinv.closed_off _ hp hps' q hq)
        · refine absurd (List.mem_append.mpr (Or.inr ?_)) hps
          rw [hp_eq_n p h1 h2 h3 h4]
          exact List.mem_singleton.mpr rfl
      · rw [hvst]
        exact rectWF_set _ R C _ _ _ hinv.vwf
    · -- backtrack: pop the dead-end cell off the stack
      have hne : g.stack ≠ [] := by
        intro h0
        rw [h0] at hl
        simp at hl
      have hlast_eq : g.stack.getLast hne = (x, y) := by
        rw [List.getLast?_eq_getLast _ hne] at hl
        exact Option.some_inj.mp hl
      refine ⟨?_, ?_, ?_, ?_, ?_, ?_, ?_, ?_, ?_, ?_, ?_, ?_, ?_, ?_⟩
      · rw [hmz]; exact hinv.rows_eq
      · rw [hmz]; exact hinv.cols_eq
      · rw [hmz]; exact hinv.gwf
      · rw [hmz]; exact hinv.start_eq
      · rw [hmz]; exact hinv.end_eq
      · rw [hmz]; exact hinv.start_path
      · rw [hmz]; exact hinv.end_path
      · intro p hp
        rw [hstk] at hp
        rw [hvst]
        exact hinv.stack_vis _ (List.dropLast_subset _ hp)
      · intro p hp
        rw [hvst] at hp
        exact hinv.vis_lat _ hp
      · intro p hp
        rw [hvst] at hp
        rw [hmz]
        exact hinv.vis_path _ hp
      · intro p hp
        rw [hvst] at hp
        rw [hmz]
        exact hinv.vis_conn _ hp
      · rw [hvst]
        exact hinv.seed_vis
      · intro p hp hps q hq
        rw [hvst] at hp ⊢
        rw [hstk] at hps
        by_cases hpstk : p ∈ g.stack
        · have hp_eq : p = (x, y) := by
            have hsplit := List.dropLast_append_getLast hne
            rw [hlast_eq] at hsplit
            rw [← hsplit] at hpstk
            rcases List.mem_append.mp hpstk with h | h
            · exact absurd h hps
            · simpa using h
          subst hp_eq
          obtain ⟨hqlat, hqdir⟩ := hq
          obtain ⟨q1, q2⟩ := q
          have hqb1 : 0 < q1 := hqlat.2.2.1
          have hqb2 : q1 < (R : Int) - 1 := hqlat.2.2.2.1
          have hqb3 : 0 < q2 := hqlat.2.2.2.2.1
          have hqb4 : q2 < (C : Int) - 1 := hqlat.2.2.2.2.2
          rcases hqdir with hqd | hqd | hqd | hqd <;> rw [Prod.mk.injEq] at hqd
          · have hq1 : q1 = x + 2 := hqd.1
            have hq2 : q2 = y := hqd.2
            have hdir : vget g.visited (x + 2).toNat (y + 0).toNat = true :=
              dirOk_false_elim g x y (2, 0) (hfail (2, 0) (Or.inr (Or.inl rfl)))
                (⟨by omega, by omega, by omega, by omega⟩ :
                  0 < x + 2 ∧ x + 2 < (g.maze.rows : Int) - 1 ∧
                    0 < y + 0 ∧ y + 0 < (g.maze.cols : Int) - 1)
            refine visB_intro _ _ _ (by omega) (by omega) ?_
            have ht1 : q1.toNat = (x + 2).toNat := by omega
            have ht2 : q2.toNat = (y + 0).toNat := by omega
            rw [ht1, ht2]
            exact hdir
          · have hq1 : q1 = x - 2 := hqd.1
            have hq2 : q2 = y := hqd.2
            have hdir : vget g.visited (x + -2).toNat (y + 0).toNat = true :=
              dirOk_false_elim g x y (-2, 0)
                (hfail (-2, 0) (Or.inr (Or.inr (Or.inr rfl))))
                (⟨by omega, by omega, by omega, by omega⟩ :
                  0 < x + -2 ∧ x + -2 < (g.maze.rows : Int) - 1 ∧
                    0 < y + 0 ∧ y + 0 < (g.maze.cols : Int) - 1)
            refine visB_intro _ _ _ (by omega) (by omega) ?_
            have ht1 : q1.toNat = (x + -2).toNat := by omega
            have ht2 : q2.toNat = (y + 0).toNat := by omega
            rw [ht1, ht2]
            exact hdir
          · have hq1 : q1 = x := hqd.1
            have hq2 : q2 = y + 2 := hqd.2
            have hdir : vget g.visited (x + 0).toNat (y + 2).toNat = true :=
              dirOk_false_elim g x y (0, 2) (hfail (0, 2) (Or.inl rfl))
                (⟨by omega, by omega, by omega, by omega⟩ :
                  0 < x + 0 ∧ x + 0 < (g.maze.rows : Int) - 1 ∧
                    0 < y + 2 ∧ y + 2 < (g.maze.cols : Int) - 1)
            refine visB_intro _ _ _ (by omega) (by omega) ?_
            have ht1 : q1.toNat = (x + 0).toNat := by omega
            have ht2 : q2.toNat = (y + 2).toNat := by omega
            rw [ht1, ht2]
            exact hdir
          · have hq1 : q1 = x := hqd.1
            have hq2 : q2 = y - 2 := hqd.2
            have hdir : vget g.visited (x + 0).toNat (y + -2).toNat = true :=
              dirOk_false_elim g x y (0, -2)
                (hfail (0, -2) (Or.inr (Or.inr (Or.inl rfl))))
                (⟨by omega, by omega, by omega, by omega⟩ :
                  0 < x + 0 ∧ x + 0 < (g.maze.rows : Int) - 1 ∧
                    0 < y + -2 ∧ y + -2 < (g.maze.cols : Int) - 1)
            refine visB_intro _ _ _ (by omega) (by omega) ?_
            have ht1 : q1.toNat = (x + 0).toNat := by omega
            have ht2 : q2.toNat = (y + -2).toNat := by omega
            rw [ht1, ht2]
            exact hdir
        · exact hinv.closed_off _ hp hpstk q hq
      · rw [hvst]
        exact hinv.vwf

/-- A `False` return from `_step_dfs` happens only on an empty stack,
and changes nothing but the completion flag. -/
theorem step_dfs_false_stack (g : MazeGenerator) (h : (step_dfs g).2 = false) :
    (step_dfs g).1.stack = g.stack ∧ g.stack = [] := by
  rcases hl : g.stack.getLast? with _ | ⟨x, y⟩
  · have hstep : step_dfs g = ({ g with generation_complete := true }, false) := by
      unfold step_dfs
      rw [hl]
    rw [hstep]
    exact ⟨rfl, List.getLast?_eq_none_iff.mp hl⟩
  · obtain ⟨ht, -⟩ := step_dfs_char_full g x y hl
    rw [ht] at h
    exact absurd h (by simp)

/-- The generation invariant is carried from the start of the
animation loop to its first `False` return, at which point the stack
is empty. -/
theorem genInv_run (R C : Nat) (seed s0 e0 : Pos) (fuel : Nat) :
    ∀ g gfin : MazeGenerator, GenInv R C seed s0 e0 g →
      g.generation_complete = false →
      stepUntilFalse step_generation fuel g = (gfin, true) →
      GenInv R C seed s0 e0 gfin ∧ gfin.stack = [] := by
  induction fuel with
  | zero =>
    intro g gfin hinv hgc hrun
    exact absurd (congrArg Prod.snd hrun) (by simp [stepUntilFalse])
  | succ n ih =>
    intro g gfin hinv hgc hrun
    have hsg : step_generation g = step_dfs g := by
      unfold step_generation
      rw [hgc]
      simp
    have hrun' : (if (step_generation g).2 = true then
        stepUntilFalse step_generation n (step_generation g).1
        else ((step_generation g).1, true)) = (gfin, true) := hrun
    by_cases hb : (step_generation g).2 = true
    · rw [if_pos hb] at hrun'
      refine ih _ _ ?_ (gen_flag_h2 g hgc hb) hrun'
      rw [hsg]
      exact genInv_step_dfs R C seed s0 e0 g hinv
    · rw [if_neg hb] at hrun'
      have hgfin : gfin = (step_generation g).1 :=
        ((Prod.mk.injEq _ _ _ _).mp hrun').1.symm
      have hbf : (step_dfs g).2 = false := by
        rw [← hsg]
        simpa using hb
      obtain ⟨hstk, hemp⟩ := step_dfs_false_stack g hbf
      constructor
      · rw [hgfin, hsg]
        exact genInv_step_dfs R C seed s0 e0 g hinv
      · rw [hgfin, hsg, hstk]
        exact hemp

/-- Once the DFS has finished (empty stack), every lattice cell has
been visited: walk from the seed two cells at a time, using the
dead-end closure property at each visited cell. -/
theorem lattice_all_visited (R C : Nat) (seed s0 e0 : Pos) (g : MazeGenerator)
    (hinv : GenInv R C seed s0 e0 g) (hstk : g.stack = [])
    (p : Pos) (hp : LatCell R C p) : visB g.visited p = true := by
  have hseed_lat : LatCell R C seed := hinv.vis_lat _ hinv.seed_vis
  have hs1 : seed.1 % 2 = 1 := hseed_lat.1
  have hs2 : seed.2 % 2 = 1 := hseed_lat.2.1
  have hsb1 : 0 < seed.1 := hseed_lat.2.2.1
  have hsb2 : seed.1 < (R : Int) - 1 := hseed_lat.2.2.2.1
  have hsb3 : 0 < seed.2 := hseed_lat.2.2.2.2.1
  have hsb4 : seed.2 < (C : Int) - 1 := hseed_lat.2.2.2.2.2
  have hnostk : ∀ r : Pos, r ∉ g.stack := by
    intro r
    rw [hstk]
    exact List.not_mem_nil r
  have key : ∀ n : Nat, ∀ q : Pos,
      (q.1 - seed.1).natAbs + (q.2 - seed.2).natAbs ≤ n → LatCell R C q →
      visB g.visited q = true := by
    intro n
    induction n with
    | zero =>
      intro q hd hq
      obtain ⟨a, b⟩ := q
      have hd0 : (a - seed.1).natAbs + (b - seed.2).natAbs ≤ 0 := hd
      have hq_eq : (a, b) = seed := by
        have : a = seed.1 ∧ b = seed.2 := by omega
        calc ((a : Int), (b : Int)) = (seed.1, seed.2) := by rw [this.1, this.2]
        _ = seed := rfl
      rw [hq_eq]
      exact hinv.seed_vis
    | succ n ih =>
      intro q hd hq
      obtain ⟨a, b⟩ := q
      have hd0 : (a - seed.1).natAbs + (b - seed.2).natAbs ≤ n + 1 := hd
      have hq1 : a % 2 = 1 := hq.1
      have hq2 : b % 2 = 1 := hq.2.1
      have hqb1 : 0 < a := hq.2.2.1
      have hqb2 : a < (R : Int) - 1 := hq.2.2.2.1
      have hqb3 : 0 < b := hq.2.2.2.2.1
      have hqb4 : b < (C : Int) - 1 := hq.2.2.2.2.2
      by_cases ha : a = seed.1
      · by_cases hbeq : b = seed.2
        · have hq_eq : (a, b) = seed := by
            calc ((a : Int), (b : Int)) = (seed.1, seed.2) := by rw [ha, hbeq]
            _ = seed := rfl
          rw [hq_eq]
          exact hinv.seed_vis
        · rcases lt_or_gt_of_ne hbeq with hlt | hgt
          · have hq'lat : LatCell R C (a, b + 2) := LatCell_mk _ _ _ _ (by omega)
            have hvq' := ih (a, b + 2) (by
              show (a - seed.1).natAbs + (b + 2 - seed.2).natAbs ≤ n
              omega) hq'lat
            have hmk : ((a : Int), (b : Int)) = (a, b + 2 - 2) := by
              rw [Prod.mk.injEq]
              exact ⟨rfl, by omega⟩
            exact hinv.closed_off _ hvq' (hnostk _) _
              ⟨hq, Or.inr (Or.inr (Or.inr hmk))⟩
          · have hq'lat : LatCell R C (a, b - 2) := LatCell_mk _ _ _ _ (by omega)
            have hvq' := ih (a, b - 2) (by
              show (a - seed.1).natAbs + (b - 2 - seed.2).natAbs ≤ n
              omega) hq'lat
            have hmk : ((a : Int), (b : Int)) = (a, b - 2 + 2) := by
              rw [Prod.mk.injEq]
              exact ⟨rfl, by omega⟩
            exact hinv.closed_off _ hvq' (hnostk _) _
              ⟨hq, Or.inr (Or.inr (Or.inl hmk))⟩
      · rcases lt_or_gt_of_ne ha with hlt | hgt
        · have hq'lat : LatCell R C (a + 2, b) := LatCell_mk _ _ _ _ (by omega)
          have hvq' := ih (a + 2, b) (by
            show (a + 2 - seed.1).natAbs + (b - seed.2).natAbs ≤ n
            omega) hq'lat
          have hmk : ((a : Int), (b : Int)) = (a + 2 - 2, b) := by
            rw [Prod.mk.injEq]
            exact ⟨by omega, rfl⟩
          exact hinv.closed_off _ hvq' (hnostk _) _
            ⟨hq, Or.inr (Or.inl hmk)⟩
        · have hq'lat : LatCell R C (a - 2, b) := LatCell_mk _ _ _ _ (by omega)
          have hvq' := ih (a - 2, b) (by
            show (a - 2 - seed.1).natAbs + (b - seed.2).natAbs ≤ n
            omega) hq'lat
          have hmk : ((a : Int), (b : Int)) = (a - 2 + 2, b) := by
            rw [Prod.mk.injEq]
            exact ⟨by omega, rfl⟩
          exact hinv.closed_off _ hvq' (hnostk _) _
            ⟨hq, Or.inl hmk⟩
  exact key ((p.1 - seed.1).natAbs + (p.2 - seed.2).natAbs) p le_rfl hp

/-! ## Flood-fill completeness -/

/-- Peeling the flood-fill iteration from the outside. -/
theorem floodIter_succ_out (m : MazeStructure) (n : Nat) :
    ∀ s : List Pos, floodIter m (n + 1) s = floodStep m (floodIter m n s) := by
  induction n with
  | zero => intro s; rfl
  | succ n ih =>
    intro s
    show floodIter m (n + 1) (floodStep m s) = _
    rw [ih]
    rfl

/-- Flood-fill membership is inflationary. -/
theorem mem_floodIter (m : MazeStructure) (n : Nat) :
    ∀ (s : List Pos) (p : Pos), p ∈ s → p ∈ floodIter m n s := by
  induction n with
  | zero => intro s p hp; exact hp
  | succ n ih =>
    intro s p hp
    show p ∈ floodIter m n (floodStep m s)
    exact ih _ _ (List.mem_append.mpr (Or.inl hp))

/-- A fixed point of `floodStep` containing a cell contains all its
Path neighbours. -/
theorem floodStep_fix_closed (m : MazeStructure) (s : List Pos)
    (hfix : floodStep m s = s) :
    ∀ p ∈ s, ∀ q ∈ adjCells p, m.is_path q.1 q.2 = true → q ∈ s := by
  intro p hp q hq hpath
  by_contra hqs
  have hqmem : q ∈ (s.flatMap adjCells).filter
      (fun q => m.is_path q.1 q.2 && !(s.contains q)) := by
    apply List.mem_filter.mpr
    refine ⟨List.mem_flatMap.mpr ⟨p, hp, hq⟩, ?_⟩
    rw [Bool.and_eq_true, hpath]
    exact ⟨rfl, by simp [hqs]⟩
  have hmem : q ∈ floodStep m s :=
    List.mem_append.mpr (Or.inr (List.mem_dedup.mpr hqmem))
  rw [hfix] at hmem
  exact hqs hmem

/-- A flood-fill step keeps the working list duplicate-free. -/
theorem floodStep_nodup (m : MazeStructure) (s : List Pos) (h : s.Nodup) :
    (floodStep m s).Nodup := by
  refine List.Nodup.append h (List.nodup_dedup _) ?_
  intro a ha hb
  have hflt := (List.mem_filter.mp (List.mem_dedup.mp hb)).2
  rw [Bool.and_eq_true] at hflt
  have : ¬ a ∈ s := by simpa using hflt.2
  exact this ha

theorem cellFinset_card (m : MazeStructure) :
    (cellFinset m).card ≤ m.rows * m.cols + 1 := by
  refine le_trans (Finset.card_insert_le _ _) ?_
  have h2 : ((Finset.range m.rows ×ˢ Finset.range m.cols).image
      (fun rc : Nat × Nat => ((rc.1 : Int), (rc.2 : Int)))).card ≤
      (Finset.range m.rows ×ˢ Finset.range m.cols).card := Finset.card_image_le
  rw [Finset.card_product, Finset.card_range, Finset.card_range] at h2
  omega

theorem is_path_mem_cellFinset (m : MazeStructure) (q : Pos)
    (h : m.is_path q.1 q.2 = true) : q ∈ cellFinset m := by
  have hv : 0 ≤ q.1 ∧ q.1 < (m.rows : Int) ∧ 0 ≤ q.2 ∧ q.2 < (m.cols : Int) :=
    of_decide_eq_true (is_path_valid m q.1 q.2 h)
  apply Finset.mem_insert_of_mem
  apply Finset.mem_image.mpr
  refine ⟨(q.1.toNat, q.2.toNat), ?_, ?_⟩
  · rw [Finset.mem_product]
    constructor <;> rw [Finset.mem_range] <;> omega
  · have hqq : ((q.1.toNat : Int), (q.2.toNat : Int)) = (q.1, q.2) := by
      rw [Prod.mk.injEq]
      exact ⟨by omega, by omega⟩
    rw [hqq]

theorem floodIter_mem_cellFinset (m : MazeStructure) (n : Nat) :
    ∀ q ∈ floodIter m n [m.start], q ∈ cellFinset m := by
  induction n with
  | zero =>
    intro q hq
    have hq0 : q ∈ [m.start] := hq
    have : q = m.start := by simpa using hq0
    rw [this]
    exact Finset.mem_insert_self _ _
  | succ n ih =>
    intro q hq
    rw [floodIter_succ_out] at hq
    rcases List.mem_append.mp hq with hq | hq
    · exact ih q hq
    · have hflt := (List.mem_filter.mp (List.mem_dedup.mp hq)).2
      rw [Bool.and_eq_true] at hflt
      exact is_path_mem_cellFinset m q hflt.1

theorem floodIter_nodup (m : MazeStructure) (n : Nat) :
    (floodIter m n [m.start]).Nodup := by
  induction n with
  | zero => exact List.nodup_singleton _
  | succ n ih =>
    rw [floodIter_succ_out]
    exact floodStep_nodup m _ ih

theorem floodIter_length_le (m : MazeStructure) (n : Nat) :
    (floodIter m n [m.start]).length ≤ m.rows * m.cols + 1 := by
  have h1 : (floodIter m n [m.start]).toFinset.card =
      (floodIter m n [m.start]).length :=
    List.toFinset_card_of_nodup (floodIter_nodup m n)
  have h2 : (floodIter m n [m.start]).toFinset ⊆ cellFinset m := fun q hq =>
    floodIter_mem_cellFinset m n q (List.mem_toFinset.mp hq)
  calc (floodIter m n [m.start]).length = (floodIter m n [m.start]).toFinset.card :=
    h1.symm
  _ ≤ (cellFinset m).card := Finset.card_le_card h2
  _ ≤ m.rows * m.cols + 1 := cellFinset_card m

/-- Each flood-fill step either is a fixed point or strictly grows the
list. -/
theorem floodStep_grow (m : MazeStructure) (s : List Pos) :
    floodStep m s = s ∨ s.length < (floodStep m s).length := by
  by_cases hb : ((s.flatMap adjCells).filter (fun q => m.is_path q.1 q.2 &&
      !(s.contains q))).dedup = []
  · left
    unfold floodStep
    rw [hb]
    simp
  · right
    show s.length < (s ++ _).length
    rw [List.length_append]
    have := List.length_pos.mpr hb
    omega

/-- After `j` rounds the flood fill is either settled or has at least
`j + 1` cells. -/
theorem floodIter_fix_or_long (m : MazeStructure) (j : Nat) :
    floodStep m (floodIter m j [m.start]) = floodIter m j [m.start] ∨
      j + 1 ≤ (floodIter m j [m.start]).length := by
  induction j with
  | zero =>
    right
    show 0 + 1 ≤ [m.start].length
    simp
  | succ j ih =>
    rcases ih with hfix | hlen
    · left
      rw [floodIter_succ_out, hfix, hfix]
    · rcases floodStep_grow m (floodIter m j [m.start]) with hfix | hgrow
      · left
        rw [floodIter_succ_out, hfix, hfix]
      · right
        rw [floodIter_succ_out]
        omega

/-- `rows*cols + 1` rounds always reach a fixed point. -/
theorem floodIter_stable (m : MazeStructure) :
    floodStep m (floodIter m (m.rows * m.cols + 1) [m.start]) =
      floodIter m (m.rows * m.cols + 1) [m.start] := by
  rcases floodIter_fix_or_long m (m.rows * m.cols + 1) with h | h
  · exact h
  · have := floodIter_length_le m (m.rows * m.cols + 1)
    omega

/-- Everything path-reachable from the start marker is found by the
saturated flood fill. -/
theorem reach_mem_flood (m : MazeStructure) (w : Pos)
    (h : Reach m m.start w) :
    w ∈ floodIter m (m.rows * m.cols + 1) [m.start] := by
  induction h with
  | refl =>
    exact mem_floodIter m _ _ _ (List.mem_singleton.mpr rfl)
  | tail hab hbc ih =>
    exact floodStep_fix_closed m _ (floodIter_stable m) _ ih _ hbc.1 hbc.2

/-- `reachesEnd` holds whenever the end marker is path-reachable from
the start marker. -/
theorem reachesEnd_of_reach (m : MazeStructure)
    (h : Reach m m.start m.endPos) : reachesEnd m = true :=
  List.elem_eq_true_of_mem (reach_mem_flood m m.endPos h)

/-- C1 counterexample: on the 5×4 grid (even number of columns) with
the all-zeros random stream, generation completes (the loop returns
`False` within 20 steps) yet the flood fill from the start marker
never reaches the end marker: every carved interior cell has an odd
column, while the exit sits next to column `cols - 2 = 2`. -/
theorem C1_even_cols_counterexample :
    (stepUntilFalse step_generation 20
      ((start_generation (MazeGenerator.mk0 5 4 ⟨fun _ => 0, 0⟩)).getD
        (MazeGenerator.mk0 5 4 ⟨fun _ => 0, 0⟩))).2 = true ∧
    reachesEnd (stepUntilFalse step_generation 20
      ((start_generation (MazeGenerator.mk0 5 4 ⟨fun _ => 0, 0⟩)).getD
        (MazeGenerator.mk0 5 4 ⟨fun _ => 0, 0⟩))).1.maze = false := by
  exact ⟨rfl, rfl⟩

/-- C1 (amended): for every grid with `rows, cols ≥ 3` and `cols` odd,
and every random stream, if generation completes (the step loop
returns `False` within its fuel), the flood fill from the start marker
through Path cells reaches the end marker: the generated maze is
solvable. -/
theorem C1_connectivity_amended (rows cols : Nat) (r : PyRand)
    (g gfin : MazeGenerator) (fuel : Nat)
    (h3r : 3 ≤ rows) (h3c : 3 ≤ cols) (hodd : cols % 2 = 1)
    (hg : start_generation (MazeGenerator.mk0 rows cols r) = some g)
    (hrun : stepUntilFalse step_generation fuel g = (gfin, true)) :
    reachesEnd gfin.maze = true := by
  obtain ⟨hsrlt, hsrodd⟩ := rand_edge_row_spec rows r (by omega)
  obtain ⟨herlt, herodd⟩ := rand_edge_row_spec rows (rand_edge_row rows r).2 (by omega)
  obtain ⟨hsr1, hsr2, hsr3⟩ := hsrodd h3r
  obtain ⟨her1, her2, her3⟩ := herodd h3r
  have hgeq : g = startedGen rows cols (rand_edge_row rows r).1
      (rand_edge_row rows (rand_edge_row rows r).2).1
      (rand_edge_row rows (rand_edge_row rows r).2).2 := by
    rw [start_generation_eq rows cols r hsrlt (by omega)] at hg
    exact (Option.some_inj.mp hg).symm
  have hinv0 := genInv_start rows cols (rand_edge_row rows r).1
    (rand_edge_row rows (rand_edge_row rows r).2).1
    (rand_edge_row rows (rand_edge_row rows r).2).2
    h3r h3c ⟨hsr1, hsr2, hsr3⟩ herlt
  rw [← hgeq] at hinv0
  have hgc : g.generation_complete = false := by
    rw [hgeq]
    rfl
  obtain ⟨hinvf, hstkf⟩ := genInv_run rows cols _ _ _ fuel g gfin hinv0 hgc hrun
  have htlat : LatCell rows cols (((rand_edge_row rows
      (rand_edge_row rows r).2).1 : Int), (cols : Int) - 2) :=
    LatCell_mk _ _ _ _ (by omega)
  have hvt := lattice_all_visited rows cols _ _ _ gfin hinvf hstkf _ htlat
  have htp : gfin.maze.is_path ((rand_edge_row rows
      (rand_edge_row rows r).2).1 : Int) ((cols : Int) - 2) = true :=
    hinvf.vis_path _ hvt
  have hrt : Reach gfin.maze (((rand_edge_row rows r).1 : Int), 1)
      (((rand_edge_row rows (rand_edge_row rows r).2).1 : Int), (cols : Int) - 2) :=
    hinvf.vis_conn _ hvt
  have hsp : gfin.maze.is_path ((rand_edge_row rows r).1 : Int) 1 = true :=
    hinvf.vis_path _ hinvf.seed_vis
  have hmem1 : (((rand_edge_row rows r).1 : Int), (1 : Int)) ∈
      adjCells (((rand_edge_row rows r).1 : Int), 0) := by
    simp only [adjCells, List.mem_cons, List.not_mem_nil, or_false, Prod.mk.injEq,
      and_true, true_and] <;> omega
  have hmem2 : (((rand_edge_row rows (rand_edge_row rows r).2).1 : Int),
      (cols : Int) - 1) ∈ adjCells (((rand_edge_row rows
      (rand_edge_row rows r).2).1 : Int), (cols : Int) - 2) := by
    simp only [adjCells, List.mem_cons, List.not_mem_nil, or_false, Prod.mk.injEq,
      and_true, true_and] <;> omega
  apply reachesEnd_of_reach
  rw [hinvf.start_eq, hinvf.end_eq]
  exact (Relation.ReflTransGen.single ⟨hmem1, hsp⟩).trans
    (hrt.trans (Relation.ReflTransGen.single ⟨hmem2, hinvf.end_path⟩))

/-- Witness: on a 3×3 grid with the all-zeros random stream,
generation completes within 9 steps and the resulting maze is
solvable, via `C1_connectivity_amended`. -/
theorem C1_connectivity_amended_witness :
    reachesEnd (stepUntilFalse step_generation 9
      ((start_generation (MazeGenerator.mk0 3 3 ⟨fun _ => 0, 0⟩)).getD
        (MazeGenerator.mk0 3 3 ⟨fun _ => 0, 0⟩))).1.maze = true := by
  apply C1_connectivity_amended 3 3 ⟨fun _ => 0, 0⟩
    ((start_generation (MazeGenerator.mk0 3 3 ⟨fun _ => 0, 0⟩)).getD
      (MazeGenerator.mk0 3 3 ⟨fun _ => 0, 0⟩))
    (stepUntilFalse step_generation 9
      ((start_generation (MazeGenerator.mk0 3 3 ⟨fun _ => 0, 0⟩)).getD
        (MazeGenerator.mk0 3 3 ⟨fun _ => 0, 0⟩))).1
    9 (by norm_num) (by norm_num) (by norm_num)
  · rfl
  · rfl

/-! ## Direction and scan calculus (C2) -/

theorem rhsTarget0 (p : Pos) : rhsTarget p 0 = (p.1 - 1, p.2) := by
  show ((p.1 + -1 : Int), (p.2 + 0 : Int)) = (p.1 - 1, p.2)
  rw [Prod.mk.injEq]
  exact ⟨by omega, by omega⟩

theorem rhsTarget1 (p : Pos) : rhsTarget p 1 = (p.1, p.2 + 1) := by
  show ((p.1 + 0 : Int), (p.2 + 1 : Int)) = (p.1, p.2 + 1)
  rw [Prod.mk.injEq]
  exact ⟨by omega, by omega⟩

theorem rhsTarget2 (p : Pos) : rhsTarget p 2 = (p.1 + 1, p.2) := by
  show ((p.1 + 1 : Int), (p.2 + 0 : Int)) = (p.1 + 1, p.2)
  rw [Prod.mk.injEq]
  exact ⟨by omega, by omega⟩

theorem rhsTarget3 (p : Pos) : rhsTarget p 3 = (p.1, p.2 - 1) := by
  show ((p.1 + 0 : Int), (p.2 + -1 : Int)) = (p.1, p.2 - 1)
  rw [Prod.mk.injEq]
  exact ⟨by omega, by omega⟩

theorem cand0 : cand 0 = [1, 0, 3, 2] := by decide

theorem cand1 : cand 1 = [2, 1, 0, 3] := by decide

theorem cand2 : cand 2 = [3, 2, 1, 0] := by decide

theorem cand3 : cand 3 = [0, 3, 2, 1] := by decide

/-- `find?` on a four-element list as nested conditionals. -/
theorem find4 (f : Int → Bool) (a b c d : Int) :
    [a, b, c, d].find? f = if f a then some a else if f b then some b else
      if f c then some c else if f d then some d else none := by
  by_cases h1 : f a <;> by_cases h2 : f b <;> by_cases h3 : f c <;>
    by_cases h4 : f d <;> simp [List.find?, h1, h2, h3, h4]

/-- Moving and then moving back returns to the original cell. -/
theorem rhsTarget_back (p : Pos) (k : Int) (hk : 0 ≤ k ∧ k < 4) :
    rhsTarget (rhsTarget p k) ((k + 2) % 4) = p := by
  have h4 : k = 0 ∨ k = 1 ∨ k = 2 ∨ k = 3 := by omega
  rcases h4 with rfl | rfl | rfl | rfl
  · show rhsTarget (rhsTarget p 0) 2 = p
    rw [rhsTarget0, rhsTarget2]
    rw [Prod.mk.injEq]
    exact ⟨by omega, rfl⟩
  · show rhsTarget (rhsTarget p 1) 3 = p
    rw [rhsTarget1, rhsTarget3]
    rw [Prod.mk.injEq]
    exact ⟨rfl, by omega⟩
  · show rhsTarget (rhsTarget p 2) 0 = p
    rw [rhsTarget2, rhsTarget0]
    rw [Prod.mk.injEq]
    exact ⟨by omega, rfl⟩
  · show rhsTarget (rhsTarget p 3) 1 = p
    rw [rhsTarget3, rhsTarget1]
    rw [Prod.mk.injEq]
    exact ⟨rfl, by omega⟩

/-- Distinct canonical directions have distinct targets. -/
theorem rhsTarget_inj (p : Pos) (k1 k2 : Int) (h1 : 0 ≤ k1 ∧ k1 < 4)
    (h2 : 0 ≤ k2 ∧ k2 < 4) (h : rhsTarget p k1 = rhsTarget p k2) : k1 = k2 := by
  have e1 : k1 = 0 ∨ k1 = 1 ∨ k1 = 2 ∨ k1 = 3 := by omega
  have e2 : k2 = 0 ∨ k2 = 1 ∨ k2 = 2 ∨ k2 = 3 := by omega
  rcases e1 with rfl | rfl | rfl | rfl <;> rcases e2 with rfl | rfl | rfl | rfl <;>
    simp only [rhsTarget0, rhsTarget1, rhsTarget2, rhsTarget3, Prod.mk.injEq] at h <;>
    omega

theorem rhsTarget_ne (p : Pos) (k : Int) (hk : 0 ≤ k ∧ k < 4) :
    rhsTarget p k ≠ p := by
  have h4 : k = 0 ∨ k = 1 ∨ k = 2 ∨ k = 3 := by omega
  intro h
  rcases h4 with rfl | rfl | rfl | rfl
  · rw [rhsTarget0, Prod.mk.injEq] at h; omega
  · rw [rhsTarget1, Prod.mk.injEq] at h; omega
  · rw [rhsTarget2, Prod.mk.injEq] at h; omega
  · rw [rhsTarget3, Prod.mk.injEq] at h; omega

/-- Orthogonal adjacency is exactly reachability by one canonical
direction step. -/
theorem VAdj_iff (p q : Pos) :
    VAdj p q ↔ ∃ k : Int, (0 ≤ k ∧ k < 4) ∧ rhsTarget p k = q := by
  constructor
  · intro h
    unfold VAdj at h
    obtain ⟨a, b⟩ := q
    have hcase : ((a : Int) = p.1 - 1 ∧ b = p.2) ∨ (a = p.1 ∧ b = p.2 + 1) ∨
        (a = p.1 + 1 ∧ b = p.2) ∨ (a = p.1 ∧ b = p.2 - 1) := by
      have h' : (p.1 - a).natAbs + (p.2 - b).natAbs = 1 := h
      omega
    rcases hcase with ⟨ha, hb⟩ | ⟨ha, hb⟩ | ⟨ha, hb⟩ | ⟨ha, hb⟩
    · exact ⟨0, by omega, by rw [rhsTarget0, Prod.mk.injEq]; exact ⟨ha.symm, hb.symm⟩⟩
    · exact ⟨1, by omega, by rw [rhsTarget1, Prod.mk.injEq]; exact ⟨ha.symm, hb.symm⟩⟩
    · exact ⟨2, by omega, by rw [rhsTarget2, Prod.mk.injEq]; exact ⟨ha.symm, hb.symm⟩⟩
    · exact ⟨3, by omega, by rw [rhsTarget3, Prod.mk.injEq]; exact ⟨ha.symm, hb.symm⟩⟩
  · rintro ⟨k, hk, rfl⟩
    have h4 : k = 0 ∨ k = 1 ∨ k = 2 ∨ k = 3 := by omega
    unfold VAdj
    rcases h4 with rfl | rfl | rfl | rfl
    · rw [rhsTarget0]; show (p.1 - (p.1 - 1)).natAbs + (p.2 - p.2).natAbs = 1; omega
    · rw [rhsTarget1]; show (p.1 - p.1).natAbs + (p.2 - (p.2 + 1)).natAbs = 1; omega
    · rw [rhsTarget2]; show (p.1 - (p.1 + 1)).natAbs + (p.2 - p.2).natAbs = 1; omega
    · rw [rhsTarget3]; show (p.1 - p.1).natAbs + (p.2 - (p.2 - 1)).natAbs = 1; omega

/-- Candidate directions are canonical (given a canonical scan
direction). -/
theorem cand_bounds (e k : Int) (he : 0 ≤ e ∧ e < 4) (hk : k ∈ cand e) :
    0 ≤ k ∧ k < 4 := by
  unfold cand at hk
  rcases List.mem_cons.mp hk with rfl | hk
  · constructor
    · exact Int.emod_nonneg _ (by norm_num)
    · exact Int.emod_lt_of_pos _ (by norm_num)
  rcases List.mem_cons.mp hk with rfl | hk
  · exact he
  rcases List.mem_cons.mp hk with rfl | hk
  · constructor
    · exact Int.emod_nonneg _ (by norm_num)
    · exact Int.emod_lt_of_pos _ (by norm_num)
  rcases List.mem_cons.mp hk with rfl | hk
  · constructor
    · exact Int.emod_nonneg _ (by norm_num)
    · exact Int.emod_lt_of_pos _ (by norm_num)
  · exact absurd hk (List.not_mem_nil _)

/-- A successful scan yields a candidate whose target is in `V`. -/
theorem scanDir_some (V : Finset Pos) (p : Pos) (e k : Int)
    (h : scanDir V p e = some k) : k ∈ cand e ∧ rhsTarget p k ∈ V := by
  refine ⟨List.mem_of_find?_eq_some h, ?_⟩
  have := List.find?_some h
  simpa using this

/-- The scan succeeds as soon as any candidate target is in `V`. -/
theorem scanDir_total (V : Finset Pos) (p : Pos) (e k : Int) (hk : k ∈ cand e)
    (hv : rhsTarget p k ∈ V) : ∃ k', scanDir V p e = some k' := by
  rcases hs : scanDir V p e with _ | k'
  · have := List.find?_eq_none.mp hs k hk
    simp [hv] at this
  · exact ⟨k', rfl⟩

/-- The reverse direction is always a candidate. -/
theorem back_mem_cand (e : Int) : (e + 2) % 4 ∈ cand e := by
  unfold cand
  simp

/-- Componentwise introduction for `EOk`. -/
theorem EOk_mk (V : Finset Pos) (p : Pos) (e : Int) (h1 : p ∈ V)
    (h2 : rhsTarget p ((e + 2) % 4) ∈ V) (h3 : 0 ≤ e) (h4 : e < 4) :
    EOk V (p, e) := ⟨h1, h2, h3, h4⟩

/-- On a valid state the scan always succeeds (the reverse direction
is available). -/
theorem scanDir_of_EOk (V : Finset Pos) (s : Pos × Int) (h : EOk V s) :
    ∃ k, scanDir V s.1 s.2 = some k :=
  scanDir_total V s.1 s.2 ((s.2 + 2) % 4) (back_mem_cand s.2) h.2.1

/-- `eNext` preserves validity. -/
theorem eNext_EOk (V : Finset Pos) (s : Pos × Int) (h : EOk V s) :
    EOk V (eNext V s) := by
  obtain ⟨k, hs⟩ := scanDir_of_EOk V s h
  obtain ⟨hk_mem, hk_v⟩ := scanDir_some V s.1 s.2 k hs
  have hkb := cand_bounds s.2 k ⟨h.2.2.1, h.2.2.2⟩ hk_mem
  have hstep : eNext V s = (rhsTarget s.1 k, k) := by
    unfold eNext
    rw [hs]
  rw [hstep]
  refine EOk_mk V _ _ hk_v ?_ hkb.1 hkb.2
  rw [rhsTarget_back s.1 k hkb]
  exact h.1

/-- The scan result and arrival-cell constraint determine the
arrival direction: the wall-following rule is backward
deterministic. -/
theorem scanDir_back_inj (V : Finset Pos) (p : Pos) (e1 e2 k : Int)
    (he1 : 0 ≤ e1 ∧ e1 < 4) (he2 : 0 ≤ e2 ∧ e2 < 4)
    (hb1 : rhsTarget p ((e1 + 2) % 4) ∈ V) (hb2 : rhsTarget p ((e2 + 2) % 4) ∈ V)
    (h1 : scanDir V p e1 = some k) (h2 : scanDir V p e2 = some k) : e1 = e2 := by
  have c1 : e1 = 0 ∨ e1 = 1 ∨ e1 = 2 ∨ e1 = 3 := by omega
  have c2 : e2 = 0 ∨ e2 = 1 ∨ e2 = 2 ∨ e2 = 3 := by omega
  rcases c1 with rfl | rfl | rfl | rfl <;> rcases c2 with rfl | rfl | rfl | rfl
  all_goals try rfl
  all_goals (
    norm_num at hb1 hb2
    simp only [scanDir, cand0, cand1, cand2, cand3, find4] at h1 h2
    by_cases m0 : rhsTarget p 0 ∈ V <;> by_cases m1 : rhsTarget p 1 ∈ V <;>
      by_cases m2 : rhsTarget p 2 ∈ V <;> by_cases m3 : rhsTarget p 3 ∈ V <;>
      simp [m0, m1, m2, m3] at h1 h2 hb1 hb2 <;> omega)

/-- The wall-following step is injective on valid states. -/
theorem eNext_inj (V : Finset Pos) (s1 s2 : Pos × Int) (h1 : EOk V s1)
    (h2 : EOk V s2) (he : eNext V s1 = eNext V s2) : s1 = s2 := by
  obtain ⟨k1, hs1⟩ := scanDir_of_EOk V s1 h1
  obtain ⟨k2, hs2⟩ := scanDir_of_EOk V s2 h2
  have hst1 : eNext V s1 = (rhsTarget s1.1 k1, k1) := by
    unfold eNext
    rw [hs1]
  have hst2 : eNext V s2 = (rhsTarget s2.1 k2, k2) := by
    unfold eNext
    rw [hs2]
  rw [hst1, hst2, Prod.mk.injEq] at he
  obtain ⟨hq, hk⟩ := he
  subst hk
  have hkb := cand_bounds s1.2 k1 ⟨h1.2.2.1, h1.2.2.2⟩
    (scanDir_some V s1.1 s1.2 k1 hs1).1
  have e1 := rhsTarget_back s1.1 k1 hkb
  have e2 := rhsTarget_back s2.1 k1 hkb
  rw [hq] at e1
  rw [e2] at e1
  have hp : s1.1 = s2.1 := e1.symm
  rw [← hp] at hs2
  have hb2' : rhsTarget s1.1 ((s2.2 + 2) % 4) ∈ V := by
    rw [hp]
    exact h2.2.1
  have hdir : s1.2 = s2.2 :=
    scanDir_back_inj V s1.1 s1.2 s2.2 k1 ⟨h1.2.2.1, h1.2.2.2⟩
      ⟨h2.2.2.1, h2.2.2.2⟩ h1.2.1 hb2' hs1 hs2
  calc s1 = (s1.1, s1.2) := rfl
  _ = (s2.1, s2.2) := by rw [hp, hdir]
  _ = s2 := rfl

theorem mem_EStates (V : Finset Pos) (s : Pos × Int) :
    s ∈ EStates V ↔ EOk V s := by
  unfold EStates
  rw [Finset.mem_filter]
  constructor
  · exact fun h => h.2
  · intro h
    refine ⟨?_, h⟩
    rw [Finset.mem_product]
    refine ⟨h.1, ?_⟩
    have h3 := h.2.2.1
    have h4 := h.2.2.2
    simp only [Finset.mem_insert, Finset.mem_singleton]
    omega

theorem EStates_card (V : Finset Pos) : (EStates V).card ≤ 4 * V.card := by
  have h1 : (EStates V).card ≤ (V ×ˢ ({0, 1, 2, 3} : Finset Int)).card :=
    Finset.card_filter_le _ _
  rw [Finset.card_product] at h1
  have h2 : (({0, 1, 2, 3} : Finset Int)).card ≤ 4 := by decide
  calc (EStates V).card ≤ V.card * ({0, 1, 2, 3} : Finset Int).card := h1
  _ ≤ V.card * 4 := Nat.mul_le_mul_left _ h2
  _ = 4 * V.card := Nat.mul_comm _ _

/-- Iterated validity. -/
theorem eNext_iter_EOk (V : Finset Pos) (s : Pos × Int) (h : EOk V s) :
    ∀ n, EOk V ((eNext V)^[n] s) := by
  intro n
  induction n with
  | zero => exact h
  | succ n ih =>
    rw [Function.iterate_succ_apply']
    exact eNext_EOk V _ ih

/-- The step function is surjective on valid states. -/
theorem eNext_surj (V : Finset Pos) (t : Pos × Int) (ht : EOk V t) :
    ∃ s, EOk V s ∧ eNext V s = t := by
  have himg : (EStates V).image (eNext V) = EStates V := by
    apply Finset.eq_of_subset_of_card_le
    · intro x hx
      obtain ⟨s, hs, hxs⟩ := Finset.mem_image.mp hx
      rw [← hxs, mem_EStates]
      exact eNext_EOk V s ((mem_EStates V s).mp hs)
    · rw [Finset.card_image_of_injOn]
      intro a ha b hb hab
      exact eNext_inj V a b ((mem_EStates V a).mp ha) ((mem_EStates V b).mp hb) hab
  have ht' : t ∈ (EStates V).image (eNext V) := by
    rw [himg, mem_EStates]
    exact ht
  obtain ⟨s, hs, hst⟩ := Finset.mem_image.mp ht'
  exact ⟨s, (mem_EStates V s).mp hs, hst⟩

/-- If `t` is reachable from `s` at all, it is reachable within
`(EStates V).card - 1` steps. -/
theorem eNext_reach_bound (V : Finset Pos) (s t : Pos × Int) (hs : EOk V s)
    (h : ∃ n, (eNext V)^[n] s = t) :
    ∃ n, n + 1 ≤ (EStates V).card ∧ (eNext V)^[n] s = t := by
  classical
  obtain ⟨n0, hn0⟩ := h
  have hex : ∃ n, (eNext V)^[n] s = t := ⟨n0, hn0⟩
  let n := Nat.find hex
  have hn : (eNext V)^[n] s = t := Nat.find_spec hex
  have hmin : ∀ m, m < n → (eNext V)^[m] s ≠ t := fun m hm => Nat.find_min hex hm
  refine ⟨n, ?_, hn⟩
  have hinj : ∀ i j, i ≤ n → j ≤ n → (eNext V)^[i] s = (eNext V)^[j] s → i = j := by
    intro i j hi hj hij
    by_contra hne
    rcases Nat.lt_or_ge i j with hlt | hge
    · have hrep : (eNext V)^[n - (j - i)] s = t := by
        have hsplit : n = (n - j) + j := by omega
        have : (eNext V)^[n] s = (eNext V)^[n - j] ((eNext V)^[j] s) := by
          rw [← Function.iterate_add_apply]
          rw [← hsplit]
        rw [← hij] at this
        rw [← Function.iterate_add_apply] at this
        have harith : n - j + i = n - (j - i) := by omega
        rw [harith] at this
        rw [← this]
        exact hn
      exact hmin (n - (j - i)) (by omega) hrep
    · have hlt' : j < i := by omega
      have hrep : (eNext V)^[n - (i - j)] s = t := by
        have : (eNext V)^[n] s = (eNext V)^[n - i] ((eNext V)^[i] s) := by
          rw [← Function.iterate_add_apply]
          have hsplit : n - i + i = n := by omega
          rw [hsplit]
        rw [hij] at this
        rw [← Function.iterate_add_apply] at this
        have harith : n - i + j = n - (i - j) := by omega
        rw [harith] at this
        rw [← this]
        exact hn
      exact hmin (n - (i - j)) (by omega) hrep
  have hmap : ∀ i ∈ Finset.range (n + 1), (eNext V)^[i] s ∈ EStates V := by
    intro i hi
    rw [mem_EStates]
    exact eNext_iter_EOk V s hs i
  have hcard : (Finset.range (n + 1)).card ≤ (EStates V).card := by
    apply Finset.card_le_card_of_injOn (fun i => (eNext V)^[i] s) hmap
    intro i hi j hj hij
    exact hinj i j (by simpa using Nat.lt_succ_iff.mp (Finset.mem_range.mp hi))
      (by simpa using Nat.lt_succ_iff.mp (Finset.mem_range.mp hj)) hij
  rw [Finset.card_range] at hcard
  exact hcard

/-! ## Simple paths and leaves (C2) -/

theorem VAdj_symm (p q : Pos) (h : VAdj p q) : VAdj q p := by
  unfold VAdj at h ⊢
  omega

theorem VAdj_ne (p q : Pos) (h : VAdj p q) : p ≠ q := by
  unfold VAdj at h
  intro he
  rw [he] at h
  omega

theorem sp_ne_nil (V : Finset Pos) (u v : Pos) (l : List Pos)
    (h : IsSimplePathOn V u v l) : l ≠ [] := by
  intro h0
  rw [h0] at h
  exact absurd h.2.2.2.1 (by simp)

theorem sp_singleton (V : Finset Pos) (x : Pos) (hx : x ∈ V) :
    IsSimplePathOn V x x [x] := by
  refine ⟨by simp, ?_, by simp, rfl, rfl⟩
  intro p hp
  rw [List.mem_singleton.mp hp]
  exact hx

theorem sp_two (V : Finset Pos) (w v : Pos) (hadj : VAdj w v) (hw : w ∈ V)
    (hv : v ∈ V) (hne : w ≠ v) : IsSimplePathOn V w v [w, v] := by
  refine ⟨?_, ?_, by simp [hne], rfl, rfl⟩
  · exact List.chain'_cons.mpr ⟨hadj, by simp⟩
  · intro p hp
    rcases List.mem_cons.mp hp with rfl | hp
    · exact hw
    · rw [List.mem_singleton.mp hp]
      exact hv

theorem sp_length_two (V : Finset Pos) (u v : Pos) (l : List Pos)
    (h : IsSimplePathOn V u v l) (hne : u ≠ v) : 2 ≤ l.length := by
  obtain ⟨hc, hm, hn, hh, hl⟩ := h
  rcases l with _ | ⟨a, t⟩
  · simp at hh
  · rcases t with _ | ⟨b, t'⟩
    · have h1 : a = u := by simpa using hh
      have h2 : a = v := by simpa using hl
      exact absurd (h1 ▸ h2) hne
    · simp

/-- Every suffix of a simple path starting at a member is a simple
path from that member. -/
theorem sp_suffix (V : Finset Pos) (u v w : Pos) (l1 l2 : List Pos)
    (h : IsSimplePathOn V u v (l1 ++ w :: l2)) :
    IsSimplePathOn V w v (w :: l2) := by
  obtain ⟨hc, hm, hn, hh, hl⟩ := h
  refine ⟨hc.right_of_append, ?_, hn.of_append_right, rfl, ?_⟩
  · intro p hp
    exact hm p (List.mem_append.mpr (Or.inr hp))
  · rw [← hl, List.getLast?_append_of_ne_nil]
    simp

/-- Extending a simple path by a fresh neighbour of its endpoint. -/
theorem sp_extend (V : Finset Pos) (u v w : Pos) (l : List Pos)
    (h : IsSimplePathOn V u v l) (hadj : VAdj v w) (hw : w ∈ V) (hnl : w ∉ l) :
    IsSimplePathOn V u w (l ++ [w]) := by
  obtain ⟨hc, hm, hn, hh, hl⟩ := h
  refine ⟨?_, ?_, ?_, ?_, ?_⟩
  · rw [List.chain'_append]
    refine ⟨hc, by simp, ?_⟩
    intro x hx y hy
    rw [hl] at hx
    have hx' : v = x := by simpa using hx
    have hy' : w = y := by simpa using hy
    rw [← hx', ← hy']
    exact hadj
  · intro p hp
    rcases List.mem_append.mp hp with hp | hp
    · exact hm p hp
    · rw [List.mem_singleton.mp hp]
      exact hw
  · rw [List.nodup_append]
    exact ⟨hn, by simp, by simpa using hnl⟩
  · rw [List.head?_append_of_ne_nil _ (sp_ne_nil V u v l ⟨hc, hm, hn, hh, hl⟩)]
    exact hh
  · rw [List.getLast?_append_of_ne_nil]
    · rfl
    · simp

/-- A simple path of length at least two decomposes as
`l₀ ++ [a, v]` with `a` the penultimate cell. -/
theorem sp_penult (V : Finset Pos) (u v : Pos) (l : List Pos)
    (h : IsSimplePathOn V u v l) (h2 : 2 ≤ l.length) :
    ∃ (a : Pos) (l0 : List Pos), l = l0 ++ [a, v] ∧ VAdj a v ∧ a ∈ V ∧
      a ≠ v ∧ IsSimplePathOn V u a (l0 ++ [a]) := by
  obtain ⟨hc, hm, hn, hh, hl⟩ := h
  have hne : l ≠ [] := by
    intro h0
    rw [h0] at hh
    simp at hh
  have hdne : l.dropLast ≠ [] := by
    intro h0
    have := congrArg List.length h0
    rw [List.length_dropLast] at this
    simp at this
    omega
  have hsplit1 : l.dropLast.dropLast ++ [l.dropLast.getLast hdne] = l.dropLast :=
    List.dropLast_append_getLast hdne
  have hsplit0 : l.dropLast ++ [l.getLast hne] = l :=
    List.dropLast_append_getLast hne
  have hvlast : l.getLast hne = v := by
    rw [List.getLast?_eq_getLast _ hne] at hl
    exact Option.some_inj.mp hl
  set a := l.dropLast.getLast hdne with ha_def
  refine ⟨a, l.dropLast.dropLast, ?_, ?_, ?_, ?_, ?_⟩
  · have e1 : l = l.dropLast ++ [v] := by
      rw [← hvlast]
      exact hsplit0.symm
    calc l = l.dropLast ++ [v] := e1
    _ = (l.dropLast.dropLast ++ [a]) ++ [v] := by rw [hsplit1]
    _ = l.dropLast.dropLast ++ [a, v] := by simp
  · have hc' : (l.dropLast ++ [l.getLast hne]).Chain' VAdj := by
      rw [hsplit0]
      exact hc
    rw [List.chain'_append] at hc'
    have := hc'.2.2 a (by
      rw [← hsplit1, List.getLast?_append_of_ne_nil]
      · rfl
      · simp) (l.getLast hne) rfl
    rw [hvlast] at this
    exact this
  · apply hm
    rw [← hsplit0]
    refine List.mem_append.mpr (Or.inl ?_)
    rw [← hsplit1]
    exact List.mem_append.mpr (Or.inr (by simp))
  · intro hav
    have hn' : (l.dropLast ++ [l.getLast hne]).Nodup := by
      rw [hsplit0]
      exact hn
    rw [List.nodup_append] at hn'
    have hdisj := hn'.2.2
    have hmem : a ∈ l.dropLast := by
      rw [← hsplit1]
      exact List.mem_append.mpr (Or.inr (by simp))
    have : l.getLast hne ∉ l.dropLast := by
      intro hmem2
      exact hdisj hmem2 (by simp)
    rw [← hvlast] at hav
    rw [hav] at hmem
    exact this hmem
  · have hc' : (l.dropLast ++ [l.getLast hne]).Chain' VAdj := by
      rw [hsplit0]
      exact hc
    rw [List.chain'_append] at hc'
    refine ⟨?_, ?_, ?_, ?_, ?_⟩
    · rw [hsplit1]
      exact hc'.1
    · intro p hp
      rw [hsplit1] at hp
      apply hm
      rw [← hsplit0]
      exact List.mem_append.mpr (Or.inl hp)
    · rw [hsplit1]
      have hn' : (l.dropLast ++ [l.getLast hne]).Nodup := by
        rw [hsplit0]
        exact hn
      exact hn'.of_append_left
    · rw [hsplit1]
      rw [← List.head?_append_of_ne_nil _ hdne]
      rw [hsplit0]
      exact hh
    · rw [← hsplit1, List.getLast?_append_of_ne_nil]
      · rfl
      · simp

/-- A duplicate-free list of cells of `V` is no longer than `V`. -/
theorem sp_length_le_card (V : Finset Pos) (l : List Pos) (hn : l.Nodup)
    (hm : ∀ p ∈ l, p ∈ V) : l.length ≤ V.card := by
  calc l.length = l.toFinset.card := (List.toFinset_card_of_nodup hn).symm
  _ ≤ V.card := Finset.card_le_card (fun p hp => hm p (List.mem_toFinset.mp hp))

/-- Endpoint dichotomy: the endpoint of a simple path is a leaf, or
the path extends by a fresh cell. -/
theorem leaf_step (V : Finset Pos) (hperf : PerfectOn V) (u v : Pos)
    (l : List Pos) (hsp : IsSimplePathOn V u v l) (h2 : 2 ≤ l.length) :
    (∃ x y, IsLeaf V x y) ∨ (∃ w, IsSimplePathOn V u w (l ++ [w])) := by
  obtain ⟨a, l0, hdecomp, hadj_av, haV, hane, hsub⟩ := sp_penult V u v l hsp h2
  have hvV : v ∈ V := hsp.2.1 v (List.mem_of_mem_getLast? hsp.2.2.2.2)
  by_cases hleaf : ∀ w ∈ V, VAdj v w → w = a
  · exact Or.inl ⟨v, a, hvV, haV, VAdj_symm a v hadj_av, hleaf⟩
  · right
    push_neg at hleaf
    obtain ⟨w, hwV, hwadj, hwa⟩ := hleaf
    refine ⟨w, sp_extend V u v w l hsp hwadj hwV ?_⟩
    intro hwl
    obtain ⟨l1, l2, hl12⟩ := List.mem_iff_append.mp hwl
    have hA : IsSimplePathOn V w v (w :: l2) := sp_suffix V u v w l1 l2 (hl12 ▸ hsp)
    have hB : IsSimplePathOn V w v [w, v] :=
      sp_two V w v (VAdj_symm v w hwadj) hwV hvV
        (fun he => (VAdj_ne v w hwadj) he.symm)
    obtain ⟨lu, hlu, huniq⟩ := hperf w hwV v hvV
    have hAB : w :: l2 = [w, v] := (huniq _ hA).trans (huniq _ hB).symm
    have hl2 : l2 = [v] := by
      injection hAB
    rw [hl2] at hl12
    rw [hdecomp] at hl12
    obtain ⟨-, h2'⟩ := List.append_inj' hl12 rfl
    have h3 : a = w := by
      injection h2' with h3 h4
    exact hwa h3.symm

/-- Every perfect cell set with at least two cells has a leaf. -/
theorem exists_leaf (V : Finset Pos) (hperf : PerfectOn V) (h2 : 2 ≤ V.card) :
    ∃ x y, IsLeaf V x y := by
  have haux : ∀ (n : Nat) (u v : Pos) (l : List Pos), IsSimplePathOn V u v l →
      2 ≤ l.length → V.card ≤ l.length + n → ∃ x y, IsLeaf V x y := by
    intro n
    induction n with
    | zero =>
      intro u v l hsp hl2 hcard
      rcases leaf_step V hperf u v l hsp hl2 with h | ⟨w, hw⟩
      · exact h
      · have := sp_length_le_card V (l ++ [w]) hw.2.2.1 hw.2.1
        rw [List.length_append] at this
        simp at this
        omega
    | succ n ih =>
      intro u v l hsp hl2 hcard
      rcases leaf_step V hperf u v l hsp hl2 with h | ⟨w, hw⟩
      · exact h
      · refine ih u w (l ++ [w]) hw ?_ ?_
        · rw [List.length_append]
          simp
          omega
        · rw [List.length_append]
          simp
          omega
  obtain ⟨u, hu, v, hv, huv⟩ := Finset.one_lt_card.mp (show 1 < V.card by omega)
  obtain ⟨l, hl, -⟩ := hperf u hu v hv
  exact haux V.card u v l hl (sp_length_two V u v l hl huv) (by omega)

/-- A simple path between two cells other than a leaf avoids the
leaf. -/
theorem sp_avoid_leaf (V : Finset Pos) (x u : Pos) (hleaf : IsLeaf V x u)
    (a b : Pos) (l : List Pos) (hsp : IsSimplePathOn V a b l)
    (ha : a ≠ x) (hb : b ≠ x) : x ∉ l := by
  intro hxl
  obtain ⟨l1, l2, hl12⟩ := List.mem_iff_append.mp hxl
  have hl1 : l1 ≠ [] := by
    intro h0
    rw [h0] at hl12
    have hh := hsp.2.2.2.1
    rw [hl12] at hh
    have : x = a := by simpa using hh
    exact ha this.symm
  have hl2 : l2 ≠ [] := by
    intro h0
    rw [h0] at hl12
    have hh := hsp.2.2.2.2
    rw [hl12, List.getLast?_append_of_ne_nil _ (by simp)] at hh
    have : x = b := by simpa using hh
    exact hb this.symm
  have hsplit : l1.dropLast ++ [l1.getLast hl1] = l1 :=
    List.dropLast_append_getLast hl1
  set c := l1.getLast hl1 with hc_def
  obtain ⟨d, ld, hld⟩ : ∃ d ld, l2 = d :: ld := by
    rcases l2 with _ | ⟨d, ld⟩
    · exact absurd rfl hl2
    · exact ⟨d, ld, rfl⟩
  have hchain := hsp.1
  rw [hl12, List.chain'_append] at hchain
  have hcx : VAdj c x := by
    refine hchain.2.2 c ?_ x rfl
    rw [← hsplit, List.getLast?_append_of_ne_nil _ (by simp)]
    rfl
  have hxd : VAdj x d := by
    have hch2 := hchain.2.1
    rw [hld] at hch2
    exact (List.chain'_cons.mp hch2).1
  have hcV : c ∈ V := by
    apply hsp.2.1
    rw [hl12]
    refine List.mem_append.mpr (Or.inl ?_)
    rw [← hsplit]
    exact List.mem_append.mpr (Or.inr (by simp))
  have hdV : d ∈ V := by
    apply hsp.2.1
    rw [hl12, hld]
    exact List.mem_append.mpr (Or.inr (by simp))
  have hcu : c = u := hleaf.2.2.2 c hcV (VAdj_symm c x hcx)
  have hdu : d = u := hleaf.2.2.2 d hdV hxd
  have hnd := hsp.2.2.1
  rw [hl12] at hnd
  rw [List.nodup_append] at hnd
  have hcmem : c ∈ l1 := by
    rw [← hsplit]
    exact List.mem_append.mpr (Or.inr (by simp))
  have hdmem : d ∈ x :: l2 := by
    rw [hld]
    simp
  exact hnd.2.2 hcmem (by rw [hcu, ← hdu]; exact hdmem)

/-- Removing a leaf keeps the cell set perfect. -/
theorem perfect_erase (V : Finset Pos) (x u : Pos) (hleaf : IsLeaf V x u)
    (hperf : PerfectOn V) : PerfectOn (V.erase x) := by
  intro a ha b hb
  have haV : a ∈ V := Finset.mem_of_mem_erase ha
  have hbV : b ∈ V := Finset.mem_of_mem_erase hb
  have hax : a ≠ x := Finset.ne_of_mem_erase ha
  have hbx : b ≠ x := Finset.ne_of_mem_erase hb
  obtain ⟨l, hl, huniq⟩ := hperf a haV b hbV
  have hxl : x ∉ l := sp_avoid_leaf V x u hleaf a b l hl hax hbx
  refine ⟨l, ⟨hl.1, ?_, hl.2.2.1, hl.2.2.2.1, hl.2.2.2.2⟩, ?_⟩
  · intro p hp
    exact Finset.mem_erase.mpr ⟨fun he => hxl (he ▸ hp), hl.2.1 p hp⟩
  · intro l' hl'
    exact huniq l' ⟨hl'.1, fun p hp => Finset.mem_of_mem_erase (hl'.2.1 p hp),
      hl'.2.2⟩

/-- In a connected perfect set, every cell that is not alone has a
neighbour. -/
theorem exists_nbr (V : Finset Pos) (hperf : PerfectOn V) (u v : Pos)
    (hu : u ∈ V) (hv : v ∈ V) (huv : u ≠ v) : ∃ w ∈ V, VAdj u w := by
  obtain ⟨l, hl, -⟩ := hperf u hu v hv
  have h2 := sp_length_two V u v l hl huv
  obtain ⟨t, hlt⟩ : ∃ t, l = u :: t := by
    rcases l with _ | ⟨a, t⟩
    · simp at h2
    · have : a = u := by
        have := hl.2.2.2.1
        simpa using this
      exact ⟨t, by rw [this]⟩
  obtain ⟨w, t', hwt⟩ : ∃ w t', t = w :: t' := by
    rcases t with _ | ⟨w, t'⟩
    · rw [hlt] at h2
      simp at h2
    · exact ⟨w, t', rfl⟩
  have hchain := hl.1
  rw [hlt, hwt] at hchain
  refine ⟨w, ?_, (List.chain'_cons.mp hchain).1⟩
  apply hl.2.1
  rw [hlt, hwt]
  simp

set_option maxHeartbeats 1000000 in
/-- The splice lemma: at the leaf's neighbour, when the full scan
enters the leaf, the scan over the leafless set agrees with the full
scan performed after the detour (into the leaf and back out). -/
theorem scan_splice (V : Finset Pos) (x u : Pos) (hleaf : IsLeaf V x u)
    (dx e : Int) (hdxb : 0 ≤ dx ∧ dx < 4) (hdx2 : rhsTarget u dx = x)
    (he : 0 ≤ e ∧ e < 4)
    (hback : rhsTarget u ((e + 2) % 4) ∈ V.erase x)
    (hscan : scanDir V u e = some dx) :
    scanDir (V.erase x) u e = scanDir V u ((dx + 2) % 4) := by
  have hxV : x ∈ V := hleaf.1
  have hneq : ∀ k : Int, 0 ≤ k → k < 4 → k ≠ dx → rhsTarget u k ≠ x := by
    intro k h1 h2 hk h
    exact hk (rhsTarget_inj u k dx ⟨h1, h2⟩ hdxb (h.trans hdx2.symm))
  have ce : e = 0 ∨ e = 1 ∨ e = 2 ∨ e = 3 := by omega
  have cd : dx = 0 ∨ dx = 1 ∨ dx = 2 ∨ dx = 3 := by omega
  rcases ce with rfl | rfl | rfl | rfl <;> rcases cd with rfl | rfl | rfl | rfl
  · have hxeq : rhsTarget u 0 = x := hdx2
    have hne1 : rhsTarget u 1 ≠ x := hneq 1 (by norm_num) (by norm_num) (by norm_num)
    have hne2 : rhsTarget u 2 ≠ x := hneq 2 (by norm_num) (by norm_num) (by norm_num)
    have hne3 : rhsTarget u 3 ≠ x := hneq 3 (by norm_num) (by norm_num) (by norm_num)
    norm_num at hback ⊢
    rw [scanDir, cand0, find4] at hscan
    rw [scanDir, scanDir, cand0, cand2, find4, find4]
    by_cases m1 : rhsTarget u 1 ∈ V <;> by_cases m2 : rhsTarget u 2 ∈ V <;> by_cases m3 : rhsTarget u 3 ∈ V <;>
      simp_all [Finset.mem_erase, hxeq, hne1, hne2, hne3, hxV]
  · have hxeq : rhsTarget u 1 = x := hdx2
    have hne0 : rhsTarget u 0 ≠ x := hneq 0 (by norm_num) (by norm_num) (by norm_num)
    have hne2 : rhsTarget u 2 ≠ x := hneq 2 (by norm_num) (by norm_num) (by norm_num)
    have hne3 : rhsTarget u 3 ≠ x := hneq 3 (by norm_num) (by norm_num) (by norm_num)
    norm_num at hback ⊢
    rw [scanDir, cand0, find4] at hscan
    rw [scanDir, scanDir, cand0, cand3, find4, find4]
    by_cases m0 : rhsTarget u 0 ∈ V <;> by_cases m2 : rhsTarget u 2 ∈ V <;> by_cases m3 : rhsTarget u 3 ∈ V <;>
      simp_all [Finset.mem_erase, hxeq, hne0, hne2, hne3, hxV]
  · norm_num at hback
    rw [hdx2] at hback
    simp at hback
  · have hxeq : rhsTarget u 3 = x := hdx2
    have hne0 : rhsTarget u 0 ≠ x := hneq 0 (by norm_num) (by norm_num) (by norm_num)
    have hne1 : rhsTarget u 1 ≠ x := hneq 1 (by norm_num) (by norm_num) (by norm_num)
    have hne2 : rhsTarget u 2 ≠ x := hneq 2 (by norm_num) (by norm_num) (by norm_num)
    norm_num at hback ⊢
    rw [scanDir, cand0, find4] at hscan
    rw [scanDir, scanDir, cand0, cand1, find4, find4]
    by_cases m0 : rhsTarget u 0 ∈ V <;> by_cases m1 : rhsTarget u 1 ∈ V <;> by_cases m2 : rhsTarget u 2 ∈ V <;>
      simp_all [Finset.mem_erase, hxeq, hne0, hne1, hne2, hxV]
  · have hxeq : rhsTarget u 0 = x := hdx2
    have hne1 : rhsTarget u 1 ≠ x := hneq 1 (by norm_num) (by norm_num) (by norm_num)
    have hne2 : rhsTarget u 2 ≠ x := hneq 2 (by norm_num) (by norm_num) (by norm_num)
    have hne3 : rhsTarget u 3 ≠ x := hneq 3 (by norm_num) (by norm_num) (by norm_num)
    norm_num at hback ⊢
    rw [scanDir, cand1, find4] at hscan
    rw [scanDir, scanDir, cand1, cand2, find4, find4]
    by_cases m1 : rhsTarget u 1 ∈ V <;> by_cases m2 : rhsTarget u 2 ∈ V <;> by_cases m3 : rhsTarget u 3 ∈ V <;>
      simp_all [Finset.mem_erase, hxeq, hne1, hne2, hne3, hxV]
  · have hxeq : rhsTarget u 1 = x := hdx2
    have hne0 : rhsTarget u 0 ≠ x := hneq 0 (by norm_num) (by norm_num) (by norm_num)
    have hne2 : rhsTarget u 2 ≠ x := hneq 2 (by norm_num) (by norm_num) (by norm_num)
    have hne3 : rhsTarget u 3 ≠ x := hneq 3 (by norm_num) (by norm_num) (by norm_num)
    norm_num at hback ⊢
    rw [scanDir, cand1, find4] at hscan
    rw [scanDir, scanDir, cand1, cand3, find4, find4]
    by_cases m0 : rhsTarget u 0 ∈ V <;> by_cases m2 : rhsTarget u 2 ∈ V <;> by_cases m3 : rhsTarget u 3 ∈ V <;>
      simp_all [Finset.mem_erase, hxeq, hne0, hne2, hne3, hxV]
  · have hxeq : rhsTarget u 2 = x := hdx2
    have hne0 : rhsTarget u 0 ≠ x := hneq 0 (by norm_num) (by norm_num) (by norm_num)
    have hne1 : rhsTarget u 1 ≠ x := hneq 1 (by norm_num) (by norm_num) (by norm_num)
    have hne3 : rhsTarget u 3 ≠ x := hneq 3 (by norm_num) (by norm_num) (by norm_num)
    norm_num at hback ⊢
    rw [scanDir, cand1, find4] at hscan
    rw [scanDir, scanDir, cand1, cand0, find4, find4]
    by_cases m0 : rhsTarget u 0 ∈ V <;> by_cases m1 : rhsTarget u 1 ∈ V <;> by_cases m3 : rhsTarget u 3 ∈ V <;>
      simp_all [Finset.mem_erase, hxeq, hne0, hne1, hne3, hxV]
  · norm_num at hback
    rw [hdx2] at hback
    simp at hback
  · norm_num at hback
    rw [hdx2] at hback
    simp at hback
  · have hxeq : rhsTarget u 1 = x := hdx2
    have hne0 : rhsTarget u 0 ≠ x := hneq 0 (by norm_num) (by norm_num) (by norm_num)
    have hne2 : rhsTarget u 2 ≠ x := hneq 2 (by norm_num) (by norm_num) (by norm_num)
    have hne3 : rhsTarget u 3 ≠ x := hneq 3 (by norm_num) (by norm_num) (by norm_num)
    norm_num at hback ⊢
    rw [scanDir, cand2, find4] at hscan
    rw [scanDir, scanDir, cand2, cand3, find4, find4]
    by_cases m0 : rhsTarget u 0 ∈ V <;> by_cases m2 : rhsTarget u 2 ∈ V <;> by_cases m3 : rhsTarget u 3 ∈ V <;>
      simp_all [Finset.mem_erase, hxeq, hne0, hne2, hne3, hxV]
  · have hxeq : rhsTarget u 2 = x := hdx2
    have hne0 : rhsTarget u 0 ≠ x := hneq 0 (by norm_num) (by norm_num) (by norm_num)
    have hne1 : rhsTarget u 1 ≠ x := hneq 1 (by norm_num) (by norm_num) (by norm_num)
    have hne3 : rhsTarget u 3 ≠ x := hneq 3 (by norm_num) (by norm_num) (by norm_num)
    norm_num at hback ⊢
    rw [scanDir, cand2, find4] at hscan
    rw [scanDir, scanDir, cand2, cand0, find4, find4]
    by_cases m0 : rhsTarget u 0 ∈ V <;> by_cases m1 : rhsTarget u 1 ∈ V <;> by_cases m3 : rhsTarget u 3 ∈ V <;>
      simp_all [Finset.mem_erase, hxeq, hne0, hne1, hne3, hxV]
  · have hxeq : rhsTarget u 3 = x := hdx2
    have hne0 : rhsTarget u 0 ≠ x := hneq 0 (by norm_num) (by norm_num) (by norm_num)
    have hne1 : rhsTarget u 1 ≠ x := hneq 1 (by norm_num) (by norm_num) (by norm_num)
    have hne2 : rhsTarget u 2 ≠ x := hneq 2 (by norm_num) (by norm_num) (by norm_num)
    norm_num at hback ⊢
    rw [scanDir, cand2, find4] at hscan
    rw [scanDir, scanDir, cand2, cand1, find4, find4]
    by_cases m0 : rhsTarget u 0 ∈ V <;> by_cases m1 : rhsTarget u 1 ∈ V <;> by_cases m2 : rhsTarget u 2 ∈ V <;>
      simp_all [Finset.mem_erase, hxeq, hne0, hne1, hne2, hxV]
  · have hxeq : rhsTarget u 0 = x := hdx2
    have hne1 : rhsTarget u 1 ≠ x := hneq 1 (by norm_num) (by norm_num) (by norm_num)
    have hne2 : rhsTarget u 2 ≠ x := hneq 2 (by norm_num) (by norm_num) (by norm_num)
    have hne3 : rhsTarget u 3 ≠ x := hneq 3 (by norm_num) (by norm_num) (by norm_num)
    norm_num at hback ⊢
    rw [scanDir, cand3, find4] at hscan
    rw [scanDir, scanDir, cand3, cand2, find4, find4]
    by_cases m1 : rhsTarget u 1 ∈ V <;> by_cases m2 : rhsTarget u 2 ∈ V <;> by_cases m3 : rhsTarget u 3 ∈ V <;>
      simp_all [Finset.mem_erase, hxeq, hne1, hne2, hne3, hxV]
  · norm_num at hback
    rw [hdx2] at hback
    simp at hback
  · have hxeq : rhsTarget u 2 = x := hdx2
    have hne0 : rhsTarget u 0 ≠ x := hneq 0 (by norm_num) (by norm_num) (by norm_num)
    have hne1 : rhsTarget u 1 ≠ x := hneq 1 (by norm_num) (by norm_num) (by norm_num)
    have hne3 : rhsTarget u 3 ≠ x := hneq 3 (by norm_num) (by norm_num) (by norm_num)
    norm_num at hback ⊢
    rw [scanDir, cand3, find4] at hscan
    rw [scanDir, scanDir, cand3, cand0, find4, find4]
    by_cases m0 : rhsTarget u 0 ∈ V <;> by_cases m1 : rhsTarget u 1 ∈ V <;> by_cases m3 : rhsTarget u 3 ∈ V <;>
      simp_all [Finset.mem_erase, hxeq, hne0, hne1, hne3, hxV]
  · have hxeq : rhsTarget u 3 = x := hdx2
    have hne0 : rhsTarget u 0 ≠ x := hneq 0 (by norm_num) (by norm_num) (by norm_num)
    have hne1 : rhsTarget u 1 ≠ x := hneq 1 (by norm_num) (by norm_num) (by norm_num)
    have hne2 : rhsTarget u 2 ≠ x := hneq 2 (by norm_num) (by norm_num) (by norm_num)
    norm_num at hback ⊢
    rw [scanDir, cand3, find4] at hscan
    rw [scanDir, scanDir, cand3, cand1, find4, find4]
    by_cases m0 : rhsTarget u 0 ∈ V <;> by_cases m1 : rhsTarget u 1 ∈ V <;> by_cases m2 : rhsTarget u 2 ∈ V <;>
      simp_all [Finset.mem_erase, hxeq, hne0, hne1, hne2, hxV]

/-- When exactly one direction is open, the scan takes it regardless
of the arrival direction. -/
theorem eNext_only (V : Finset Pos) (p : Pos) (e kk : Int)
    (he : 0 ≤ e ∧ e < 4) (hkk : 0 ≤ kk ∧ kk < 4)
    (honly : ∀ k : Int, 0 ≤ k → k < 4 → (rhsTarget p k ∈ V ↔ k = kk)) :
    eNext V (p, e) = (rhsTarget p kk, kk) := by
  have f0 := honly 0 (by norm_num) (by norm_num)
  have f1 := honly 1 (by norm_num) (by norm_num)
  have f2 := honly 2 (by norm_num) (by norm_num)
  have f3 := honly 3 (by norm_num) (by norm_num)
  rcases (show e = 0 ∨ e = 1 ∨ e = 2 ∨ e = 3 by omega) with rfl | rfl | rfl | rfl <;>
    rcases (show kk = 0 ∨ kk = 1 ∨ kk = 2 ∨ kk = 3 by omega) with
      rfl | rfl | rfl | rfl <;>
    norm_num at f0 f1 f2 f3 <;> (unfold eNext; rw [scanDir]) <;>
    simp [cand0, cand1, cand2, cand3, find4, f0, f1, f2, f3]

theorem EOk_mono (V : Finset Pos) (x : Pos) (s : Pos × Int)
    (h : EOk (V.erase x) s) : EOk V s :=
  ⟨Finset.mem_of_mem_erase h.1, Finset.mem_of_mem_erase h.2.1, h.2.2.1, h.2.2.2⟩

/-- The four candidates cover every canonical direction. -/
theorem cand_cover (e k : Int) (he : 0 ≤ e ∧ e < 4) (hk : 0 ≤ k ∧ k < 4) :
    k ∈ cand e := by
  rcases (show e = 0 ∨ e = 1 ∨ e = 2 ∨ e = 3 by omega) with rfl | rfl | rfl | rfl <;>
    rcases (show k = 0 ∨ k = 1 ∨ k = 2 ∨ k = 3 by omega) with rfl | rfl | rfl | rfl <;>
    decide

/-- `(· + 2) % 4` is injective on canonical directions. -/
theorem mod4_shift_inj (a b : Int) (ha : 0 ≤ a ∧ a < 4) (hb : 0 ≤ b ∧ b < 4)
    (h : (a + 2) % 4 = (b + 2) % 4) : a = b := by omega

theorem mod4_shift_inv (a b : Int) (ha : 0 ≤ a ∧ a < 4) (hb : 0 ≤ b ∧ b < 4)
    (h : (a + 2) % 4 = b) : a = (b + 2) % 4 := by omega

theorem mod4_bounds (a : Int) : 0 ≤ (a + 2) % 4 ∧ (a + 2) % 4 < 4 :=
  ⟨Int.emod_nonneg _ (by norm_num), Int.emod_lt_of_pos _ (by norm_num)⟩

/-- At a leaf, the only open direction points at the unique
neighbour. -/
theorem leaf_only (V : Finset Pos) (x u : Pos) (hleaf : IsLeaf V x u)
    (dx : Int) (hdxb : 0 ≤ dx ∧ dx < 4) (hdx2 : rhsTarget u dx = x) :
    ∀ k : Int, 0 ≤ k → k < 4 → (rhsTarget x k ∈ V ↔ k = (dx + 2) % 4) := by
  have hback : rhsTarget x ((dx + 2) % 4) = u := by
    rw [← hdx2]
    exact rhsTarget_back u dx hdxb
  intro k h1 h2
  constructor
  · intro hkV
    have hadj : VAdj x (rhsTarget x k) := (VAdj_iff x _).mpr ⟨k, ⟨h1, h2⟩, rfl⟩
    have hu := hleaf.2.2.2 _ hkV hadj
    refine rhsTarget_inj x k ((dx + 2) % 4) ⟨h1, h2⟩ (mod4_bounds dx) ?_
    rw [hu, hback]
  · intro hk
    rw [hk, hback]
    exact hleaf.2.1

/-- `find?` only depends on the predicate's values on the list. -/
theorem find4_congr_mem (f g : Int → Bool) :
    ∀ l : List Int, (∀ a ∈ l, f a = g a) → l.find? f = l.find? g := by
  intro l
  induction l with
  | nil => intro h; rfl
  | cons a t ih =>
    intro h
    have ha := h a (by simp)
    cases hfa : f a
    · rw [List.find?_cons_of_neg _ (by simp [hfa]),
        List.find?_cons_of_neg _ (by simp [← ha, hfa])]
      exact ih (fun b hb => h b (by simp [hb]))
    · rw [List.find?_cons_of_pos _ (by simp [hfa]),
        List.find?_cons_of_pos _ (by simp [← ha, hfa])]

/-- A successful `find?` stays at the same element for any weaker
predicate that still holds there. -/
theorem find4_mono_eq (f g : Int → Bool) :
    ∀ (l : List Int) (k : Int), l.find? f = some k → g k = true →
      (∀ a ∈ l, g a = true → f a = true) → l.find? g = some k := by
  intro l
  induction l with
  | nil => intro k hf; simp at hf
  | cons a t ih =>
    intro k hf hg mono
    cases hfa : f a
    · rw [List.find?_cons_of_neg _ (by simp [hfa])] at hf
      have hga : g a = false := by
        cases hga : g a
        · rfl
        · exact absurd (mono a (by simp) hga) (by simp [hfa])
      rw [List.find?_cons_of_neg _ (by simp [hga])]
      exact ih k hf hg (fun b hb => mono b (by simp [hb]))
    · rw [List.find?_cons_of_pos _ (by simp [hfa])] at hf
      have hka : a = k := by simpa using hf
      rw [List.find?_cons_of_pos _ (by simp [hka, hg])]
      rw [hka]

/-- One step over the leafless set either agrees with the full step,
or the full walk takes a two-step detour through the leaf: three full
steps land where one leafless step does. -/
theorem eNext_splice (V : Finset Pos) (x u : Pos) (hleaf : IsLeaf V x u)
    (dx : Int) (hdxb : 0 ≤ dx ∧ dx < 4) (hdx2 : rhsTarget u dx = x)
    (s : Pos × Int) (hs : EOk (V.erase x) s) :
    eNext (V.erase x) s = eNext V s ∨
      (eNext V s = (x, dx) ∧ eNext (V.erase x) s = (eNext V)^[3] s) := by
  obtain ⟨p, e⟩ := s
  have hpm : p ∈ V.erase x := hs.1
  have hbm : rhsTarget p ((e + 2) % 4) ∈ V.erase x := hs.2.1
  have heb : 0 ≤ e ∧ e < 4 := ⟨hs.2.2.1, hs.2.2.2⟩
  have hsV : EOk V (p, e) := EOk_mono V x (p, e) hs
  obtain ⟨k, hscan0⟩ := scanDir_of_EOk V (p, e) hsV
  have hscan : scanDir V p e = some k := hscan0
  obtain ⟨hk_mem, hk_v⟩ := scanDir_some V p e k hscan
  have hkb := cand_bounds e k heb hk_mem
  by_cases htx : rhsTarget p k = x
  · right
    have hadjpx : VAdj p x := by
      rw [← htx]
      exact (VAdj_iff p _).mpr ⟨k, hkb, rfl⟩
    have hpu : p = u :=
      hleaf.2.2.2 p (Finset.mem_of_mem_erase hpm) (VAdj_symm p x hadjpx)
    subst hpu
    have hkdx : k = dx := by
      refine rhsTarget_inj p k dx hkb hdxb ?_
      rw [htx, hdx2]
    subst hkdx
    have hc1 : eNext V (p, e) = (x, k) := by
      show (match scanDir V (p, e).1 (p, e).2 with
            | some j => (rhsTarget (p, e).1 j, j)
            | none => (p, e)) = (x, k)
      rw [hscan0]
      show (rhsTarget p k, k) = (x, k)
      rw [htx]
    have hxu : rhsTarget x ((k + 2) % 4) = p := by
      rw [← hdx2]
      exact rhsTarget_back p k hkb
    have hc2 : eNext V (x, k) = (p, (k + 2) % 4) := by
      have hh := eNext_only V x k ((k + 2) % 4) hkb (mod4_bounds k)
        (leaf_only V x p hleaf k hkb hdx2)
      rw [hh, hxu]
    have hsoutV : EOk V (p, (k + 2) % 4) := by
      refine EOk_mk V p ((k + 2) % 4) hleaf.2.1 ?_ (mod4_bounds k).1 (mod4_bounds k).2
      have harith : (((k + 2) % 4) + 2) % 4 = k := by omega
      rw [harith, hdx2]
      exact hleaf.1
    obtain ⟨k2, hk20⟩ := scanDir_of_EOk V (p, (k + 2) % 4) hsoutV
    have hk2 : scanDir V p ((k + 2) % 4) = some k2 := hk20
    have hss := scan_splice V x p hleaf k e hkb hdx2 heb hbm hscan
    constructor
    · exact hc1
    · show eNext (V.erase x) (p, e) = eNext V (eNext V (eNext V (p, e)))
      rw [hc1, hc2]
      show (match scanDir (V.erase x) p e with
            | some j => (rhsTarget p j, j)
            | none => (p, e)) =
          (match scanDir V p ((k + 2) % 4) with
            | some j => (rhsTarget p j, j)
            | none => (p, (k + 2) % 4))
      rw [hss, hk2]
  · left
    have hkV' : rhsTarget p k ∈ V.erase x := Finset.mem_erase.mpr ⟨htx, hk_v⟩
    have hscan' : scanDir (V.erase x) p e = some k := by
      by_cases hpu : p = u
      · subst hpu
        unfold scanDir
        refine find4_mono_eq _ _ (cand e) k hscan ?_ ?_
        · simpa using hkV'
        · intro a ha hga
          have := of_decide_eq_true hga
          exact decide_eq_true (Finset.mem_of_mem_erase this)
      · unfold scanDir
        rw [find4_congr_mem _ (fun j => decide (rhsTarget p j ∈ V)) (cand e) ?_]
        · exact hscan
        · intro a ha
          have hab := cand_bounds e a heb ha
          have hax : rhsTarget p a ≠ x := by
            intro hh
            apply hpu
            apply hleaf.2.2.2 p (Finset.mem_of_mem_erase hpm)
            apply VAdj_symm
            rw [← hh]
            exact (VAdj_iff p _).mpr ⟨a, hab, rfl⟩
          show decide (rhsTarget p a ∈ V.erase x) = decide (rhsTarget p a ∈ V)
          by_cases hm : rhsTarget p a ∈ V <;> simp [Finset.mem_erase, hax, hm]
    show eNext (V.erase x) (p, e) = eNext V (p, e)
    unfold eNext
    rw [hscan0]
    show (match scanDir (V.erase x) p e with
          | some j => (rhsTarget p j, j)
          | none => (p, e)) = (rhsTarget p k, k)
    rw [hscan']

/-- Lifting a leafless walk to the full walk. -/
theorem splice_lift (V : Finset Pos) (x u : Pos) (hleaf : IsLeaf V x u)
    (dx : Int) (hdxb : 0 ≤ dx ∧ dx < 4) (hdx2 : rhsTarget u dx = x) :
    ∀ (n : Nat) (s : Pos × Int), EOk (V.erase x) s →
      ∃ m : Nat, (eNext V)^[m] s = (eNext (V.erase x))^[n] s := by
  intro n
  induction n with
  | zero =>
    intro s hs
    exact ⟨0, rfl⟩
  | succ n ih =>
    intro s hs
    have hs' : EOk (V.erase x) (eNext (V.erase x) s) := eNext_EOk _ s hs
    obtain ⟨m, hm⟩ := ih (eNext (V.erase x) s) hs'
    rcases eNext_splice V x u hleaf dx hdxb hdx2 s hs with hcase | ⟨h1, h2⟩
    · refine ⟨m + 1, ?_⟩
      rw [Function.iterate_succ_apply, Function.iterate_succ_apply]
      rw [← hcase]
      exact hm
    · refine ⟨m + 3, ?_⟩
      have hr : (eNext (V.erase x))^[n + 1] s =
          (eNext (V.erase x))^[n] (eNext (V.erase x) s) :=
        Function.iterate_succ_apply _ n s
      rw [hr, ← hm, h2, ← Function.iterate_add_apply]

/-- Valid full states are valid leafless states or one of the two
detour states. -/
theorem EOk_classify (V : Finset Pos) (x u : Pos) (hleaf : IsLeaf V x u)
    (dx : Int) (hdxb : 0 ≤ dx ∧ dx < 4) (hdx2 : rhsTarget u dx = x)
    (s : Pos × Int) (hs : EOk V s) :
    EOk (V.erase x) s ∨ s = (x, dx) ∨ s = (u, (dx + 2) % 4) := by
  obtain ⟨p, e⟩ := s
  have hp : p ∈ V := hs.1
  have hb : rhsTarget p ((e + 2) % 4) ∈ V := hs.2.1
  have heb : 0 ≤ e ∧ e < 4 := ⟨hs.2.2.1, hs.2.2.2⟩
  have hdb := hdxb
  by_cases hpx : p = x
  · right; left
    have hadj : VAdj p (rhsTarget p ((e + 2) % 4)) :=
      (VAdj_iff _ _).mpr ⟨_, mod4_bounds e, rfl⟩
    rw [hpx] at hadj hb
    have hu : rhsTarget x ((e + 2) % 4) = u := hleaf.2.2.2 _ hb hadj
    have hxu : rhsTarget x ((dx + 2) % 4) = u := by
      rw [← hdx2]
      exact rhsTarget_back u dx hdxb
    have hee : (e + 2) % 4 = (dx + 2) % 4 :=
      rhsTarget_inj x _ _ (mod4_bounds e) (mod4_bounds dx) (hu.trans hxu.symm)
    have he : e = dx := by omega
    rw [hpx, he]
  · by_cases hbx : rhsTarget p ((e + 2) % 4) = x
    · right; right
      have hadj : VAdj x p := by
        apply VAdj_symm
        rw [← hbx]
        exact (VAdj_iff _ _).mpr ⟨_, mod4_bounds e, rfl⟩
      have hpu : p = u := hleaf.2.2.2 p hp hadj
      rw [hpu] at hbx
      have hee : (e + 2) % 4 = dx :=
        rhsTarget_inj u _ _ (mod4_bounds e) hdxb (hbx.trans hdx2.symm)
      have he2 : e = (dx + 2) % 4 := by omega
      rw [hpu, he2]
    · left
      exact ⟨Finset.mem_erase.mpr ⟨hpx, hp⟩, Finset.mem_erase.mpr ⟨hbx, hb⟩,
        heb.1, heb.2⟩

/-- If `find?` settles on the last of four pairwise-distinguished
entries, the first three tests failed. -/
theorem find4_last (f : Int → Bool) (a b c d : Int) (ha : a ≠ d) (hb : b ≠ d)
    (hc : c ≠ d) (h : [a, b, c, d].find? f = some d) :
    f a = false ∧ f b = false ∧ f c = false := by
  rw [find4] at h
  split_ifs at h with h1 h2 h3 h4
  all_goals try exact absurd (by simpa using h) ha
  all_goals try exact absurd (by simpa using h) hb
  all_goals try exact absurd (by simpa using h) hc
  all_goals try simp at h
  all_goals exact ⟨by simpa using h1, by simpa using h2, by simpa using h3⟩

/-- With a second neighbour available, the walk leaving the leaf does
not immediately re-enter it. -/
theorem sout_step (V : Finset Pos) (x u : Pos) (hleaf : IsLeaf V x u)
    (dx : Int) (hdxb : 0 ≤ dx ∧ dx < 4) (hdx2 : rhsTarget u dx = x)
    (w : Pos) (hw : w ∈ V.erase x) (hwadj : VAdj u w) :
    ∃ k2, scanDir V u ((dx + 2) % 4) = some k2 ∧ k2 ≠ dx := by
  have hsoutV : EOk V (u, (dx + 2) % 4) := by
    refine EOk_mk V u ((dx + 2) % 4) hleaf.2.1 ?_ (mod4_bounds dx).1 (mod4_bounds dx).2
    have harith : (((dx + 2) % 4) + 2) % 4 = dx := by omega
    rw [harith, hdx2]
    exact hleaf.1
  obtain ⟨k2, hk20⟩ := scanDir_of_EOk V (u, (dx + 2) % 4) hsoutV
  have hk2 : scanDir V u ((dx + 2) % 4) = some k2 := hk20
  refine ⟨k2, hk2, ?_⟩
  intro hk2dx
  subst hk2dx
  obtain ⟨dw, hdwb, hdww⟩ := (VAdj_iff u w).mp hwadj
  have hdwdx : dw ≠ k2 := by
    intro hh
    rw [hh, hdx2] at hdww
    exact (Finset.mem_erase.mp hw).1 hdww.symm
  have hwV : w ∈ V := Finset.mem_of_mem_erase hw
  rcases (show k2 = 0 ∨ k2 = 1 ∨ k2 = 2 ∨ k2 = 3 by omega) with rfl | rfl | rfl | rfl
  · norm_num at hk2
    rw [scanDir, cand2] at hk2
    obtain ⟨f1, f2, f3⟩ := find4_last _ 3 2 1 0
      (by norm_num) (by norm_num) (by norm_num) hk2
    have n1 : rhsTarget u 3 ∉ V := by simpa using f1
    have n2 : rhsTarget u 2 ∉ V := by simpa using f2
    have n3 : rhsTarget u 1 ∉ V := by simpa using f3
    rcases (show dw = 1 ∨ dw = 2 ∨ dw = 3 by omega) with rfl | rfl | rfl
    · rw [hdww] at n3
      exact n3 hwV
    · rw [hdww] at n2
      exact n2 hwV
    · rw [hdww] at n1
      exact n1 hwV
  · norm_num at hk2
    rw [scanDir, cand3] at hk2
    obtain ⟨f1, f2, f3⟩ := find4_last _ 0 3 2 1
      (by norm_num) (by norm_num) (by norm_num) hk2
    have n1 : rhsTarget u 0 ∉ V := by simpa using f1
    have n2 : rhsTarget u 3 ∉ V := by simpa using f2
    have n3 : rhsTarget u 2 ∉ V := by simpa using f3
    rcases (show dw = 0 ∨ dw = 2 ∨ dw = 3 by omega) with rfl | rfl | rfl
    · rw [hdww] at n1
      exact n1 hwV
    · rw [hdww] at n3
      exact n3 hwV
    · rw [hdww] at n2
      exact n2 hwV
  · norm_num at hk2
    rw [scanDir, cand0] at hk2
    obtain ⟨f1, f2, f3⟩ := find4_last _ 1 0 3 2
      (by norm_num) (by norm_num) (by norm_num) hk2
    have n1 : rhsTarget u 1 ∉ V := by simpa using f1
    have n2 : rhsTarget u 0 ∉ V := by simpa using f2
    have n3 : rhsTarget u 3 ∉ V := by simpa using f3
    rcases (show dw = 0 ∨ dw = 1 ∨ dw = 3 by omega) with rfl | rfl | rfl
    · rw [hdww] at n2
      exact n2 hwV
    · rw [hdww] at n1
      exact n1 hwV
    · rw [hdww] at n3
      exact n3 hwV
  · norm_num at hk2
    rw [scanDir, cand1] at hk2
    obtain ⟨f1, f2, f3⟩ := find4_last _ 2 1 0 3
      (by norm_num) (by norm_num) (by norm_num) hk2
    have n1 : rhsTarget u 2 ∉ V := by simpa using f1
    have n2 : rhsTarget u 1 ∉ V := by simpa using f2
    have n3 : rhsTarget u 0 ∉ V := by simpa using f3
    rcases (show dw = 0 ∨ dw = 1 ∨ dw = 2 by omega) with rfl | rfl | rfl
    · rw [hdww] at n3
      exact n3 hwV
    · rw [hdww] at n2
      exact n2 hwV
    · rw [hdww] at n1
      exact n1 hwV

/-- On a perfect cell set the wall-following step has a single orbit:
every valid directed-edge state reaches every other.  Proof by
induction on the number of cells, removing a leaf and splicing its
two-step detour out of the walk. -/
theorem single_orbit : ∀ (N : Nat) (V : Finset Pos), V.card ≤ N →
    PerfectOn V → ∀ s t : Pos × Int, EOk V s → EOk V t →
      ∃ n : Nat, (eNext V)^[n] s = t := by
  intro N
  induction N with
  | zero =>
    intro V hcard hperf s t hs ht
    have hV : V = ∅ := Finset.card_eq_zero.mp (Nat.le_zero.mp hcard)
    rw [hV] at hs
    exact absurd hs.1 (by simp)
  | succ N ih =>
    intro V hcard hperf s t hs ht
    have hsp : s.1 ∈ V := hs.1
    have hsb : rhsTarget s.1 ((s.2 + 2) % 4) ∈ V := hs.2.1
    have hne : rhsTarget s.1 ((s.2 + 2) % 4) ≠ s.1 :=
      rhsTarget_ne s.1 _ (mod4_bounds s.2)
    have hcard2 : 2 ≤ V.card := Finset.one_lt_card.mpr ⟨_, hsb, _, hsp, hne⟩
    obtain ⟨x, u, hleaf⟩ := exists_leaf V hperf hcard2
    obtain ⟨dx, hdxb, hdx2⟩ := (VAdj_iff u x).mp (VAdj_symm x u hleaf.2.2.1)
    have hxu_ne : x ≠ u := VAdj_ne x u hleaf.2.2.1
    have hxu2 : rhsTarget x ((dx + 2) % 4) = u := by
      rw [← hdx2]
      exact rhsTarget_back u dx hdxb
    have hstep_in : eNext V (x, dx) = (u, (dx + 2) % 4) := by
      have hh := eNext_only V x dx ((dx + 2) % 4) hdxb (mod4_bounds dx)
        (leaf_only V x u hleaf dx hdxb hdx2)
      rw [hh, hxu2]
    by_cases hc2 : V.card = 2
    · -- two-cell base: the two detour states swap
      have hVxu : V = {x, u} := by
        symm
        apply Finset.eq_of_subset_of_card_le
        · intro q hq
          rcases Finset.mem_insert.mp hq with rfl | hq
          · exact hleaf.1
          · rw [Finset.mem_singleton.mp hq]
            exact hleaf.2.1
        · rw [hc2]
          rw [Finset.card_insert_of_not_mem (by simpa using hxu_ne),
            Finset.card_singleton]
      have honly_u : ∀ k : Int, 0 ≤ k → k < 4 → (rhsTarget u k ∈ V ↔ k = dx) := by
        intro k h1 h2
        constructor
        · intro hm
          rw [hVxu] at hm
          rcases Finset.mem_insert.mp hm with hm | hm
          · exact rhsTarget_inj u k dx ⟨h1, h2⟩ hdxb (hm.trans hdx2.symm)
          · exact absurd (Finset.mem_singleton.mp hm)
              (rhsTarget_ne u k ⟨h1, h2⟩)
        · intro hk
          rw [hk, hdx2]
          exact hleaf.1
      have hstep_out : eNext V (u, (dx + 2) % 4) = (x, dx) := by
        have hh := eNext_only V u ((dx + 2) % 4) dx (mod4_bounds dx) hdxb honly_u
        rw [hh, hdx2]
      have hV'none : ∀ r : Pos × Int, ¬ EOk (V.erase x) r := by
        intro r hr
        have h1 : r.1 ∈ V.erase x := hr.1
        have h2 : rhsTarget r.1 ((r.2 + 2) % 4) ∈ V.erase x := hr.2.1
        have hner : rhsTarget r.1 ((r.2 + 2) % 4) ≠ r.1 :=
          rhsTarget_ne r.1 _ (mod4_bounds r.2)
        have hge : 2 ≤ (V.erase x).card := Finset.one_lt_card.mpr ⟨_, h2, _, h1, hner⟩
        rw [Finset.card_erase_of_mem hleaf.1, hc2] at hge
        omega
      have hclass : ∀ r : Pos × Int, EOk V r → r = (x, dx) ∨ r = (u, (dx + 2) % 4) := by
        intro r hr
        rcases EOk_classify V x u hleaf dx hdxb hdx2 r hr with h | h | h
        · exact absurd h (hV'none r)
        · exact Or.inl h
        · exact Or.inr h
      rcases hclass s hs with rfl | rfl <;> rcases hclass t ht with h | h
      · exact ⟨0, h ▸ rfl⟩
      · refine ⟨1, ?_⟩
        show eNext V (x, dx) = t
        rw [hstep_in, h]
      · refine ⟨1, ?_⟩
        show eNext V (u, (dx + 2) % 4) = t
        rw [hstep_out, h]
      · exact ⟨0, h ▸ rfl⟩
    · -- at least three cells: remove the leaf and use the splice
      have hc3 : 3 ≤ V.card := by omega
      have huV' : u ∈ V.erase x :=
        Finset.mem_erase.mpr ⟨Ne.symm hxu_ne, hleaf.2.1⟩
      have hcard' : (V.erase x).card = V.card - 1 :=
        Finset.card_erase_of_mem hleaf.1
      have hperf' := perfect_erase V x u hleaf hperf
      -- a second neighbour of u inside the leafless set
      obtain ⟨a0, ha0, b0, hb0, hab0⟩ :=
        Finset.one_lt_card.mp (show 1 < (V.erase x).card by omega)
      obtain ⟨v', hv', hv'u⟩ : ∃ v', v' ∈ V.erase x ∧ v' ≠ u := by
        by_cases hau : a0 = u
        · exact ⟨b0, hb0, by rw [← hau]; exact fun hh => hab0 hh.symm⟩
        · exact ⟨a0, ha0, hau⟩
      obtain ⟨w, hwV', hwadj⟩ := exists_nbr (V.erase x) hperf' u v' huV' hv'
        (fun hh => hv'u hh.symm)
      obtain ⟨k2, hk2, hk2dx⟩ := sout_step V x u hleaf dx hdxb hdx2 w hwV' hwadj
      have hk2mem := scanDir_some V u ((dx + 2) % 4) k2 hk2
      have hk2b := cand_bounds ((dx + 2) % 4) k2 (mod4_bounds dx) hk2mem.1
      have hs2V' : EOk (V.erase x) (rhsTarget u k2, k2) := by
        refine EOk_mk _ _ _ ?_ ?_ hk2b.1 hk2b.2
        · refine Finset.mem_erase.mpr ⟨?_, hk2mem.2⟩
          intro hh
          exact hk2dx (rhsTarget_inj u k2 dx hk2b hdxb (hh.trans hdx2.symm))
        · rw [rhsTarget_back u k2 hk2b]
          exact huV'
      have hstep_sout : eNext V (u, (dx + 2) % 4) = (rhsTarget u k2, k2) := by
        show (match scanDir V (u, (dx + 2) % 4).1 (u, (dx + 2) % 4).2 with
              | some j => (rhsTarget (u, (dx + 2) % 4).1 j, j)
              | none => (u, (dx + 2) % 4)) = (rhsTarget u k2, k2)
        rw [show scanDir V (u, (dx + 2) % 4).1 (u, (dx + 2) % 4).2 = some k2 from hk2]
      have hred : ∃ (a : Nat) (s' : Pos × Int), EOk (V.erase x) s' ∧
          (eNext V)^[a] s = s' := by
        rcases EOk_classify V x u hleaf dx hdxb hdx2 s hs with h | h | h
        · exact ⟨0, s, h, rfl⟩
        · refine ⟨2, (rhsTarget u k2, k2), hs2V', ?_⟩
          rw [h]
          show eNext V (eNext V (x, dx)) = _
          rw [hstep_in, hstep_sout]
        · refine ⟨1, (rhsTarget u k2, k2), hs2V', ?_⟩
          rw [h]
          show eNext V (u, (dx + 2) % 4) = _
          exact hstep_sout
      have hsinV : EOk V (x, dx) := by
        refine EOk_mk V x dx hleaf.1 ?_ hdxb.1 hdxb.2
        rw [hxu2]
        exact hleaf.2.1
      obtain ⟨pr, hprV, hpr_eq⟩ := eNext_surj V (x, dx) hsinV
      have hprV' : EOk (V.erase x) pr := by
        rcases EOk_classify V x u hleaf dx hdxb hdx2 pr hprV with hh | hh | hh
        · exact hh
        · rw [hh, hstep_in] at hpr_eq
          have : u = x := congrArg Prod.fst hpr_eq
          exact absurd this.symm hxu_ne
        · rw [hh, hstep_sout] at hpr_eq
          have : k2 = dx := congrArg Prod.snd hpr_eq
          exact absurd this hk2dx
      have hpre : ∃ (b : Nat) (t' : Pos × Int), EOk (V.erase x) t' ∧
          (eNext V)^[b] t' = t := by
        rcases EOk_classify V x u hleaf dx hdxb hdx2 t ht with h | h | h
        · exact ⟨0, t, h, rfl⟩
        · refine ⟨1, pr, hprV', ?_⟩
          rw [h]
          show eNext V pr = (x, dx)
          exact hpr_eq
        · refine ⟨2, pr, hprV', ?_⟩
          rw [h]
          show eNext V (eNext V pr) = (u, (dx + 2) % 4)
          rw [hpr_eq, hstep_in]
      obtain ⟨a, s', hs', hsa⟩ := hred
      obtain ⟨b, t', ht', htb⟩ := hpre
      obtain ⟨n', hn'⟩ := ih (V.erase x) (by omega) hperf' s' t' hs' ht'
      obtain ⟨m, hm⟩ := splice_lift V x u hleaf dx hdxb hdx2 n' s' hs'
      refine ⟨b + m + a, ?_⟩
      calc (eNext V)^[b + m + a] s
          = (eNext V)^[b] ((eNext V)^[m] ((eNext V)^[a] s)) := by
            rw [Function.iterate_add_apply, Function.iterate_add_apply]
      _ = (eNext V)^[b] ((eNext V)^[m] s') := by rw [hsa]
      _ = (eNext V)^[b] t' := by rw [hm, hn']
      _ = t := htb

/-! ## Bridging the abstract walk and `RightHandSolver` (C2) -/

theorem mem_pathCells (m : MazeStructure) (p : Pos) :
    p ∈ pathCells m ↔ m.is_path p.1 p.2 = true := by
  unfold pathCells
  rw [Finset.mem_filter]
  constructor
  · intro h
    exact h.2
  · intro h
    refine ⟨?_, h⟩
    have hv : 0 ≤ p.1 ∧ p.1 < (m.rows : Int) ∧ 0 ≤ p.2 ∧ p.2 < (m.cols : Int) :=
      of_decide_eq_true (is_path_valid m p.1 p.2 h)
    apply Finset.mem_image.mpr
    refine ⟨(p.1.toNat, p.2.toNat), ?_, ?_⟩
    · rw [Finset.mem_product]
      constructor <;> rw [Finset.mem_range] <;> omega
    · have hqq : ((p.1.toNat : Int), (p.2.toNat : Int)) = (p.1, p.2) := by
        rw [Prod.mk.injEq]
        exact ⟨by omega, by omega⟩
      rw [hqq]

theorem pathCells_card (m : MazeStructure) : (pathCells m).card ≤ m.rows * m.cols := by
  have h1 : (pathCells m).card ≤ ((Finset.range m.rows ×ˢ Finset.range m.cols).image
      (fun rc : Nat × Nat => ((rc.1 : Int), (rc.2 : Int)))).card :=
    Finset.card_filter_le _ _
  have h2 : ((Finset.range m.rows ×ˢ Finset.range m.cols).image
      (fun rc : Nat × Nat => ((rc.1 : Int), (rc.2 : Int)))).card ≤
      (Finset.range m.rows ×ˢ Finset.range m.cols).card := Finset.card_image_le
  rw [Finset.card_product, Finset.card_range, Finset.card_range] at h2
  omega

theorem decide_pathCells (m : MazeStructure) (q : Pos) :
    decide (q ∈ pathCells m) = m.is_path q.1 q.2 := by
  by_cases h : q ∈ pathCells m
  · rw [decide_eq_true h, (mem_pathCells m q).mp h]
  · rw [decide_eq_false h]
    cases hq : m.is_path q.1 q.2
    · rfl
    · exact absurd ((mem_pathCells m q).mpr hq) h

theorem can_move_gpid (m : MazeStructure) (p : Pos) : ∀ j : Int,
    can_move_to m (get_position_in_direction m (some p) j) =
      m.is_path (rhsTarget p j).1 (rhsTarget p j).2 := by
  intro j
  by_cases hv : m.is_valid_position (rhsTarget p j).1 (rhsTarget p j).2 = true
  · have hg : get_position_in_direction m (some p) j = some (rhsTarget p j) := by
      show (if m.is_valid_position (rhsTarget p j).1 (rhsTarget p j).2 = true
          then some (rhsTarget p j) else none) = some (rhsTarget p j)
      rw [if_pos hv]
    rw [hg]
    show m.is_path (rhsTarget p j).1 (rhsTarget p j).2 = _
    rfl
  · have hg : get_position_in_direction m (some p) j = none := by
      show (if m.is_valid_position (rhsTarget p j).1 (rhsTarget p j).2 = true
          then some (rhsTarget p j) else none) = none
      rw [if_neg hv]
    rw [hg]
    show false = m.is_path (rhsTarget p j).1 (rhsTarget p j).2
    cases hq : m.is_path (rhsTarget p j).1 (rhsTarget p j).2
    · rfl
    · exact absurd (is_path_valid m _ _ hq) hv

theorem gpid_of_path (m : MazeStructure) (p : Pos) (j : Int)
    (h : m.is_path (rhsTarget p j).1 (rhsTarget p j).2 = true) :
    get_position_in_direction m (some p) j = some (rhsTarget p j) := by
  show (if m.is_valid_position (rhsTarget p j).1 (rhsTarget p j).2 = true
      then some (rhsTarget p j) else none) = some (rhsTarget p j)
  rw [if_pos (is_path_valid m _ _ h)]

/-- A successful scan describes `_get_next_move` exactly. -/
theorem get_next_move_some (m : MazeStructure) (s : RightHandSolver) (p : Pos)
    (k : Int) (hp : s.current_pos = some p)
    (hscan : scanDir (pathCells m) p s.current_direction = some k) :
    get_next_move m s = (some (rhsTarget p k), k) := by
  have hgnm : get_next_move m s =
      (if can_move_to m (get_position_in_direction m s.current_pos
          ((s.current_direction + 1) % 4)) then
        (get_position_in_direction m s.current_pos ((s.current_direction + 1) % 4),
          (s.current_direction + 1) % 4)
      else if can_move_to m (get_position_in_direction m s.current_pos
          s.current_direction) then
        (get_position_in_direction m s.current_pos s.current_direction,
          s.current_direction)
      else if can_move_to m (get_position_in_direction m s.current_pos
          ((s.current_direction - 1) % 4)) then
        (get_position_in_direction m s.current_pos ((s.current_direction - 1) % 4),
          (s.current_direction - 1) % 4)
      else if can_move_to m (get_position_in_direction m s.current_pos
          ((s.current_direction + 2) % 4)) then
        (get_position_in_direction m s.current_pos ((s.current_direction + 2) % 4),
          (s.current_direction + 2) % 4)
      else (none, s.current_direction)) := rfl
  rw [hgnm, hp, can_move_gpid m p, can_move_gpid m p, can_move_gpid m p,
    can_move_gpid m p]
  rw [scanDir] at hscan
  rw [show cand s.current_direction = [(s.current_direction + 1) % 4,
    s.current_direction, (s.current_direction - 1) % 4,
    (s.current_direction + 2) % 4] from rfl, find4] at hscan
  rw [decide_pathCells, decide_pathCells, decide_pathCells, decide_pathCells] at hscan
  by_cases h1 : m.is_path (rhsTarget p ((s.current_direction + 1) % 4)).1
      (rhsTarget p ((s.current_direction + 1) % 4)).2 = true
  · rw [if_pos h1]
    rw [if_pos h1] at hscan
    have hk : (s.current_direction + 1) % 4 = k := by simpa using hscan
    rw [gpid_of_path m p _ h1, hk]
  · rw [if_neg h1]
    rw [if_neg h1] at hscan
    by_cases h2 : m.is_path (rhsTarget p s.current_direction).1
        (rhsTarget p s.current_direction).2 = true
    · rw [if_pos h2]
      rw [if_pos h2] at hscan
      have hk : s.current_direction = k := by simpa using hscan
      rw [gpid_of_path m p _ h2, hk]
    · rw [if_neg h2]
      rw [if_neg h2] at hscan
      by_cases h3 : m.is_path (rhsTarget p ((s.current_direction - 1) % 4)).1
          (rhsTarget p ((s.current_direction - 1) % 4)).2 = true
      · rw [if_pos h3]
        rw [if_pos h3] at hscan
        have hk : (s.current_direction - 1) % 4 = k := by simpa using hscan
        rw [gpid_of_path m p _ h3, hk]
      · rw [if_neg h3]
        rw [if_neg h3] at hscan
        by_cases h4 : m.is_path (rhsTarget p ((s.current_direction + 2) % 4)).1
            (rhsTarget p ((s.current_direction + 2) % 4)).2 = true
        · rw [if_pos h4]
          rw [if_pos h4] at hscan
          have hk : (s.current_direction + 2) % 4 = k := by simpa using hscan
          rw [gpid_of_path m p _ h4, hk]
        · rw [if_neg h4] at hscan
          simp at hscan

/-- One non-terminal solver step follows the abstract walk. -/
theorem step_solve_sim (m : MazeStructure) (s : RightHandSolver) (x : Pos × Int)
    (k : Int) (hmatch : rhsMatches s x)
    (hscan : scanDir (pathCells m) x.1 x.2 = some k)
    (hnotend : x.1 ≠ m.endPos)
    (hnotadj : is_exit_adjacent m s = false) :
    (RightHandSolver.step_solve m s).2 = true ∧
      rhsMatches (RightHandSolver.step_solve m s).1 (rhsTarget x.1 k, k) ∧
      eNext (pathCells m) x = (rhsTarget x.1 k, k) := by
  obtain ⟨hpos, hdir, hcomp⟩ := hmatch
  have hgnm : get_next_move m s = (some (rhsTarget x.1 k), k) := by
    apply get_next_move_some m s x.1 k hpos
    rw [hdir]
    exact hscan
  have hstep : RightHandSolver.step_solve m s =
      ({ s with current_pos := some (rhsTarget x.1 k)
                current_direction := k
                path_taken := s.path_taken ++ [rhsTarget x.1 k]
                visited_positions := s.visited_positions.insert (rhsTarget x.1 k) },
        true) := by
    unfold RightHandSolver.step_solve
    rw [hcomp, hgnm]
    rw [if_neg (by simp)]
    rw [if_neg (show ¬ s.current_pos = some m.endPos by
      rw [hpos]
      simpa using hnotend)]
    rw [if_neg (show ¬ is_exit_adjacent m s = true by simp [hnotadj])]
  have henext : eNext (pathCells m) x = (rhsTarget x.1 k, k) := by
    unfold eNext
    rw [hscan]
  refine ⟨by rw [hstep], ?_, henext⟩
  rw [hstep]
  exact ⟨rfl, rfl, hcomp⟩

/-- The first solver call from a state at the end marker stops there
with the completion flag set. -/
theorem rhs_stop_at_end (m : MazeStructure) (s : RightHandSolver) (x : Pos × Int)
    (hmatch : rhsMatches s x) (hxe : x.1 = m.endPos) :
    (rhsIter m 1 s).solving_complete = true ∧
      (rhsIter m 1 s).current_pos = some m.endPos := by
  have hstep : RightHandSolver.step_solve m s =
      ({ s with solving_complete := true }, false) := by
    unfold RightHandSolver.step_solve
    rw [hmatch.2.2]
    rw [if_neg (by simp)]
    rw [if_pos (by rw [hmatch.1, hxe])]
  show (RightHandSolver.step_solve m s).1.solving_complete = true ∧
    (RightHandSolver.step_solve m s).1.current_pos = some m.endPos
  rw [hstep]
  refine ⟨rfl, ?_⟩
  show s.current_pos = some m.endPos
  rw [hmatch.1, hxe]

/-- Driving the solver along the abstract walk: if the walk's position
reaches the end marker within `n` steps, the solver completes at the
end marker within `n + 1` calls. -/
theorem rhs_run (m : MazeStructure) :
    ∀ (n : Nat) (x : Pos × Int) (s : RightHandSolver),
      EOk (pathCells m) x → rhsMatches s x →
      ((eNext (pathCells m))^[n] x).1 = m.endPos →
      ∃ j, j ≤ n + 1 ∧ (rhsIter m j s).solving_complete = true ∧
        (rhsIter m j s).current_pos = some m.endPos := by
  intro n
  induction n with
  | zero =>
    intro x s hok hmatch hx
    exact ⟨1, le_rfl, rhs_stop_at_end m s x hmatch hx⟩
  | succ n ih =>
    intro x s hok hmatch hx
    by_cases hxe : x.1 = m.endPos
    · exact ⟨1, by omega, rhs_stop_at_end m s x hmatch hxe⟩
    · by_cases hadj : is_exit_adjacent m s = true
      · refine ⟨1, by omega, ?_⟩
        have hstep : RightHandSolver.step_solve m s =
            ({ s with current_pos := some m.endPos
                      path_taken := s.path_taken ++ [m.endPos]
                      solving_complete := true }, false) := by
          unfold RightHandSolver.step_solve
          rw [hmatch.2.2]
          rw [if_neg (by simp)]
          rw [if_neg (show ¬ s.current_pos = some m.endPos by
            rw [hmatch.1]
            simpa using hxe)]
          rw [if_pos hadj]
        show (RightHandSolver.step_solve m s).1.solving_complete = true ∧
          (RightHandSolver.step_solve m s).1.current_pos = some m.endPos
        rw [hstep]
        exact ⟨rfl, rfl⟩
      · have hnadj : is_exit_adjacent m s = false := by
          cases hia : is_exit_adjacent m s
          · rfl
          · exact absurd hia hadj
        obtain ⟨k, hscan⟩ := scanDir_of_EOk (pathCells m) x hok
        obtain ⟨hflag, hmatch', henext⟩ := step_solve_sim m s x k hmatch hscan hxe hnadj
        have hok' : EOk (pathCells m) (eNext (pathCells m) x) := eNext_EOk _ x hok
        have hx' : ((eNext (pathCells m))^[n] (eNext (pathCells m) x)).1 = m.endPos := by
          rw [← Function.iterate_succ_apply]
          exact hx
        obtain ⟨j, hj, hres⟩ := ih (eNext (pathCells m) x)
          (RightHandSolver.step_solve m s).1 hok' (by rw [henext]; exact hmatch') hx'
        exact ⟨j + 1, by omega, hres⟩

/-- The first solver call from a state next to the end marker jumps
to the exit and completes. -/
theorem rhs_stop_adjacent (m : MazeStructure) (s : RightHandSolver) (x : Pos × Int)
    (hmatch : rhsMatches s x) (hxe : x.1 ≠ m.endPos)
    (hadj : is_exit_adjacent m s = true) :
    (rhsIter m 1 s).solving_complete = true ∧
      (rhsIter m 1 s).current_pos = some m.endPos := by
  have hstep : RightHandSolver.step_solve m s =
      ({ s with current_pos := some m.endPos
                path_taken := s.path_taken ++ [m.endPos]
                solving_complete := true }, false) := by
    unfold RightHandSolver.step_solve
    rw [hmatch.2.2]
    rw [if_neg (by simp)]
    rw [if_neg (show ¬ s.current_pos = some m.endPos by
      rw [hmatch.1]
      simpa using hxe)]
    rw [if_pos hadj]
  show (RightHandSolver.step_solve m s).1.solving_complete = true ∧
    (RightHandSolver.step_solve m s).1.current_pos = some m.endPos
  rw [hstep]
  exact ⟨rfl, rfl⟩

/-- C2: on a perfect maze whose start and end markers are Path cells,
repeatedly calling `step_solve` after `start_solving` completes with
the current position at the end marker, within `4*rows*cols + 2`
steps. -/
theorem C2_wall_following_correct (m : MazeStructure)
    (hperf : PerfectOn (pathCells m))
    (hstart : m.start ∈ pathCells m) (hend : m.endPos ∈ pathCells m) :
    ∃ j, j ≤ 4 * (m.rows * m.cols) + 2 ∧
      (rhsIter m j (RightHandSolver.start_solving m)).solving_complete = true ∧
      (rhsIter m j (RightHandSolver.start_solving m)).current_pos = some m.endPos := by
  have hbound : (EStates (pathCells m)).card ≤ 4 * (m.rows * m.cols) := by
    have h1 := EStates_card (pathCells m)
    have h2 := pathCells_card m
    omega
  have hs0match : rhsMatches (RightHandSolver.start_solving m) ((m.start, 1)) :=
    ⟨rfl, rfl, rfl⟩
  by_cases hse : m.start = m.endPos
  · exact ⟨1, by omega, rhs_stop_at_end m _ (m.start, 1) hs0match hse⟩
  · by_cases hadj0 : is_exit_adjacent m (RightHandSolver.start_solving m) = true
    · exact ⟨1, by omega, rhs_stop_adjacent m _ (m.start, 1) hs0match hse hadj0⟩
    · have hnadj0 : is_exit_adjacent m (RightHandSolver.start_solving m) = false := by
        cases hia : is_exit_adjacent m (RightHandSolver.start_solving m)
        · rfl
        · exact absurd hia hadj0
      -- target: the edge entering the end marker
      obtain ⟨wend, hwendV, hwendadj⟩ :=
        exists_nbr (pathCells m) hperf m.endPos m.start hend hstart (Ne.symm hse)
      obtain ⟨kt, hktb, hktw⟩ := (VAdj_iff wend m.endPos).mp (VAdj_symm _ _ hwendadj)
      have htok : EOk (pathCells m) (m.endPos, kt) := by
        refine EOk_mk _ _ _ hend ?_ hktb.1 hktb.2
        have hb : rhsTarget m.endPos ((kt + 2) % 4) = wend := by
          rw [← hktw]
          exact rhsTarget_back wend kt hktb
        rw [hb]
        exact hwendV
      -- first move from the start marker
      obtain ⟨w0, hw0V, hw0adj⟩ :=
        exists_nbr (pathCells m) hperf m.start m.endPos hstart hend hse
      obtain ⟨k0, hk0b, hk0w⟩ := (VAdj_iff m.start w0).mp hw0adj
      obtain ⟨k1, hscan1⟩ := scanDir_total (pathCells m) m.start 1 k0
        (cand_cover 1 k0 (by norm_num) hk0b) (by rw [hk0w]; exact hw0V)
      obtain ⟨hflag1, hmatch1, henext1⟩ :=
        step_solve_sim m (RightHandSolver.start_solving m) (m.start, 1) k1
          hs0match hscan1 hse hnadj0
      obtain ⟨hk1mem, hk1v⟩ := scanDir_some (pathCells m) m.start 1 k1 hscan1
      have hk1b := cand_bounds 1 k1 (by norm_num) hk1mem
      have hx1ok : EOk (pathCells m) (rhsTarget m.start k1, k1) := by
        refine EOk_mk _ _ _ hk1v ?_ hk1b.1 hk1b.2
        rw [rhsTarget_back m.start k1 hk1b]
        exact hstart
      obtain ⟨n0, hn0⟩ := single_orbit (pathCells m).card (pathCells m) le_rfl hperf
        (rhsTarget m.start k1, k1) (m.endPos, kt) hx1ok htok
      obtain ⟨n, hnb, hn⟩ := eNext_reach_bound (pathCells m)
        (rhsTarget m.start k1, k1) (m.endPos, kt) hx1ok ⟨n0, hn0⟩
      have hx_end : ((eNext (pathCells m))^[n] (rhsTarget m.start k1, k1)).1 =
          m.endPos := by
        rw [hn]
      obtain ⟨j, hj, hres⟩ := rhs_run m n (rhsTarget m.start k1, k1)
        (RightHandSolver.step_solve m (RightHandSolver.start_solving m)).1
        hx1ok hmatch1 hx_end
      refine ⟨j + 1, by omega, ?_⟩
      exact hres

/-- The only simple path from a cell to itself is the trivial one. -/
theorem sp_self (V : Finset Pos) (u : Pos) (l : List Pos)
    (h : IsSimplePathOn V u u l) : l = [u] := by
  by_cases h2 : 2 ≤ l.length
  · exfalso
    obtain ⟨a, l0, hdecomp, hadj, haV, hane, hsub⟩ := sp_penult V u u l h h2
    have hmem : u ∈ l0 ++ [a] := List.mem_of_mem_head? hsub.2.2.2.1
    have hn := h.2.2.1
    rw [hdecomp] at hn
    have hsplit : l0 ++ [a, u] = (l0 ++ [a]) ++ [u] := by simp
    rw [hsplit, List.nodup_append] at hn
    exact hn.2.2 hmem (by simp)
  · rcases l with _ | ⟨a, t⟩
    · exact absurd h.2.2.2.1 (by simp)
    · rcases t with _ | ⟨b, t'⟩
      · have ha : a = u := by simpa using h.2.2.2.1
        rw [ha]
      · exfalso
        apply h2
        simp

/-- In a two-cell set, the only simple path between the two cells is
the one-step path. -/
theorem sp_pair_unique (V : Finset Pos) (u v : Pos) (l : List Pos)
    (hV : V.card = 2) (hne : u ≠ v) (h : IsSimplePathOn V u v l) : l = [u, v] := by
  have h2 : 2 ≤ l.length := sp_length_two V u v l h hne
  have hle : l.length ≤ 2 := by
    have := sp_length_le_card V l h.2.2.1 h.2.1
    omega
  rcases l with _ | ⟨p, t⟩
  · simp at h2
  rcases t with _ | ⟨q, t'⟩
  · simp at h2
  rcases t' with _ | ⟨r, t''⟩
  · have hp : p = u := by simpa using h.2.2.2.1
    have hq : q = v := by simpa using h.2.2.2.2
    rw [hp, hq]
  · exfalso
    simp at hle

/-- A pair of adjacent cells is a perfect cell set. -/
theorem perfect_pair (a b : Pos) (hadj : VAdj a b) (hne : a ≠ b) :
    PerfectOn ({a, b} : Finset Pos) := by
  have hcard : ({a, b} : Finset Pos).card = 2 := by
    rw [Finset.card_insert_of_not_mem (by simpa using hne), Finset.card_singleton]
  intro u hu v hv
  by_cases huv : u = v
  · subst huv
    exact ⟨[u], sp_singleton _ u hu, fun l hl => sp_self _ u l hl⟩
  · have hadjuv : VAdj u v := by
      rcases Finset.mem_insert.mp hu with hu1 | hu1 <;>
        rcases Finset.mem_insert.mp hv with hv1 | hv1
      · exact absurd (hu1.trans hv1.symm) huv
      · rw [hu1, Finset.mem_singleton.mp hv1]
        exact hadj
      · rw [Finset.mem_singleton.mp hu1, hv1]
        exact VAdj_symm a b hadj
      · exact absurd ((Finset.mem_singleton.mp hu1).trans
          (Finset.mem_singleton.mp hv1).symm) huv
    exact ⟨[u, v], sp_two _ u v hadjuv hu hv huv,
      fun l hl => sp_pair_unique _ u v l hcard huv hl⟩

/-- Witness: on the 1×2 all-path corridor (a perfect maze), the wall
follower completes at the end marker within the bound. -/
theorem C2_wall_following_correct_witness :
    ∃ j, j ≤ 4 * (corridor2.rows * corridor2.cols) + 2 ∧
      (rhsIter corridor2 j
        (RightHandSolver.start_solving corridor2)).solving_complete = true ∧
      (rhsIter corridor2 j
        (RightHandSolver.start_solving corridor2)).current_pos =
        some corridor2.endPos := by
  apply C2_wall_following_correct corridor2 ?_ (by decide) (by decide)
  have hpc : pathCells corridor2 =
      {((0 : Int), (0 : Int)), ((0 : Int), (1 : Int))} := by decide
  rw [hpc]
  exact perfect_pair (0, 0) (0, 1) (by decide) (by decide)
